import Mathlib

/-!
EllipticPIR client core: a shallow embedding of `ci.c` and of its Node binding
`epir_napi.cpp`.

The C functions of `src/src/ci.c` are rendered as Lean functions over byte
lists.  Machine integers are natural numbers or integers with the wrap-around
written out; operations whose behaviour C leaves undefined (a read or write
outside an object, a shift by at least the width of the operand, a division by
zero) stop the run with an `Err`.  Unbounded loops take a fuel argument and
report `Err.fuel` when it runs out.  The OpenMP parallel loops are run in index
order.  The Ed25519 arithmetic of the provider library and the two counting
helpers of `ci.h` are not part of `ci.c`; they are modelled from their contracts
in the specification.  `ci_reply_decrypt` has a second rendering that records
the bytes of the reply it touches and checks none, with the values of the
decryptions and of the shifts as parameters.  The functions of
`src/src/epir_napi.cpp` are rendered over a
small type of JavaScript values, with the static table and its flag as an
explicit state; the `epir_` functions they call are declared in `epir.h`, which
is not part of the sources, and stand for the functions of `ci.c`.
-/

namespace EllipticPIR

/-! ## Machine model -/

/-- Reasons for which a run of the C code yields no value. -/
inductive Err where
  /-- a read or write outside the bounds of a buffer or table -/
  | outOfBounds
  /-- a shift whose count is at least the width of the promoted left operand -/
  | shiftCount
  /-- an integer division by zero -/
  | divZero
  /-- the loop budget of the model was exhausted (not a behaviour of the code) -/
  | fuel
  /-- an allocation that fails: the C++ exception is not caught and ends the process -/
  | alloc
  deriving DecidableEq, Repr

/-- Number of values of `size_t` and `uint64_t` (LP64). -/
def WORD : Nat := 2 ^ 64

/-- Unsigned 64-bit addition. -/
def uadd64 (a b : Nat) : Nat := (a + b) % WORD

/-- Unsigned 64-bit subtraction (wraps below zero). -/
def usub64 (a b : Nat) : Nat := (a + WORD - b % WORD) % WORD

/-- Unsigned 64-bit multiplication. -/
def umul64 (a b : Nat) : Nat := (a * b) % WORD

/-- Conversion of an unsigned value to a 32-bit signed `int` / `int32_t`
(two's complement, the value is reduced modulo `2^32`). -/
def toInt32 (n : Nat) : Int :=
  if n % 2 ^ 32 < 2 ^ 31 then ((n % 2 ^ 32 : Nat) : Int) else ((n % 2 ^ 32 : Nat) : Int) - 2 ^ 32

/-- The size `CI_SCALAR_SIZE` of a scalar in bytes (from `ci.h`). -/
def CI_SCALAR_SIZE : Nat := 32

/-- The size `CI_POINT_SIZE` of an encoded point in bytes (from `ci.h`). -/
def CI_POINT_SIZE : Nat := 32

/-- The size `CI_CIPHER_SIZE` of a ciphertext in bytes, two points (from `ci.h`). -/
def CI_CIPHER_SIZE : Nat := 64

/-- The `memcmp` of the C library on the first `n` bytes: zero when they agree,
otherwise the difference of the first pair of bytes that differ. -/
def memcmp : List Nat → List Nat → Nat → Int
  | a :: as, b :: bs, n + 1 => if a = b then memcmp as bs n else (a : Int) - (b : Int)
  | _, _, _ => 0

/-- A `for (i = 0; i < n; i++)` loop threading a state through a body that may fail. -/
def forLoop {σ : Type} (body : Nat → σ → Except Err σ) : Nat → σ → Except Err σ
  | 0, s => .ok s
  | n + 1, s =>
    match forLoop body n s with
    | .error e => .error e
    | .ok s => body n s

/-- A checked one-byte store `buf[i] = v`. -/
def store (buf : List Nat) (i v : Nat) : Except Err (List Nat) :=
  if i < buf.length then .ok (buf.set i v) else .error .outOfBounds

/-- A checked one-byte load `buf[i]`. -/
def load (buf : List Nat) (i : Nat) : Except Err Nat :=
  match buf[i]? with
  | some v => .ok v
  | none => .error .outOfBounds

/-! ## The discrete-log table and its binary search -/

/-- An entry of the `mG` table (`ci_mG_t`): a 4-byte unsigned scalar and a 32-byte point. -/
structure ci_mG_t where
  scalar : Nat
  point : List Nat
  deriving DecidableEq, Repr

/-- The loop of `ci_ecelgamal_binary_search`; `imin` and `imax` are `size_t`. -/
def binary_search_loop (find : List Nat) (mG : List ci_mG_t) : Nat → Nat → Nat → Except Err Int
  | 0, _, _ => .error .fuel
  | fuel + 1, imin, imax =>
    if imin ≤ imax then
      let imid := uadd64 imin (usub64 imax imin / 2)
      match mG[imid]? with
      | none => .error .outOfBounds
      | some e =>
        let cmp := memcmp e.point find CI_POINT_SIZE
        if cmp < 0 then binary_search_loop find mG fuel (uadd64 imid 1) imax
        else if cmp > 0 then binary_search_loop find mG fuel imin (usub64 imid 1)
        else .ok (toInt32 e.scalar)
    else .ok (-1)

/-- The function `ci_ecelgamal_binary_search(find, mG, mmax)`. -/
def ci_ecelgamal_binary_search (fuel : Nat) (find : List Nat) (mG : List ci_mG_t) (mmax : Nat) :
    Except Err Int :=
  binary_search_loop find mG fuel 0 (usub64 mmax 1)

/-- Strictly ascending order of the point fields under `memcmp` on 32 bytes. -/
def StrictlyAscending (mG : List ci_mG_t) : Prop :=
  mG.Pairwise (fun a b => memcmp a.point b.point CI_POINT_SIZE < 0)

deriving instance DecidableEq for Except

/-! ## Scalars and the Ed25519 provider -/

/-- Value of a little-endian byte string, `a[0] + 256 a[1] + 256^2 a[2] + ...`. -/
def le_value : List Nat → Nat
  | [] => 0
  | b :: bs => b + 256 * le_value bs

/-- The `n` low bytes of `x`, least significant first. -/
def le_bytes : Nat → Nat → List Nat
  | 0, _ => []
  | n + 1, x => x % 256 :: le_bytes n (x / 256)

/-- The function `sc25519_load_uint64(sc, n)`: eight explicit byte stores, then
`memset` of the remaining `CI_SCALAR_SIZE - 8` bytes. -/
def sc25519_load_uint64 (n : Nat) : List Nat :=
  [ n &&& 0xFF, (n >>> 8) &&& 0xFF, (n >>> 16) &&& 0xFF, (n >>> 24) &&& 0xFF,
    (n >>> 32) &&& 0xFF, (n >>> 40) &&& 0xFF, (n >>> 48) &&& 0xFF, (n >>> 56) &&& 0xFF ]
  ++ List.replicate (CI_SCALAR_SIZE - 8) 0

/-- The Ed25519 arithmetic provider the core is built on (spec section 4.A), as a
parameter: a commutative group of points with a base point `G` annihilated by
the group order `ell`, and a 32-byte encoding that decodes back to the point. -/
class Ed25519 (Pt : Type) extends AddCommGroup Pt where
  G : Pt
  ell : Nat
  ell_pos : 0 < ell
  ell_le : ell ≤ 2 ^ 256
  ell_smul_G : ell • G = 0
  tobytes : Pt → List Nat
  frombytes : List Nat → Pt
  tobytes_length : ∀ P : Pt, (tobytes P).length = CI_POINT_SIZE
  frombytes_tobytes : ∀ P : Pt, frombytes (tobytes P) = P

open Ed25519

/-- Modelled from the spec: `ge25519_scalarmult_base` of the provider, `base_scalarmult(s) = s·G`
with `s` the little-endian value of the 32 bytes. -/
def ge25519_scalarmult_base (Pt : Type) [Ed25519 Pt] (a : List Nat) : Pt :=
  le_value a • (G : Pt)

/-- Modelled from the spec: `ge25519_scalarmult` of the provider, `scalarmult(s, P) = s·P`. -/
def ge25519_scalarmult {Pt : Type} [Ed25519 Pt] (a : List Nat) (p : Pt) : Pt :=
  le_value a • p

/-- Modelled from the spec: `ge25519_double_scalarmult_vartime(r, a, A, b)` of the provider as
section 4.C uses it, `c2 = r·P + m·G` from the call with `(r, P, m)`, that is `a·A + b·G`, the
contract of the library function.  (The one-line summary of section 4.A pairs the scalars
with `G` and `P` the other way round; sections 3 and 4.C and the library agree on this one.) -/
def ge25519_double_scalarmult_vartime {Pt : Type} [Ed25519 Pt]
    (a : List Nat) (A : Pt) (b : List Nat) : Pt :=
  le_value a • A + le_value b • (G : Pt)

/-- Modelled from the spec: `ge25519_sub_p3_p3` of the provider, `sub(A, B) = A − B`. -/
def ge25519_sub_p3_p3 {Pt : Type} [Ed25519 Pt] (p q : Pt) : Pt := p - q

/-- Modelled from the spec: `sc25519_muladd(s, a, b, c)` of the provider,
`scalar_muladd(a, b, c) = a·b + c mod ℓ`, stored as 32 little-endian bytes. -/
def sc25519_muladd (Pt : Type) [Ed25519 Pt] (a b c : List Nat) : List Nat :=
  le_bytes CI_SCALAR_SIZE ((le_value a * le_value b + le_value c) % ell Pt)

/-! ## EC-ElGamal -/

/-- The function `ci_ecelgamal_encrypt(cipher, pubkey, message, r)`.  A null `r` is
`none`; `rnd` is the scalar that `crypto_core_ed25519_scalar_random` would deliver. -/
def ci_ecelgamal_encrypt (Pt : Type) [Ed25519 Pt] (pubkey : List Nat) (message : Nat)
    (r : Option (List Nat)) (rnd : List Nat) : List Nat :=
  let rr := match r with
    | none => rnd
    | some r => r.take CI_SCALAR_SIZE
  let c1 : Pt := ge25519_scalarmult_base Pt rr
  let mm := sc25519_load_uint64 message
  let p : Pt := frombytes pubkey
  let c2 : Pt := ge25519_double_scalarmult_vartime rr p mm
  tobytes c1 ++ tobytes c2

/-- The function `ci_ecelgamal_encrypt_fast(cipher, privkey, message, r)`. -/
def ci_ecelgamal_encrypt_fast (Pt : Type) [Ed25519 Pt] (privkey : List Nat) (message : Nat)
    (r : Option (List Nat)) (rnd : List Nat) : List Nat :=
  let rr := match r with
    | none => rnd
    | some r => r.take CI_SCALAR_SIZE
  let c1 : Pt := ge25519_scalarmult_base Pt rr
  let mm := sc25519_load_uint64 message
  let rr := sc25519_muladd Pt rr privkey mm
  let c2 : Pt := ge25519_scalarmult_base Pt rr
  tobytes c1 ++ tobytes c2

/-- The function `ci_ecelgamal_decrypt(privkey, cipher, mG, mmax)`. -/
def ci_ecelgamal_decrypt (Pt : Type) [Ed25519 Pt] (fuel : Nat) (privkey cipher : List Nat)
    (mG : List ci_mG_t) (mmax : Nat) : Except Err Int :=
  let c1 : Pt := frombytes (cipher.take CI_POINT_SIZE)
  let c2 : Pt := frombytes ((cipher.drop CI_POINT_SIZE).take CI_POINT_SIZE)
  let tmp : Pt := ge25519_scalarmult privkey c1
  let M : Pt := ge25519_sub_p3_p3 c2 tmp
  let Mc := tobytes M
  ci_ecelgamal_binary_search fuel Mc mG mmax

/-- The public key of a private key, `pubkey_from_privkey(sk) = sk·G` encoded (spec section 4.B). -/
def pubkey_of (Pt : Type) [Ed25519 Pt] (sk : List Nat) : List Nat :=
  tobytes (ge25519_scalarmult_base Pt sk)

/-- The `mG` table for plaintexts below `mmax`: `mmax` entries, strictly ascending by
point encoding, holding the pair `(m, m·G)` for every `m < mmax`. -/
def WellFormedTable (Pt : Type) [Ed25519 Pt] (mG : List ci_mG_t) (mmax : Nat) : Prop :=
  mG.length = mmax ∧ StrictlyAscending mG ∧
    ∀ m : Nat, m < mmax → (⟨m, tobytes (m • (G : Pt))⟩ : ci_mG_t) ∈ mG

/-! ## Loading the table -/

/-- The batch size `BATCH_SIZE` of `ci_ecelgamal_load_mg`, `(1 << 10)`. -/
def BATCH_SIZE : Nat := 1 <<< 10

/-- The call `fread(&mG[pos], sizeof(ci_mG_t), nmemb, fp)` on a file that holds complete
36-byte records only: the first `nmemb` records still unread (fewer at end of file) are stored
from `mG[pos]` on; yields the table, the number of records read and the rest of the file. -/
def fread_records (mG : List ci_mG_t) (pos nmemb : Nat) (file : List ci_mG_t) :
    Except Err (List ci_mG_t × Nat × List ci_mG_t) :=
  let got := file.take nmemb
  if pos + got.length ≤ mG.length then
    .ok (mG.take pos ++ got ++ mG.drop (pos + got.length), got.length, file.drop nmemb)
  else .error .outOfBounds

/-- The `for (;;)` loop of `ci_ecelgamal_load_mg`, on the state `(mG, elemsRead, file)`. -/
def load_mg_loop (mmax : Nat) :
    Nat → List ci_mG_t → Nat → List ci_mG_t → Except Err (List ci_mG_t × Nat)
  | 0, _, _, _ => .error .fuel
  | fuel + 1, mG, elemsRead, file =>
    let rest := usub64 mmax elemsRead
    let nmemb := if BATCH_SIZE < rest then BATCH_SIZE else rest
    match fread_records mG elemsRead nmemb file with
    | .error e => .error e
    | .ok (mG, read, file) =>
      let elemsRead := uadd64 elemsRead read
      if read < BATCH_SIZE then .ok (mG, elemsRead)
      else load_mg_loop mmax fuel mG elemsRead file

/-- The function `ci_ecelgamal_load_mg(mG, mmax, path)`.  The file at `path` is `none` when
`fopen` fails and otherwise the sequence of its records; yields the table and the returned
`int`. -/
def ci_ecelgamal_load_mg (fuel : Nat) (mG : List ci_mG_t) (mmax : Nat)
    (file : Option (List ci_mG_t)) : Except Err (List ci_mG_t × Int) :=
  match file with
  | none => .ok (mG, 0)
  | some records =>
    match load_mg_loop mmax fuel mG 0 records with
    | .error e => .error e
    | .ok (mG, elemsRead) => .ok (mG, toInt32 elemsRead)

/-! ## Selector builder -/

/-- Modelled from the spec: `ci_selector_elements_count` (declared in `ci.h`),
`elements_count = ∏ index_counts[i]`, computed in `uint64_t`. -/
def ci_selector_elements_count (index_counts : List Nat) : Nat :=
  index_counts.foldl umul64 1

/-- Modelled from the spec: `ci_selector_ciphers_count` (declared in `ci.h`),
`ciphers_count = Σ index_counts[i]`, computed in `uint64_t`. -/
def ci_selector_ciphers_count (index_counts : List Nat) : Nat :=
  index_counts.foldl uadd64 0

/-- One pass through lines 117–120 of `ci_selector_create_`: `prod /= cols`,
`rows = idx_ / prod`, `idx_ -= rows * prod`; yields the new `prod`, `rows` and the new `idx_`. -/
def selector_step (prod idx_ cols : Nat) : Except Err (Nat × Nat × Nat) :=
  if cols = 0 then .error .divZero
  else
    let prod := prod / cols
    if prod = 0 then .error .divZero
    else
      let rows := idx_ / prod
      .ok (prod, rows, usub64 idx_ (umul64 rows prod))

/-- The digits `rows` that the first loop of `ci_selector_create_` computes, dimension by
dimension (the loop of lines 116–125 without its stores). -/
def selector_rows : List Nat → Nat → Nat → Except Err (List Nat)
  | [], _, _ => .ok []
  | cols :: rest, prod, idx_ =>
    match selector_step prod idx_ cols with
    | .error e => .error e
    | .ok (prod, rows, idx_) =>
      match selector_rows rest prod idx_ with
      | .error e => .error e
      | .ok rs => .ok (rows :: rs)

/-- The inner loop `for (r = 0; r < index_counts[ic]; r++)`: one store and `offset++`. -/
def selector_inner (rows : Nat) (r : Nat) (st : List Nat × Nat) : Except Err (List Nat × Nat) :=
  match store st.1 (st.2 * CI_CIPHER_SIZE) (if r = rows then 1 else 0) with
  | .error e => .error e
  | .ok ciphers => .ok (ciphers, st.2 + 1)

/-- The first loop of `ci_selector_create_` over the dimensions `index_counts[0..n_indexes)`,
from the state `(prod, idx_, ciphers, offset)`; yields the buffer and the final `offset`. -/
def selector_fill : List Nat → Nat → Nat → List Nat → Nat → Except Err (List Nat × Nat)
  | [], _, _, ciphers, offset => .ok (ciphers, offset)
  | cols :: rest, prod, idx_, ciphers, offset =>
    match selector_step prod idx_ cols with
    | .error e => .error e
    | .ok (prod, rows, idx_) =>
      match forLoop (selector_inner rows) cols (ciphers, offset) with
      | .error e => .error e
      | .ok (ciphers, offset) => selector_fill rest prod idx_ ciphers offset

/-- The first loop of `ci_selector_create_` from its initial state: the plaintext selector. -/
def ci_selector_create_first_loop (ciphers : List Nat) (index_counts : List Nat) (idx : Nat) :
    Except Err (List Nat × Nat) :=
  selector_fill index_counts (ci_selector_elements_count index_counts) idx ciphers 0

/-- A checked store of a block of bytes at `buf + pos`. -/
def storeBlock (buf : List Nat) (pos : Nat) (block : List Nat) : Except Err (List Nat) :=
  if pos + block.length ≤ buf.length then
    .ok (buf.take pos ++ block ++ buf.drop (pos + block.length))
  else .error .outOfBounds

/-- The body of the second loop of `ci_selector_create_`: slot `i` is replaced by the
encryption of its first byte; `rnd i` is the randomness drawn for this slot. -/
def selector_encrypt_slot (encrypt : List Nat → Nat → Option (List Nat) → List Nat → List Nat)
    (key : List Nat) (rnd : Nat → List Nat) (i : Nat) (ciphers : List Nat) :
    Except Err (List Nat) :=
  match load ciphers (i * CI_CIPHER_SIZE) with
  | .error e => .error e
  | .ok b => storeBlock ciphers (i * CI_CIPHER_SIZE) (encrypt key (if b ≠ 0 then 1 else 0) none (rnd i))

/-- The function `ci_selector_create_(ciphers, key, index_counts, n_indexes, idx, encrypt)`. -/
def ci_selector_create_ (encrypt : List Nat → Nat → Option (List Nat) → List Nat → List Nat)
    (rnd : Nat → List Nat) (ciphers key : List Nat) (index_counts : List Nat) (idx : Nat) :
    Except Err (List Nat) :=
  match ci_selector_create_first_loop ciphers index_counts idx with
  | .error e => .error e
  | .ok (ciphers, offset) => forLoop (selector_encrypt_slot encrypt key rnd) offset ciphers

/-- First byte of each of the first `n` slots of a buffer. -/
def slotBytes (buf : List Nat) (n : Nat) : List (Option Nat) :=
  (List.range n).map (fun k => buf[k * CI_CIPHER_SIZE]?)

/-- Value of the digit vector `rows` in the mixed radix `index_counts`, most significant
digit first: `Σ_i rows_i · ∏_{k>i} n_k`. -/
def mixed_radix_value : List Nat → List Nat → Nat
  | _ :: ns, r :: rs => r * ns.prod + mixed_radix_value ns rs
  | _, _ => 0

/-! ## Reply decoder -/

/-- The 64 bytes at `&reply[i * CI_CIPHER_SIZE]` that `ci_ecelgamal_decrypt` reads. -/
def cipherAt (reply : List Nat) (i : Nat) : Except Err (List Nat) :=
  if i * CI_CIPHER_SIZE + CI_CIPHER_SIZE ≤ reply.length then
    .ok ((reply.drop (i * CI_CIPHER_SIZE)).take CI_CIPHER_SIZE)
  else .error .outOfBounds

/-- The expression `(decrypted >> (8 * p)) & 0xFF` on a non-negative `int32_t`: the shift is
undefined once the count `8 * p` reaches the 32 bits of the promoted operand. -/
def shr_byte (decrypted : Int) (p : Nat) : Except Err Nat :=
  if 8 * p < 32 then .ok ((decrypted.toNat >>> (8 * p)) &&& 0xFF) else .error .shiftCount

/-- The body of the unpack loop: `reply[i * CI_CIPHER_SIZE + p] = (decrypted >> (8 * p)) & 0xFF`. -/
def reply_unpack (i : Nat) (decrypted : Int) (p : Nat) (reply : List Nat) :
    Except Err (List Nat) :=
  match shr_byte decrypted p with
  | .error e => .error e
  | .ok b => store reply (i * CI_CIPHER_SIZE + p) b

/-- The call `ci_ecelgamal_decrypt(privkey, &reply[i * CI_CIPHER_SIZE], mG, mmax)`: the value
to which the `i`-th ciphertext of the buffer decrypts. -/
def decrypt_at (Pt : Type) [Ed25519 Pt] (fuel : Nat) (privkey : List Nat) (mG : List ci_mG_t)
    (mmax : Nat) (reply : List Nat) (i : Nat) : Except Err Int :=
  match cipherAt reply i with
  | .error e => .error e
  | .ok c => ci_ecelgamal_decrypt Pt fuel privkey c mG mmax

/-- The body of the decryption loop of a phase, on the state `(reply, success)`.  The loop is
an OpenMP parallel for; its iterations are run here in index order. -/
def reply_decrypt_slot (Pt : Type) [Ed25519 Pt] (fuel : Nat) (privkey : List Nat) (packing : Nat)
    (mG : List ci_mG_t) (mmax : Nat) (i : Nat) (st : List Nat × Bool) :
    Except Err (List Nat × Bool) :=
  match decrypt_at Pt fuel privkey mG mmax st.1 i with
  | .error e => .error e
  | .ok decrypted =>
    if decrypted < 0 then .ok (st.1, false)
    else
      match forLoop (reply_unpack i decrypted) packing st.1 with
      | .error e => .error e
      | .ok reply => .ok (reply, st.2)

/-- The body of the inner compaction loop: `reply[i * packing + p] = reply[i * CI_CIPHER_SIZE + p]`. -/
def reply_compact_byte (packing i p : Nat) (reply : List Nat) : Except Err (List Nat) :=
  match load reply (i * CI_CIPHER_SIZE + p) with
  | .error e => .error e
  | .ok b => store reply (i * packing + p) b

/-- The body of the outer compaction loop. -/
def reply_compact_slot (packing i : Nat) (reply : List Nat) : Except Err (List Nat) :=
  forLoop (reply_compact_byte packing i) packing reply

/-- The phase loop of `ci_reply_decrypt`, with `n` iterations left before `phase` reaches
`dimension`; yields the buffer and the returned `int`. -/
def reply_phases (Pt : Type) [Ed25519 Pt] (fuel : Nat) (privkey : List Nat)
    (dimension packing : Nat) (mG : List ci_mG_t) (mmax : Nat) :
    Nat → Nat → List Nat → Nat → Except Err (List Nat × Int)
  | 0, _, reply, mid_count => .ok (reply, toInt32 mid_count)
  | n + 1, phase, reply, mid_count =>
    match forLoop (reply_decrypt_slot Pt fuel privkey packing mG mmax) mid_count (reply, true) with
    | .error e => .error e
    | .ok (reply, success) =>
      if !success then .ok (reply, -1)
      else
        match forLoop (reply_compact_slot packing) mid_count reply with
        | .error e => .error e
        | .ok reply =>
          if phase + 1 = dimension then .ok (reply, toInt32 (umul64 mid_count packing))
          else
            reply_phases Pt fuel privkey dimension packing mG mmax n (phase + 1) reply
              (umul64 mid_count packing / CI_CIPHER_SIZE)

/-- The function `ci_reply_decrypt(reply, reply_size, privkey, dimension, packing, mG, mmax)`. -/
def ci_reply_decrypt (Pt : Type) [Ed25519 Pt] (fuel : Nat) (reply : List Nat) (reply_size : Nat)
    (privkey : List Nat) (dimension packing : Nat) (mG : List ci_mG_t) (mmax : Nat) :
    Except Err (List Nat × Int) :=
  reply_phases Pt fuel privkey dimension packing mG mmax dimension 0 reply
    (reply_size / CI_CIPHER_SIZE)

/-- The number `N_k` of ciphertexts of phase `k`: `N_0 = ⌊reply_size / 64⌋`,
`N_{k+1} = ⌊N_k · p / 64⌋`. -/
def phase_count (reply_size packing : Nat) : Nat → Nat
  | 0 => reply_size / CI_CIPHER_SIZE
  | k + 1 => phase_count reply_size packing k * packing / CI_CIPHER_SIZE

/-- The buffer `b` is `buf` with its first `w` bytes replaced by the compaction of `buf`:
byte `k < w` is the byte `k mod p` of slot `⌊k / p⌋` of `buf`. -/
def CompactedTo (buf : List Nat) (p w : Nat) (b : List Nat) : Prop :=
  b.length = buf.length ∧
    ∀ k : Nat, b[k]? = if k < w then buf[k / p * CI_CIPHER_SIZE + k % p]? else buf[k]?

/-- The phases that a run of `ci_reply_decrypt` on `reply` reaches: `Reached … k buf N` says
that phase `k` starts with the buffer `buf` and `N` ciphertexts.  Phase 0 starts with the
reply itself; phase `k + 1` is reached when every ciphertext of phase `k` decrypted to a
non-negative value, and starts with the unpacked and compacted buffer. -/
inductive Reached (Pt : Type) [Ed25519 Pt] (fuel : Nat) (privkey : List Nat) (packing : Nat)
    (mG : List ci_mG_t) (mmax : Nat) (reply : List Nat) (reply_size : Nat) :
    Nat → List Nat → Nat → Prop where
  | start : Reached Pt fuel privkey packing mG mmax reply reply_size 0 reply
      (reply_size / CI_CIPHER_SIZE)
  | next {k : Nat} {buf : List Nat} {N : Nat} {b1 b2 : List Nat} :
      Reached Pt fuel privkey packing mG mmax reply reply_size k buf N →
      (∀ i : Nat, i < N → ∃ v : Int, decrypt_at Pt fuel privkey mG mmax buf i = .ok v ∧ 0 ≤ v) →
      forLoop (reply_decrypt_slot Pt fuel privkey packing mG mmax) N (buf, true) = .ok (b1, true) →
      forLoop (reply_compact_slot packing) N b1 = .ok b2 →
      Reached Pt fuel privkey packing mG mmax reply reply_size (k + 1) b2
        (umul64 N packing / CI_CIPHER_SIZE)

/-- Some ciphertext of a reached phase `k` with `lo ≤ k < d` decrypts to a negative value. -/
def FailsFrom (Pt : Type) [Ed25519 Pt] (fuel : Nat) (privkey : List Nat) (p : Nat)
    (mG : List ci_mG_t) (mmax : Nat) (reply : List Nat) (reply_size : Nat) (lo d : Nat) : Prop :=
  ∃ (k : Nat) (b : List Nat) (N : Nat), lo ≤ k ∧ k < d ∧
    Reached Pt fuel privkey p mG mmax reply reply_size k b N ∧
    ∃ i : Nat, i < N ∧ ∃ v : Int, decrypt_at Pt fuel privkey mG mmax b i = .ok v ∧ v < 0

/-- A check that every one of the first `N` ciphertexts of `b` decrypts to a non-negative value. -/
def slots_ok (Pt : Type) [Ed25519 Pt] (fuel : Nat) (privkey : List Nat) (mG : List ci_mG_t)
    (mmax : Nat) (b : List Nat) (N : Nat) : Bool :=
  (List.range N).all (fun i =>
    match decrypt_at Pt fuel privkey mG mmax b i with
    | .ok v => decide (0 ≤ v)
    | .error _ => false)

/-- A check that every ciphertext of each of the next `n` phases decrypts to a non-negative
value, starting from the buffer `b` with `N` ciphertexts. -/
def phases_ok (Pt : Type) [Ed25519 Pt] (fuel : Nat) (privkey : List Nat) (p : Nat)
    (mG : List ci_mG_t) (mmax : Nat) : Nat → List Nat → Nat → Bool
  | 0, _, _ => true
  | n + 1, b, N =>
    slots_ok Pt fuel privkey mG mmax b N &&
      match forLoop (reply_decrypt_slot Pt fuel privkey p mG mmax) N (b, true) with
      | .ok (b1, true) =>
        match forLoop (reply_compact_slot p) N b1 with
        | .ok b2 => phases_ok Pt fuel privkey p mG mmax n b2 (umul64 N p / CI_CIPHER_SIZE)
        | .error _ => false
      | _ => false

/-- The indices `imid` at which the loop of `ci_ecelgamal_binary_search` reads `mG[imid]`, in
order; the list ends with the first read outside the table, if there is one. -/
def binary_search_probes (find : List Nat) (mG : List ci_mG_t) : Nat → Nat → Nat → List Nat
  | 0, _, _ => []
  | fuel + 1, imin, imax =>
    if imin ≤ imax then
      let imid := uadd64 imin (usub64 imax imin / 2)
      imid ::
        match mG[imid]? with
        | none => []
        | some e =>
          let cmp := memcmp e.point find CI_POINT_SIZE
          if cmp < 0 then binary_search_probes find mG fuel (uadd64 imid 1) imax
          else if cmp > 0 then binary_search_probes find mG fuel imin (usub64 imid 1)
          else []
    else []

/-- Modelled from the spec: the componentwise sum of two ciphertexts as group elements (the
homomorphism invariant of section 3): both halves are decoded, added and encoded again.  The
server-side code that adds ciphertexts is not part of the sources. -/
def cipher_add (Pt : Type) [Ed25519 Pt] (a b : List Nat) : List Nat :=
  tobytes ((frombytes (a.take CI_POINT_SIZE) : Pt) + frombytes (b.take CI_POINT_SIZE)) ++
    tobytes ((frombytes ((a.drop CI_POINT_SIZE).take CI_POINT_SIZE) : Pt) +
      frombytes ((b.drop CI_POINT_SIZE).take CI_POINT_SIZE))

/-! ## Reply decoder: the bytes of the reply that a run touches -/

/-- A `for (i = 0; i < n; i++)` loop whose body cannot fail. -/
def forLoopTotal {σ : Type} (body : Nat → σ → σ) : Nat → σ → σ
  | 0, s => s
  | n + 1, s => body n (forLoopTotal body n s)

/-- The reply buffer of a run of `ci_reply_decrypt` with a record of the run: the byte indices
of `reply` read or written so far, latest first, and the values of `mid_count` with which the
phases were entered, latest first. -/
structure ReplyTrace where
  reply : List Nat
  accessed : List Nat
  counts : List Nat
  deriving DecidableEq, Repr

/-- A read `reply[i]`, recorded.  No bound is checked: a byte outside the buffer reads as 0. -/
def ReplyTrace.read (t : ReplyTrace) (i : Nat) : Nat × ReplyTrace :=
  (t.reply.getD i 0, ⟨t.reply, i :: t.accessed, t.counts⟩)

/-- A write `reply[i] = v`, recorded.  No bound is checked: a write outside the buffer stores
nothing. -/
def ReplyTrace.write (t : ReplyTrace) (i v : Nat) : ReplyTrace :=
  ⟨t.reply.set i v, i :: t.accessed, t.counts⟩

/-- The read of the 64 bytes at `&reply[i * CI_CIPHER_SIZE]` by `ci_ecelgamal_decrypt`,
recorded byte by byte. -/
def ReplyTrace.readCipher (t : ReplyTrace) (i : Nat) : List Nat × ReplyTrace :=
  ((t.reply.drop (i * CI_CIPHER_SIZE)).take CI_CIPHER_SIZE,
    ⟨t.reply, (List.range' (i * CI_CIPHER_SIZE) CI_CIPHER_SIZE).reverse ++ t.accessed,
      t.counts⟩)

/-- The body of the unpack loop, recorded:
`reply[i * CI_CIPHER_SIZE + p] = (decrypted >> (8 * p)) & 0xFF`.  The value of the right-hand
side is `shr decrypted p`, whatever the shift yields. -/
def trace_unpack (shr : Int → Nat → Nat) (i : Nat) (decrypted : Int) (p : Nat)
    (t : ReplyTrace) : ReplyTrace :=
  t.write (i * CI_CIPHER_SIZE + p) (shr decrypted p)

/-- The body of the decryption loop of a phase, recorded, on the state `(reply, success)`;
`decrypt c` is the value that `ci_ecelgamal_decrypt` returns for the ciphertext `c`. -/
def trace_decrypt_slot (decrypt : List Nat → Int) (shr : Int → Nat → Nat) (packing : Nat)
    (i : Nat) (st : ReplyTrace × Bool) : ReplyTrace × Bool :=
  let r := st.1.readCipher i
  let decrypted := decrypt r.1
  if decrypted < 0 then (r.2, false)
  else (forLoopTotal (trace_unpack shr i decrypted) packing r.2, st.2)

/-- The body of the inner compaction loop, recorded:
`reply[i * packing + p] = reply[i * CI_CIPHER_SIZE + p]`. -/
def trace_compact_byte (packing i p : Nat) (t : ReplyTrace) : ReplyTrace :=
  let r := t.read (i * CI_CIPHER_SIZE + p)
  r.2.write (i * packing + p) r.1

/-- The body of the outer compaction loop, recorded. -/
def trace_compact_slot (packing i : Nat) (t : ReplyTrace) : ReplyTrace :=
  forLoopTotal (trace_compact_byte packing i) packing t

/-- The phase loop of `ci_reply_decrypt`, recorded, with `n` iterations left before `phase`
reaches `dimension`; yields the record and the returned `int`. -/
def trace_phases (decrypt : List Nat → Int) (shr : Int → Nat → Nat) (dimension packing : Nat) :
    Nat → Nat → ReplyTrace → Nat → ReplyTrace × Int
  | 0, _, t, mid_count => (t, toInt32 mid_count)
  | n + 1, phase, t, mid_count =>
    let r := forLoopTotal (trace_decrypt_slot decrypt shr packing) mid_count
      (⟨t.reply, t.accessed, mid_count :: t.counts⟩, true)
    if !r.2 then (r.1, -1)
    else
      let t := forLoopTotal (trace_compact_slot packing) mid_count r.1
      if phase + 1 = dimension then (t, toInt32 (umul64 mid_count packing))
      else
        trace_phases decrypt shr dimension packing n (phase + 1) t
          (umul64 mid_count packing / CI_CIPHER_SIZE)

/-- The function `ci_reply_decrypt(reply, reply_size, privkey, dimension, packing, mG, mmax)`
with every access to `reply` recorded and none checked.  The two operations that do not touch
`reply` are parameters: `decrypt` for the result of `ci_ecelgamal_decrypt` on a ciphertext and
`shr` for the byte `(decrypted >> (8 * p)) & 0xFF`, so that the run goes on where the strict
model stops at a shift count of 32 or more. -/
def ci_reply_decrypt_trace (decrypt : List Nat → Int) (shr : Int → Nat → Nat)
    (reply : List Nat) (reply_size dimension packing : Nat) : ReplyTrace × Int :=
  trace_phases decrypt shr dimension packing dimension 0 ⟨reply, [], []⟩
    (reply_size / CI_CIPHER_SIZE)

/-- The record `t` of a run on a buffer of `L` bytes: the buffer still has `L` bytes, every
index recorded is below `L`, and the values of `mid_count` recorded are `cs`. -/
def ReplyTrace.Within (L : Nat) (cs : List Nat) (t : ReplyTrace) : Prop :=
  t.reply.length = L ∧ (∀ i ∈ t.accessed, i < L) ∧ t.counts = cs

/-! ## The Node binding (`epir_napi.cpp`) -/

/-- The constant `EPIR_MG_MAX`, `(1 << 24)`. -/
def EPIR_MG_MAX : Nat := 1 <<< 24

/-- Modelled from the spec: `EPIR_SCALAR_SIZE` (declared in `epir.h`), the 32 bytes of a scalar. -/
def EPIR_SCALAR_SIZE : Nat := 32

/-- Modelled from the spec: `EPIR_POINT_SIZE` (declared in `epir.h`), the 32 bytes of a point. -/
def EPIR_POINT_SIZE : Nat := 32

/-- Modelled from the spec: `EPIR_CIPHER_SIZE` (declared in `epir.h`), the 64 bytes of a
ciphertext. -/
def EPIR_CIPHER_SIZE : Nat := 64

/-- Modelled from the spec: `epir_ecelgamal_load_mg` (declared in `epir.h`), the table loader
`load_mG` of section 4.D, which `ci.c` implements as `ci_ecelgamal_load_mg`. -/
def epir_ecelgamal_load_mg (fuel : Nat) (mG : List ci_mG_t) (mmax : Nat)
    (file : Option (List ci_mG_t)) : Except Err (List ci_mG_t × Int) :=
  ci_ecelgamal_load_mg fuel mG mmax file

/-- Modelled from the spec: `epir_reply_decrypt` (declared in `epir.h`), the reply decoder of
section 4.F, which `ci.c` implements as `ci_reply_decrypt`. -/
def epir_reply_decrypt (Pt : Type) [Ed25519 Pt] (fuel : Nat) (reply : List Nat)
    (reply_size : Nat) (privkey : List Nat) (dimension packing : Nat) (mG : List ci_mG_t)
    (mmax : Nat) : Except Err (List Nat × Int) :=
  ci_reply_decrypt Pt fuel reply reply_size privkey dimension packing mG mmax

/-- Modelled from the spec: `epir_selector_elements_count` (declared in `epir.h`),
`elements_count = ∏ index_counts[i]` in `uint64_t`. -/
def epir_selector_elements_count (index_counts : List Nat) : Nat :=
  ci_selector_elements_count index_counts

/-- Modelled from the spec: `epir_selector_ciphers_count` (declared in `epir.h`),
`ciphers_count = Σ index_counts[i]` in `uint64_t`. -/
def epir_selector_ciphers_count (index_counts : List Nat) : Nat :=
  ci_selector_ciphers_count index_counts

/-- Modelled from the spec: `epir_selector_create` and `epir_selector_create_fast` (declared
in `epir.h`), the selector builder of section 4.E with one of the two encryption forms, which
`ci.c` implements as `ci_selector_create_`; `n_indexes` counts the dimensions it visits. -/
def epir_selector_create_ (encrypt : List Nat → Nat → Option (List Nat) → List Nat → List Nat)
    (rnd : Nat → List Nat) (ciphers key index_counts : List Nat) (n_indexes idx : Nat) :
    Except Err (List Nat) :=
  ci_selector_create_ encrypt rnd ciphers key (index_counts.take n_indexes) idx

/-- The element type of a typed array, as far as the binding tells them apart. -/
inductive TypedArrayType where
  | uint8
  | bigUint64
  | other
  deriving DecidableEq, Repr

/-- An element of a JavaScript array: a number or anything else. -/
inductive JsElem where
  | number (x : Int)
  | other
  deriving DecidableEq, Repr

/-- A JavaScript value passed to or returned by the binding.  A number is given by the 64-bit
integer that `Int64Value` reads from it (floating point is left out); a typed array by its
element type and its elements, bytes for a `Uint8Array`. -/
inductive JsValue where
  | number (x : Int)
  | string (s : String)
  | typedArray (type : TypedArrayType) (data : List Nat)
  | array (elems : List JsElem)
  | other
  deriving DecidableEq, Repr

/-- The kinds of exception the binding throws. -/
inductive ErrorKind where
  | TypeError
  | RangeError
  | Error
  deriving DecidableEq, Repr

/-- The messages of the exceptions the binding throws. -/
inductive Msg where
  /-- Message: Wrong number of arguments. -/
  | wrongNumberOfArguments
  /-- Message: The type of the parameter is not a TypedArray. -/
  | notTypedArray
  /-- Message: The type of the parameter is not valid. -/
  | typeNotValid
  /-- Message: The length of the parameter is not valid. -/
  | lengthNotValid
  /-- Message: The length of the parameter is zero. -/
  | lengthZero
  /-- Message: The parameter `path` is not a string. -/
  | pathNotString
  /-- Message: Failed to load mG: (read: …, expect: …). -/
  | failedToLoad (read : Int)
  /-- Message: The parameter `index_counts` is not an array. -/
  | indexCountsNotArray
  /-- Message: The parameter `idx` is not a number. -/
  | idxNotNumber
  /-- Message: The number of elements in `index_counts` should be greater than zero. -/
  | indexCountsEmpty
  /-- Message: The parameter `index_counts` has an element which is not a number. -/
  | elementNotNumber
  /-- Message: The parameter `index_counts` has an element which is less than one. -/
  | elementLessThanOne
  /-- Message: The total number of `index_counts[i]` should be greater than zero. -/
  | totalZero
  /-- Message: The `idx` has an invalid range. -/
  | idxInvalidRange
  /-- Message: mG is not loaded yet. Please call load_mG() first. -/
  | mGNotLoaded
  /-- Message: The parameter `dimension` and/or `packing` is not a number. -/
  | dimensionOrPackingNotNumber
  /-- Message: Decryption failed. -/
  | decryptionFailed
  deriving DecidableEq, Repr

/-- What a call of a binding function delivers to JavaScript: a value, or an exception. -/
inductive JsOutcome where
  | returned (v : JsValue)
  | threw (kind : ErrorKind) (msg : Msg)
  deriving DecidableEq, Repr

/-- The function `checkIsTypedArray(val, type, expectedLength)`; the message thrown, if any. -/
def checkIsTypedArray (val : JsValue) (type : TypedArrayType) (expectedLength : Nat) :
    Except Msg Unit :=
  match val with
  | .typedArray t data =>
    if t ≠ type then .error .typeNotValid
    else if expectedLength > 0 ∧ data.length ≠ expectedLength then .error .lengthNotValid
    else if data.length = 0 then .error .lengthZero
    else .ok ()
  | _ => .error .notTypedArray

/-- The elements `Data()` of a typed array. -/
def JsValue.data : JsValue → List Nat
  | .typedArray _ data => data
  | _ => []

/-- The function `createUint8Array(env, data, data_size)`; the default `data_size = 0` is
passed explicitly.  The `memcpy` reads `data_size_` bytes of `data`. -/
def createUint8Array (data : List Nat) (data_size : Nat) : Except Err JsValue :=
  let data_size_ := if data_size = 0 then data.length else data_size
  if data_size_ ≤ data.length then .ok (.typedArray .uint8 (data.take data_size_))
  else .error .outOfBounds

/-- The static state of the binding: the table `mG[EPIR_MG_MAX]` and `ismGInitialized`. -/
structure Binding where
  mG : List ci_mG_t
  ismGInitialized : Bool

/-- The state of the binding when the module is loaded: a zeroed table, the flag false. -/
def Binding.initial : Binding :=
  ⟨List.replicate EPIR_MG_MAX ⟨0, List.replicate CI_POINT_SIZE 0⟩, false⟩

/-- The function `LoadmG(info)`; `fs` gives the records of the file at a path, `none` when it
cannot be opened.  Yields the new state and the outcome. -/
def LoadmG (fuel : Nat) (fs : String → Option (List ci_mG_t)) (st : Binding)
    (info : List JsValue) : Except Err (Binding × JsOutcome) :=
  match info with
  | [] => .ok (st, .threw .TypeError .wrongNumberOfArguments)
  | .string path :: _ =>
    match epir_ecelgamal_load_mg fuel st.mG EPIR_MG_MAX (fs path) with
    | .error e => .error e
    | .ok (mG, elemsRead) =>
      let ismGInitialized := decide (elemsRead = (EPIR_MG_MAX : Int))
      if !ismGInitialized then
        .ok (⟨mG, ismGInitialized⟩, .threw .Error (.failedToLoad elemsRead))
      else .ok (⟨mG, ismGInitialized⟩, .returned (.number elemsRead))
  | _ :: _ => .ok (st, .threw .TypeError .pathNotString)

/-- The conversion `Uint32Value()` of a number. -/
def Uint32Value (x : Int) : Nat := (x % 2 ^ 32).toNat

/-- The conversion of an unsigned value to the `uint8_t` of a parameter. -/
def toUInt8 (n : Nat) : Nat := n % 2 ^ 8

/-- The function `ReplyDecrypt(info)`; it does not change the state.  The copy `reply_v` has
the size of the argument array, which exists; its allocation is taken to succeed. -/
def ReplyDecrypt (Pt : Type) [Ed25519 Pt] (fuel : Nat) (st : Binding) (info : List JsValue) :
    Except Err JsOutcome :=
  if !st.ismGInitialized then .ok (.threw .Error .mGNotLoaded)
  else
    match info with
    | a0 :: a1 :: a2 :: a3 :: _ =>
      match checkIsTypedArray a0 .uint8 0 with
      | .error m => .ok (.threw .TypeError m)
      | .ok _ =>
        match checkIsTypedArray a1 .uint8 EPIR_SCALAR_SIZE with
        | .error m => .ok (.threw .TypeError m)
        | .ok _ =>
          match a2, a3 with
          | .number dim, .number pack =>
            let reply := a0.data
            let reply_size := reply.length
            let privkey := a1.data
            let dimension := Uint32Value dim
            let packing := Uint32Value pack
            let reply_v := reply
            match epir_reply_decrypt Pt fuel reply_v reply_size privkey (toUInt8 dimension)
                (toUInt8 packing) st.mG EPIR_MG_MAX with
            | .error e => .error e
            | .ok (reply_v, decrypted_size) =>
              if decrypted_size < 0 then .ok (.threw .Error .decryptionFailed)
              else
                match createUint8Array reply_v decrypted_size.toNat with
                | .error e => .error e
                | .ok v => .ok (.returned v)
          | _, _ => .ok (.threw .TypeError .dimensionOrPackingNotNumber)
    | _ => .ok (.threw .TypeError .wrongNumberOfArguments)

/-- The loop of `SelectorCreate_` that reads `index_counts`: the first element that is not a
number or is less than one decides the exception. -/
def read_index_counts : List JsElem → Except (ErrorKind × Msg) (List Nat)
  | [] => .ok []
  | .other :: _ => .error (.TypeError, .elementNotNumber)
  | .number tmp :: rest =>
    if tmp ≤ 0 then .error (.RangeError, .elementLessThanOne)
    else
      match read_index_counts rest with
      | .error e => .error e
      | .ok counts => .ok (tmp.toNat :: counts)

/-- The largest size `max_size()` of a `std::vector<uint8_t>` (LP64): the largest
`ptrdiff_t`. -/
def VECTOR_MAX_SIZE : Nat := 2 ^ 63 - 1

/-- The constructor `std::vector<uint8_t> v(n)`, from the contract of the C++ library: `n`
zero bytes.  It throws `std::length_error` when `n` exceeds `max_size()` and `std::bad_alloc`
when `n` exceeds `heap`, the largest size that the environment grants to an allocation (of a
vector or of an array buffer); the binding catches neither exception, so the run ends
there. -/
def vector_uint8 (heap n : Nat) : Except Err (List Nat) :=
  if n ≤ VECTOR_MAX_SIZE ∧ n ≤ heap then .ok (List.replicate n 0) else .error .alloc

/-- The function `SelectorCreate_(info, selector_create)`; `selector_create` receives the
buffer, the key, `index_counts`, `n_indexes` (as `uint8_t`) and `idx`, and `heap` is the
largest size that the environment grants to an allocation.  The typed array of the result has
the size of the vector `ciphers`, within `heap` once the vector exists. -/
def SelectorCreate_ (heap : Nat)
    (selector_create : List Nat → List Nat → List Nat → Nat → Nat → Except Err (List Nat))
    (info : List JsValue) : Except Err JsOutcome :=
  match info with
  | a0 :: a1 :: a2 :: _ =>
    match checkIsTypedArray a0 .uint8 EPIR_POINT_SIZE with
    | .error m => .ok (.threw .TypeError m)
    | .ok _ =>
      match a1 with
      | .array elems =>
        match a2 with
        | .number idx =>
          let key := a0.data
          let n_indexes := elems.length
          if n_indexes = 0 then .ok (.threw .RangeError .indexCountsEmpty)
          else
            match read_index_counts elems with
            | .error (kind, m) => .ok (.threw kind m)
            | .ok index_counts =>
              let elements_count := epir_selector_elements_count index_counts
              let ciphers_count := epir_selector_ciphers_count index_counts
              if elements_count = 0 then .ok (.threw .TypeError .totalZero)
              else if idx < 0 ∨ idx.toNat % WORD ≥ elements_count then
                .ok (.threw .TypeError .idxInvalidRange)
              else
                match vector_uint8 heap (umul64 ciphers_count EPIR_CIPHER_SIZE) with
                | .error e => .error e
                | .ok ciphers =>
                  match selector_create ciphers key index_counts (toUInt8 n_indexes)
                      (idx.toNat % WORD) with
                  | .error e => .error e
                  | .ok ciphers =>
                    match createUint8Array ciphers 0 with
                    | .error e => .error e
                    | .ok v => .ok (.returned v)
        | _ => .ok (.threw .TypeError .idxNotNumber)
      | _ => .ok (.threw .TypeError .indexCountsNotArray)
  | _ => .ok (.threw .TypeError .wrongNumberOfArguments)

/-- The function `SelectorCreate(info)`, with `epir_selector_create`. -/
def SelectorCreate (Pt : Type) [Ed25519 Pt] (heap : Nat) (rnd : Nat → List Nat)
    (info : List JsValue) : Except Err JsOutcome :=
  SelectorCreate_ heap (epir_selector_create_ (ci_ecelgamal_encrypt Pt) rnd) info

/-- The function `SelectorCreateFast(info)`, with `epir_selector_create_fast`. -/
def SelectorCreateFast (Pt : Type) [Ed25519 Pt] (heap : Nat) (rnd : Nat → List Nat)
    (info : List JsValue) : Except Err JsOutcome :=
  SelectorCreate_ heap (epir_selector_create_ (ci_ecelgamal_encrypt_fast Pt) rnd) info

/-- The decryption of some 64-byte ciphertext stops with the error `e`: the only accesses of
`ci_ecelgamal_decrypt` that can fail are those of the table lookup. -/
def DecryptStops (Pt : Type) [Ed25519 Pt] (fuel : Nat) (privkey : List Nat) (mG : List ci_mG_t)
    (mmax : Nat) (e : Err) : Prop :=
  ∃ c : List Nat, c.length = CI_CIPHER_SIZE ∧
    ci_ecelgamal_decrypt Pt fuel privkey c mG mmax = .error e

/-- The number of entries of the table, `MMAX = 2^24`. -/
def MMAX : Nat := 2 ^ 24

/-- Scalar multiplication on the integers modulo 13, by reduction of the scalar. -/
def toySmul (n : Nat) (x : ZMod 13) : ZMod 13 := (n : ZMod 13) * x

/-- Points of a small provider on which the definitions can be run: the integers modulo 13. -/
def ToyPt : Type := ZMod 13

instance : DecidableEq ToyPt := inferInstanceAs (DecidableEq (ZMod 13))

instance : Fintype ToyPt := inferInstanceAs (Fintype (ZMod 13))

/-- The additive group of `ToyPt`, with `toySmul` as multiplication by a natural number. -/
instance toyGroup : AddCommGroup ToyPt :=
  { (inferInstanceAs (AddCommGroup (ZMod 13))) with
    nsmul := toySmul
    nsmul_zero := fun (x : ZMod 13) =>
      show toySmul 0 x = 0 by simp [toySmul]
    nsmul_succ := fun (n : Nat) (x : ZMod 13) =>
      show toySmul (n + 1) x = toySmul n x + x by simp only [toySmul]; push_cast; ring }

/-- The small provider: base point 1 of order 13; the point `P` is encoded as the residue of
`7 P + 1` in 32 little-endian bytes, so that, as on Ed25519, the neutral element does not
have the least encoding. -/
instance toyEd25519 : Ed25519 ToyPt :=
  { toyGroup with
    G := (1 : ZMod 13)
    ell := 13
    ell_pos := by decide
    ell_le := by norm_num
    ell_smul_G := by decide
    tobytes := fun (P : ZMod 13) => le_bytes CI_POINT_SIZE (7 * P + 1).val
    frombytes := fun bs => (((le_value bs : ZMod 13) - 1) * 2 : ZMod 13)
    tobytes_length := by decide
    frombytes_tobytes := by decide }

/-- The table of the plaintexts below 5 for the provider on `ZMod 13`, in ascending
order of the encodings `1, 2, 3, 8, 9` of `0·G, 2·G, 4·G, 1·G, 3·G`. -/
def toyTable : List ci_mG_t :=
  [⟨0, le_bytes 32 1⟩, ⟨2, le_bytes 32 2⟩, ⟨4, le_bytes 32 3⟩, ⟨1, le_bytes 32 8⟩,
    ⟨3, le_bytes 32 9⟩]

/-- A table of three entries in ascending point order, with scalars out of order. -/
def sampleTable : List ci_mG_t :=
  [⟨7, le_bytes 32 1⟩, ⟨0, le_bytes 32 513⟩, ⟨5, le_bytes 32 258⟩]

/-- A one-entry table for the plaintext `0x030201` on the small provider. -/
def tableS6 : List ci_mG_t := [⟨0x030201, tobytes ((0x030201 : Nat) • (G : ToyPt))⟩]

/-- A reply of one ciphertext, the encryption of `0x030201` on the small provider. -/
def replyS6 : List Nat :=
  ci_ecelgamal_encrypt ToyPt (pubkey_of ToyPt (le_bytes 32 6)) 0x030201
    (some (le_bytes 32 9)) []

/-- A reply of two ciphertexts on the small provider: the encryptions of 3 and of 7; with the
table of the plaintexts below 5 the first decrypts to 3 and the second to `-1`. -/
def replyFail : List Nat :=
  ci_ecelgamal_encrypt ToyPt (pubkey_of ToyPt (le_bytes 32 6)) 3 (some (le_bytes 32 9)) [] ++
    ci_ecelgamal_encrypt ToyPt (pubkey_of ToyPt (le_bytes 32 6)) 7 (some (le_bytes 32 2)) []

/-- The table of all 13 plaintexts of the small provider, in ascending order of the encodings. -/
def toyFullTable : List ci_mG_t :=
  [⟨11, le_bytes 32 0⟩, ⟨0, le_bytes 32 1⟩, ⟨2, le_bytes 32 2⟩, ⟨4, le_bytes 32 3⟩,
    ⟨6, le_bytes 32 4⟩, ⟨8, le_bytes 32 5⟩, ⟨10, le_bytes 32 6⟩, ⟨12, le_bytes 32 7⟩,
    ⟨1, le_bytes 32 8⟩, ⟨3, le_bytes 32 9⟩, ⟨5, le_bytes 32 10⟩, ⟨7, le_bytes 32 11⟩,
    ⟨9, le_bytes 32 12⟩]

/-- A two-phase reply with packing 4 on the small provider: 16 ciphertexts whose plaintexts
are the 16 four-byte words of an inner ciphertext, the encryption of 2. -/
def replyTwoPhase : List Nat :=
  let inner := ci_ecelgamal_encrypt ToyPt (pubkey_of ToyPt (le_bytes 32 6)) 2
    (some (le_bytes 32 5)) []
  (List.range 16).flatMap (fun i =>
    ci_ecelgamal_encrypt ToyPt (pubkey_of ToyPt (le_bytes 32 6))
      (le_value ((inner.drop (4 * i)).take 4)) (some (le_bytes 32 (i + 1))) [])

/-- The path of the table file in the sample calls of `LoadmG`. -/
def samplePath : String := "mG.bin"

/-- The value that the decryption of scenario S6 returns for a ciphertext, `-1` where the
run of the table lookup yields none. -/
def decryptS6 (c : List Nat) : Int :=
  match ci_ecelgamal_decrypt ToyPt 5 (le_bytes 32 6) c tableS6 1 with
  | .ok v => v
  | .error _ => -1

/-- A sample of the parameter `shr` of `ci_reply_decrypt_trace`: the byte that the shift
yields on a machine that takes the shift count modulo 32. -/
def shr_masked (v : Int) (j : Nat) : Nat := (v.toNat >>> (8 * j % 32)) &&& 0xFF

/-! ## Theorems -/

/-! ### Byte comparison and machine arithmetic -/

theorem memcmp_self (a : List Nat) (n : Nat) : memcmp a a n = 0 := by
  induction a generalizing n with
  | nil => simp [memcmp]
  | cons x xs ih =>
    cases n with
    | zero => simp [memcmp]
    | succ n => simp [memcmp, ih]

theorem memcmp_swap (a b : List Nat) (n : Nat) : memcmp b a n = - memcmp a b n := by
  induction a generalizing b n with
  | nil => cases b <;> simp [memcmp]
  | cons x xs ih =>
    cases b with
    | nil => simp [memcmp]
    | cons y ys =>
      cases n with
      | zero => simp [memcmp]
      | succ n =>
        by_cases h : x = y
        · subst h; simp [memcmp, ih]
        · have h2 : ¬ y = x := fun e => h e.symm
          simp [memcmp, h, h2]

theorem memcmp_eq_zero (a b : List Nat) (n : Nat) (ha : a.length = n) (hb : b.length = n)
    (h : memcmp a b n = 0) : a = b := by
  induction a generalizing b n with
  | nil =>
    subst ha
    cases b with
    | nil => rfl
    | cons y ys => simp at hb
  | cons x xs ih =>
    cases b with
    | nil => subst hb; simp at ha
    | cons y ys =>
      cases n with
      | zero => simp at ha
      | succ n =>
        by_cases hxy : x = y
        · subst hxy
          simp only [memcmp, if_true] at h
          simp only [List.length_cons, Nat.add_right_cancel_iff] at ha hb
          rw [ih ys n ha hb h]
        · simp only [memcmp, hxy, if_false] at h
          exfalso; apply hxy; omega

theorem memcmp_trans (a b c : List Nat) (n : Nat) (h1 : memcmp a b n < 0)
    (h2 : memcmp b c n < 0) : memcmp a c n < 0 := by
  induction a generalizing b c n with
  | nil => simp [memcmp] at h1
  | cons x xs ih =>
    cases b with
    | nil => simp [memcmp] at h1
    | cons y ys =>
      cases c with
      | nil => simp [memcmp] at h2
      | cons z zs =>
        cases n with
        | zero => simp [memcmp] at h1
        | succ n =>
          simp only [memcmp] at h1 h2 ⊢
          by_cases hxy : x = y
          · subst hxy
            rw [if_pos rfl] at h1
            by_cases hxz : x = z
            · subst hxz
              rw [if_pos rfl] at h2 ⊢
              exact ih ys zs n h1 h2
            · rw [if_neg hxz] at h2 ⊢
              exact h2
          · rw [if_neg hxy] at h1
            by_cases hyz : y = z
            · subst hyz
              rw [if_neg hxy]
              exact h1
            · rw [if_neg hyz] at h2
              rw [if_neg (by omega)]
              omega

theorem usub64_of_le (a b : Nat) (hb : b ≤ a) (ha : a < WORD) : usub64 a b = a - b := by
  unfold usub64 WORD at *
  omega

theorem uadd64_of_lt (a b : Nat) (h : a + b < WORD) : uadd64 a b = a + b := by
  unfold uadd64
  exact Nat.mod_eq_of_lt h

theorem toInt32_of_lt (n : Nat) (h : n < 2 ^ 31) : toInt32 n = (n : Int) := by
  unfold toInt32
  have h1 : n % 2 ^ 32 = n := Nat.mod_eq_of_lt (by omega)
  rw [h1, if_pos h]

/-! ### Scalar encoding and the provider -/

theorem le_value_le_bytes (n x : Nat) : le_value (le_bytes n x) = x % 256 ^ n := by
  induction n generalizing x with
  | zero => simp [le_bytes, le_value, Nat.mod_one]
  | succ n ih =>
    simp only [le_bytes, le_value, ih]
    rw [pow_succ, Nat.mul_comm (256 ^ n) 256, Nat.mod_mul]

theorem le_value_replicate_zero (k : Nat) : le_value (List.replicate k 0) = 0 := by
  induction k with
  | zero => rfl
  | succ k ih => simp [List.replicate, le_value, ih]

theorem le_value_append (a b : List Nat) :
    le_value (a ++ b) = le_value a + 256 ^ a.length * le_value b := by
  induction a with
  | nil => simp [le_value]
  | cons x xs ih => simp [le_value, ih, pow_succ]; ring

theorem le_value_load_uint64 (n : Nat) (h : n < 2 ^ 64) :
    le_value (sc25519_load_uint64 n) = n := by
  unfold sc25519_load_uint64
  rw [le_value_append, le_value_replicate_zero]
  have e : (0xFF : Nat) = 2 ^ 8 - 1 := by norm_num
  simp only [e, Nat.and_pow_two_sub_one_eq_mod, Nat.shiftRight_eq_div_pow, le_value]
  norm_num
  omega

section provider
variable {Pt : Type} [Ed25519 Pt]

theorem mod_ell_smul_G (x : Nat) : (x % ell Pt) • (G : Pt) = x • (G : Pt) := by
  conv_rhs => rw [← Nat.div_add_mod' x (ell Pt)]
  rw [add_smul, mul_smul, ell_smul_G, smul_zero, zero_add]

theorem le_value_muladd (a b c : List Nat) :
    le_value (sc25519_muladd Pt a b c) = (le_value a * le_value b + le_value c) % ell Pt := by
  unfold sc25519_muladd
  rw [le_value_le_bytes]
  apply Nat.mod_eq_of_lt
  have h1 := Nat.mod_lt (le_value a * le_value b + le_value c) (@ell_pos Pt _)
  have h2 := @ell_le Pt _
  have h3 : (256 : Nat) ^ CI_SCALAR_SIZE = 2 ^ 256 := by norm_num [CI_SCALAR_SIZE]
  omega

theorem encrypt_eq (pubkey : List Nat) (m : Nat) (r : Option (List Nat)) (rnd : List Nat) :
    ∃ rr : List Nat, ci_ecelgamal_encrypt Pt pubkey m r rnd =
      tobytes (le_value rr • (G : Pt)) ++
        tobytes (le_value rr • (frombytes pubkey : Pt) + le_value (sc25519_load_uint64 m) • (G : Pt)) ∧
      ci_ecelgamal_encrypt_fast Pt pubkey m r rnd =
      tobytes (le_value rr • (G : Pt)) ++
        tobytes (((le_value rr * le_value pubkey + le_value (sc25519_load_uint64 m))) • (G : Pt)) := by
  refine ⟨(match r with | none => rnd | some r => r.take CI_SCALAR_SIZE), ?_, ?_⟩
  · simp only [ci_ecelgamal_encrypt, ge25519_scalarmult_base, ge25519_double_scalarmult_vartime]
  · simp only [ci_ecelgamal_encrypt_fast, ge25519_scalarmult_base, le_value_muladd, mod_ell_smul_G]

theorem decrypt_cipher (fuel : Nat) (sk : List Nat) (c1 c2 : Pt) (mG : List ci_mG_t) (mmax : Nat) :
    ci_ecelgamal_decrypt Pt fuel sk (tobytes c1 ++ tobytes c2) mG mmax =
      ci_ecelgamal_binary_search fuel (tobytes (c2 - le_value sk • c1)) mG mmax := by
  unfold ci_ecelgamal_decrypt ge25519_sub_p3_p3 ge25519_scalarmult
  have h1 : (tobytes c1 ++ tobytes c2).take CI_POINT_SIZE = tobytes c1 :=
    List.take_left' (tobytes_length c1)
  have h2 : (tobytes c1 ++ tobytes c2).drop CI_POINT_SIZE = tobytes c2 :=
    List.drop_left' (tobytes_length c1)
  have h3 : (tobytes c2).take CI_POINT_SIZE = tobytes c2 :=
    List.take_of_length_le (le_of_eq (tobytes_length c2))
  simp only [h1, h2, h3, frombytes_tobytes]

end provider

/-! ### Binary search (C3, C4) -/

theorem binary_search_loop_hit (find : List Nat) (mG : List ci_mG_t)
    (hs : ∀ i j : Nat, i < j → ∀ a b : ci_mG_t, mG[i]? = some a → mG[j]? = some b →
      memcmp a.point b.point CI_POINT_SIZE < 0)
    (hlen : mG.length < WORD) (i : Nat) (e : ci_mG_t)
    (hi : mG[i]? = some e) (hf : e.point = find) :
    ∀ fuel imin imax : Nat, imin ≤ i → i ≤ imax → imax < mG.length → imax - imin < fuel →
      binary_search_loop find mG fuel imin imax = .ok (toInt32 e.scalar) := by
  intro fuel
  induction fuel with
  | zero => intro imin imax _ _ _ h; omega
  | succ fuel ih =>
    intro imin imax h1 h2 h3 h4
    have hle : imin ≤ imax := le_trans h1 h2
    have hsub : usub64 imax imin = imax - imin := usub64_of_le _ _ hle (by omega)
    have hmid : uadd64 imin (usub64 imax imin / 2) = imin + (imax - imin) / 2 := by
      rw [hsub]; apply uadd64_of_lt; omega
    rw [binary_search_loop, if_pos hle]
    simp only [hmid]
    have hmidlt : imin + (imax - imin) / 2 < mG.length := by omega
    obtain ⟨e', he'⟩ : ∃ e', mG[imin + (imax - imin) / 2]? = some e' := by
      rw [List.getElem?_eq_getElem hmidlt]; exact ⟨_, rfl⟩
    rw [he']
    simp only
    rcases Nat.lt_trichotomy (imin + (imax - imin) / 2) i with hlt | heq | hgt
    · have hc := hs _ _ hlt e' e he' hi
      rw [hf] at hc
      rw [if_pos hc, uadd64_of_lt _ _ (by omega)]
      exact ih _ _ (by omega) h2 h3 (by omega)
    · rw [heq, hi] at he'
      cases he'
      rw [hf, memcmp_self]
      simp
    · have hc := hs _ _ hgt e e' hi he'
      rw [hf] at hc
      have hsw := memcmp_swap find e'.point CI_POINT_SIZE
      have hpos : memcmp e'.point find CI_POINT_SIZE > 0 := by omega
      rw [if_neg (by omega), if_pos hpos, usub64_of_le _ _ (by omega) (by omega)]
      exact ih _ _ h1 (by omega) (by omega) (by omega)

theorem strictlyAscending_index (mG : List ci_mG_t) (hs : StrictlyAscending mG) :
    ∀ i j : Nat, i < j → ∀ a b : ci_mG_t, mG[i]? = some a → mG[j]? = some b →
      memcmp a.point b.point CI_POINT_SIZE < 0 := by
  intro i j hij a b ha hb
  obtain ⟨hi, rfl⟩ := List.getElem?_eq_some.mp ha
  obtain ⟨hj, rfl⟩ := List.getElem?_eq_some.mp hb
  exact (List.pairwise_iff_getElem.mp hs) i j hi hj hij

theorem binary_search_found (fuel : Nat) (mG : List ci_mG_t) (mmax : Nat)
    (hlen : mG.length = mmax) (hword : mmax < WORD) (hs : StrictlyAscending mG)
    (hfuel : mmax ≤ fuel) (i : Nat) (e : ci_mG_t) (hi : mG[i]? = some e) :
    ci_ecelgamal_binary_search fuel e.point mG mmax = .ok (toInt32 e.scalar) := by
  obtain ⟨hilt, _⟩ := List.getElem?_eq_some.mp hi
  unfold ci_ecelgamal_binary_search
  rw [usub64_of_le _ _ (by omega) hword]
  exact binary_search_loop_hit e.point mG (strictlyAscending_index mG hs) (by omega) i e hi rfl
    fuel 0 (mmax - 1) (Nat.zero_le _) (by omega) (by omega) (by omega)

/-- C3. Binary search hit: in a table of `mmax` entries (`mmax` a `size_t`) whose points are
strictly ascending under `memcmp` and whose scalars are below `2^31`, looking up the point of
the entry at any index `i < mmax` returns that entry's scalar, a non-negative value. -/
theorem binary_search_hit (fuel : Nat) (mG : List ci_mG_t) (mmax : Nat)
    (hlen : mG.length = mmax) (hword : mmax < WORD) (hs : StrictlyAscending mG)
    (hsc : ∀ e ∈ mG, e.scalar < 2 ^ 31) (hfuel : mmax ≤ fuel) (i : Nat) (hi : i < mG.length) :
    ci_ecelgamal_binary_search fuel mG[i].point mG mmax = .ok (mG[i].scalar : Int) ∧
      (0 : Int) ≤ (mG[i].scalar : Int) := by
  refine ⟨?_, Int.natCast_nonneg _⟩
  rw [binary_search_found fuel mG mmax hlen hword hs hfuel i mG[i] (List.getElem?_eq_getElem hi)]
  rw [toInt32_of_lt _ (hsc _ (List.getElem_mem hi))]

/-- An instance of C3: the third entry of a three-entry table is found with its scalar 5. -/
theorem binary_search_hit_witness :
    ci_ecelgamal_binary_search 3 (sampleTable[2]).point sampleTable 3 = .ok ((sampleTable[2]).scalar : Int) ∧
      (0 : Int) ≤ ((sampleTable[2]).scalar : Int) :=
  binary_search_hit 3 sampleTable 3 (by decide) (by decide) (by unfold StrictlyAscending; decide)
    (by decide) (by decide) 2 (by decide)

theorem binary_search_loop_miss (find : List Nat) (mG : List ci_mG_t)
    (hs : ∀ i j : Nat, i < j → ∀ a b : ci_mG_t, mG[i]? = some a → mG[j]? = some b →
      memcmp a.point b.point CI_POINT_SIZE < 0)
    (hlen : mG.length < WORD) (hfl : find.length = CI_POINT_SIZE)
    (hpl : ∀ e ∈ mG, e.point.length = CI_POINT_SIZE) (habs : ∀ e ∈ mG, e.point ≠ find)
    (e0 : ci_mG_t) (h0 : mG[0]? = some e0) (hfirst : memcmp e0.point find CI_POINT_SIZE < 0) :
    ∀ fuel imin imax : Nat, 1 ≤ imin ∨ imin ≤ imax → imin ≤ imax + 1 → imax < mG.length →
      (∀ (k : Nat) (e : ci_mG_t), k < imin → mG[k]? = some e →
        memcmp e.point find CI_POINT_SIZE < 0) →
      (∀ (k : Nat) (e : ci_mG_t), imax < k → mG[k]? = some e →
        0 < memcmp e.point find CI_POINT_SIZE) →
      imax + 1 - imin < fuel →
      binary_search_loop find mG fuel imin imax = .ok (-1) := by
  intro fuel
  induction fuel with
  | zero => intro imin imax _ _ _ _ _ h; omega
  | succ fuel ih =>
    intro imin imax hnz hle1 hmax hlo hhi hfuel
    rw [binary_search_loop]
    by_cases hle : imin ≤ imax
    · rw [if_pos hle]
      have hsub : usub64 imax imin = imax - imin := usub64_of_le _ _ hle (by omega)
      have hmid : uadd64 imin (usub64 imax imin / 2) = imin + (imax - imin) / 2 := by
        rw [hsub]; apply uadd64_of_lt; omega
      simp only [hmid]
      have hmidlt : imin + (imax - imin) / 2 < mG.length := by omega
      obtain ⟨e, he⟩ : ∃ e, mG[imin + (imax - imin) / 2]? = some e := by
        rw [List.getElem?_eq_getElem hmidlt]; exact ⟨_, rfl⟩
      have hemem : e ∈ mG := List.mem_iff_getElem?.mpr ⟨_, he⟩
      rw [he]
      simp only
      rcases lt_trichotomy (memcmp e.point find CI_POINT_SIZE) 0 with hc | hc | hc
      · rw [if_pos hc, uadd64_of_lt _ _ (by omega)]
        apply ih _ _ (Or.inl (by omega)) (by omega) hmax _ hhi (by omega)
        intro k ek hk hek
        rcases Nat.lt_or_ge k (imin + (imax - imin) / 2) with h1 | h1
        · exact memcmp_trans _ _ _ _ (hs _ _ h1 ek e hek he) hc
        · have : k = imin + (imax - imin) / 2 := by omega
          rw [this, he] at hek
          cases hek
          exact hc
      · exact absurd (memcmp_eq_zero _ _ _ (hpl e hemem) hfl hc) (habs e hemem)
      · have hmidpos : 1 ≤ imin + (imax - imin) / 2 := by
          by_contra hz
          have hz0 : imin + (imax - imin) / 2 = 0 := by omega
          rw [hz0, h0] at he
          cases he
          omega
        rw [if_neg (by omega), if_pos hc, usub64_of_le _ _ hmidpos (by omega)]
        apply ih _ _ (by omega) (by omega) (by omega) hlo _ (by omega)
        intro k ek hk hek
        rcases Nat.lt_or_ge (imin + (imax - imin) / 2) k with h1 | h1
        · have h2 := hs _ _ h1 e ek he hek
          have h3 := memcmp_swap find e.point CI_POINT_SIZE
          have h4 := memcmp_swap find ek.point CI_POINT_SIZE
          have h5 := memcmp_swap ek.point e.point CI_POINT_SIZE
          have h6 := memcmp_trans find e.point ek.point CI_POINT_SIZE (by omega) h2
          omega
        · have : k = imin + (imax - imin) / 2 := by omega
          rw [this, he] at hek
          cases hek
          exact hc
    · rw [if_neg hle]

/-- The part of C4 that the code delivers: in a table of `mmax ≥ 1` entries with strictly
ascending 32-byte points, a 32-byte target that equals no entry's point and lies above the
first entry is answered by `-1`. -/
theorem binary_search_miss_above_first (fuel : Nat) (find : List Nat) (mG : List ci_mG_t)
    (mmax : Nat) (hlen : mG.length = mmax) (hword : mmax < WORD) (hs : StrictlyAscending mG)
    (hfl : find.length = CI_POINT_SIZE) (hpl : ∀ e ∈ mG, e.point.length = CI_POINT_SIZE)
    (habs : ∀ e ∈ mG, e.point ≠ find) (e0 : ci_mG_t) (h0 : mG[0]? = some e0)
    (hfirst : memcmp e0.point find CI_POINT_SIZE < 0) (hfuel : mmax < fuel) :
    ci_ecelgamal_binary_search fuel find mG mmax = .ok (-1) := by
  obtain ⟨hpos, _⟩ := List.getElem?_eq_some.mp h0
  unfold ci_ecelgamal_binary_search
  rw [usub64_of_le _ _ (by omega) hword]
  apply binary_search_loop_miss find mG (strictlyAscending_index mG hs) (by omega) hfl hpl habs
    e0 h0 hfirst fuel 0 (mmax - 1) (Or.inr (Nat.zero_le _)) (by omega) (by omega)
  · intro k e hk; omega
  · intro k e hk hek
    obtain ⟨hklt, _⟩ := List.getElem?_eq_some.mp hek
    omega
  · omega

/-- C4. Binary search miss below the first entry: in the one-entry table holding the neutral
element (encoded `01 00 … 00`), the lookup of the all-zero target does not return `-1`; the
store `imax = imid - 1` wraps to `SIZE_MAX` and the next probe reads `mG[2^63 - 1]`, outside the
table.  Decryption inherits it: with the table of the plaintexts below 5 on the small provider,
the encryption of 11, whose point encodes below the first entry, is not answered by `-1`. -/
theorem binary_search_miss_below_first :
    (∀ fuel : Nat, ci_ecelgamal_binary_search (fuel + 2) (le_bytes 32 0) [⟨0, le_bytes 32 1⟩] 1
        = .error .outOfBounds) ∧
      (∀ e ∈ [(⟨0, le_bytes 32 1⟩ : ci_mG_t)], e.point ≠ le_bytes 32 0) ∧
      (∀ fuel : Nat, ci_ecelgamal_decrypt ToyPt (fuel + 3) (le_bytes 32 6)
        (ci_ecelgamal_encrypt ToyPt (pubkey_of ToyPt (le_bytes 32 6)) 11
          (some (le_bytes 32 9)) []) toyTable 5 = .error .outOfBounds) := by
  refine ⟨fun fuel => rfl, by decide, fun fuel => ?_⟩
  rfl

/-! ### EC-ElGamal: round trip and the two encryption forms (C1, C2) -/

/-- C1. Round trip: with a table of `mmax ≤ 2^31` entries holding `(m, m·G)` for every
`m < mmax` in strictly ascending point order, decrypting under `sk` the encryption of `m < mmax`
under `sk·G` (standard form) or under `sk` (fast form) returns `m`, whatever the randomness. -/
theorem encrypt_decrypt_roundtrip {Pt : Type} [Ed25519 Pt] (fuel : Nat) (sk : List Nat)
    (r : Option (List Nat)) (rnd : List Nat) (m mmax : Nat) (mG : List ci_mG_t)
    (hm : m < mmax) (hmax : mmax ≤ 2 ^ 31) (hT : WellFormedTable Pt mG mmax) (hfuel : mmax ≤ fuel) :
    ci_ecelgamal_decrypt Pt fuel sk (ci_ecelgamal_encrypt Pt (pubkey_of Pt sk) m r rnd) mG mmax
        = .ok (m : Int) ∧
      ci_ecelgamal_decrypt Pt fuel sk (ci_ecelgamal_encrypt_fast Pt sk m r rnd) mG mmax
        = .ok (m : Int) := by
  obtain ⟨hlen, hs, hmem⟩ := hT
  obtain ⟨i, hi⟩ := List.getElem?_of_mem (hmem m hm)
  have hfound := binary_search_found fuel mG mmax hlen (by unfold WORD; omega) hs hfuel i _ hi
  simp only at hfound
  rw [toInt32_of_lt _ (by omega)] at hfound
  have hmm : le_value (sc25519_load_uint64 m) = m := le_value_load_uint64 m (by omega)
  obtain ⟨rr, h1, _⟩ := @encrypt_eq Pt _ (pubkey_of Pt sk) m r rnd
  obtain ⟨rr2, _, h2⟩ := @encrypt_eq Pt _ sk m r rnd
  constructor
  · rw [h1, decrypt_cipher, hmm]
    have e : le_value rr • (frombytes (pubkey_of Pt sk) : Pt) + m • (G : Pt)
        - le_value sk • (le_value rr • (G : Pt)) = m • (G : Pt) := by
      unfold pubkey_of ge25519_scalarmult_base
      rw [frombytes_tobytes, smul_comm (le_value sk) (le_value rr) (G : Pt)]
      abel
    rw [e]; exact hfound
  · rw [h2, decrypt_cipher, hmm]
    have e : (le_value rr2 * le_value sk + m) • (G : Pt)
        - le_value sk • (le_value rr2 • (G : Pt)) = m • (G : Pt) := by
      rw [add_smul, mul_smul, smul_comm (le_value sk) (le_value rr2) (G : Pt)]
      abel
    rw [e]; exact hfound

/-- An instance of C1 on the small provider: the plaintext 3 under the private key 6. -/
theorem encrypt_decrypt_roundtrip_witness :
    ci_ecelgamal_decrypt ToyPt 5 (le_bytes 32 6)
        (ci_ecelgamal_encrypt ToyPt (pubkey_of ToyPt (le_bytes 32 6)) 3
          (some (le_bytes 32 9)) []) toyTable 5 = .ok ((3 : Nat) : Int) ∧
      ci_ecelgamal_decrypt ToyPt 5 (le_bytes 32 6)
        (ci_ecelgamal_encrypt_fast ToyPt (le_bytes 32 6) 3 (some (le_bytes 32 9)) [])
          toyTable 5 = .ok ((3 : Nat) : Int) :=
  encrypt_decrypt_roundtrip 5 (le_bytes 32 6) (some (le_bytes 32 9)) [] 3 5 toyTable
    (by decide) (by norm_num) (by unfold WellFormedTable StrictlyAscending; decide) (by decide)

/-- C2. Equivalence of the two encryption forms: for every private key `sk`, plaintext `m`
and explicitly supplied randomness `r`, `ci_ecelgamal_encrypt` under `P = sk·G` and
`ci_ecelgamal_encrypt_fast` under `sk` produce the same 64 bytes. -/
theorem encrypt_eq_encrypt_fast {Pt : Type} [Ed25519 Pt] (sk r rnd1 rnd2 : List Nat) (m : Nat) :
    ci_ecelgamal_encrypt Pt (pubkey_of Pt sk) m (some r) rnd1 =
      ci_ecelgamal_encrypt_fast Pt sk m (some r) rnd2 ∧
    (ci_ecelgamal_encrypt Pt (pubkey_of Pt sk) m (some r) rnd1).length = CI_CIPHER_SIZE := by
  constructor
  · simp only [ci_ecelgamal_encrypt, ci_ecelgamal_encrypt_fast, ge25519_scalarmult_base,
      ge25519_double_scalarmult_vartime, le_value_muladd, mod_ell_smul_G, pubkey_of,
      frombytes_tobytes, add_smul, mul_smul]
  · simp [ci_ecelgamal_encrypt, tobytes_length, CI_POINT_SIZE, CI_CIPHER_SIZE]

/-! ### Selector builder (C5, C6) -/

theorem foldl_umul64 (ns : List Nat) (a : Nat) :
    ns.foldl umul64 a % WORD = (a * ns.prod) % WORD := by
  induction ns generalizing a with
  | nil => simp
  | cons n rest ih =>
    simp only [List.foldl_cons, List.prod_cons]
    rw [ih, umul64, Nat.mod_mul_mod, Nat.mul_assoc]

theorem elements_count_eq (ns : List Nat) :
    ci_selector_elements_count ns = ns.prod % WORD := by
  unfold ci_selector_elements_count
  have h := foldl_umul64 ns 1
  rw [Nat.one_mul] at h
  rw [← h]
  have : ∀ (l : List Nat) (a : Nat), a < WORD → l.foldl umul64 a < WORD := by
    intro l
    induction l with
    | nil => intro a ha; simpa using ha
    | cons x xs ih => intro a _; exact ih _ (Nat.mod_lt _ (by unfold WORD; norm_num))
  exact (Nat.mod_eq_of_lt (this _ _ (by unfold WORD; norm_num))).symm

theorem prod_pos_of_all_pos (ns : List Nat) (h : ∀ n ∈ ns, 1 ≤ n) : 1 ≤ ns.prod := by
  induction ns with
  | nil => simp
  | cons n rest ih =>
    rw [List.prod_cons]
    have h1 := h n (List.mem_cons_self _ _)
    have h2 := ih (fun x hx => h x (List.mem_cons_of_mem _ hx))
    exact Nat.mul_pos h1 h2

theorem selector_step_ok (cols rest idx_ : Nat) (hc : 1 ≤ cols) (hr : 1 ≤ rest)
    (hw : cols * rest < WORD) (hi : idx_ < cols * rest) :
    selector_step (cols * rest) idx_ cols = .ok (rest, idx_ / rest, idx_ % rest) := by
  unfold selector_step
  have h1 : cols * rest / cols = rest := Nat.mul_div_cancel_left _ hc
  have hle : idx_ / rest * rest ≤ idx_ := Nat.div_mul_le_self _ _
  have h2 : umul64 (idx_ / rest) rest = idx_ / rest * rest :=
    Nat.mod_eq_of_lt (by omega)
  have h3 : usub64 idx_ (idx_ / rest * rest) = idx_ % rest := by
    unfold usub64
    have := Nat.div_add_mod' idx_ rest
    have e1 : idx_ / rest * rest % WORD = idx_ / rest * rest := Nat.mod_eq_of_lt (by omega)
    rw [e1]
    have e2 : idx_ + WORD - idx_ / rest * rest = WORD + idx_ % rest := by omega
    rw [e2, Nat.add_mod_left]
    apply Nat.mod_eq_of_lt
    have := Nat.mod_lt idx_ hr
    have : rest ≤ cols * rest := Nat.le_mul_of_pos_left _ hc
    omega
  simp only [h1, h2, h3]
  rw [if_neg (by omega), if_neg (by omega)]

theorem mod_div_mod_of_dvd (x M c b : Nat) (h : c * b ∣ M) : x % M / c % b = x / c % b := by
  obtain ⟨t, rfl⟩ := h
  rcases Nat.eq_zero_or_pos c with hc | hc
  · subst hc; simp
  have e : c * b * t = (b * t) * c := by ring
  rw [e, Nat.mod_mul_left_div_self, Nat.mod_mul_right_mod]

theorem selector_rows_spec (ns : List Nat) (h1 : ∀ n ∈ ns, 1 ≤ n) (hw : ns.prod < WORD) :
    ∀ idx_ : Nat, idx_ < ns.prod →
      ∃ rows : List Nat, selector_rows ns ns.prod idx_ = .ok rows ∧
        rows.length = ns.length ∧
        (∀ (i : Nat) (hi : i < ns.length),
          rows[i]? = some (idx_ / (ns.drop (i + 1)).prod % ns[i]) ∧
            idx_ / (ns.drop (i + 1)).prod % ns[i] < ns[i]) ∧
        mixed_radix_value ns rows = idx_ := by
  induction ns with
  | nil =>
    intro idx_ hi
    refine ⟨[], rfl, rfl, ?_, ?_⟩
    · intro i hi; simp at hi
    · simp at hi; simp [mixed_radix_value, hi]
  | cons n rest ih =>
    intro idx_ hi
    have hn : 1 ≤ n := h1 n (List.mem_cons_self _ _)
    have hrest : ∀ x ∈ rest, 1 ≤ x := fun x hx => h1 x (List.mem_cons_of_mem _ hx)
    have hrp : 1 ≤ rest.prod := prod_pos_of_all_pos rest hrest
    rw [List.prod_cons] at hw hi
    have hrw : rest.prod < WORD := lt_of_le_of_lt (Nat.le_mul_of_pos_left _ hn) hw
    obtain ⟨rs, hrs, hlen, hdig, hval⟩ := ih hrest hrw (idx_ % rest.prod) (Nat.mod_lt _ hrp)
    have hd0 : idx_ / rest.prod < n := (Nat.div_lt_iff_lt_mul hrp).mpr hi
    refine ⟨idx_ / rest.prod :: rs, ?_, ?_, ?_, ?_⟩
    · rw [List.prod_cons, selector_rows, selector_step_ok n rest.prod idx_ hn hrp hw hi]
      simp only [hrs]
    · simp [hlen]
    · intro i hi'
      cases i with
      | zero =>
        simp only [List.drop_succ_cons, List.drop_zero, List.getElem_cons_zero,
          List.getElem?_cons_zero, Nat.mod_eq_of_lt hd0]
        exact ⟨trivial, hd0⟩
      | succ i =>
        have hi2 : i < rest.length := by simpa using hi'
        obtain ⟨hg, hb⟩ := hdig i hi2
        have hdvd : (rest.drop (i + 1)).prod * rest[i] ∣ rest.prod := by
          have e := List.prod_take_mul_prod_drop rest i
          rw [List.drop_eq_getElem_cons hi2, List.prod_cons] at e
          exact ⟨(rest.take i).prod, by rw [← e]; ring⟩
        rw [mod_div_mod_of_dvd _ _ _ _ hdvd] at hg hb
        simp only [List.drop_succ_cons, List.getElem_cons_succ, List.getElem?_cons_succ]
        exact ⟨hg, hb⟩
    · simp only [mixed_radix_value, hval]
      exact Nat.div_add_mod' idx_ rest.prod

/-- C6. Mixed-radix decomposition, most significant digit first: when every `n_i ≥ 1` and the
product of the `n_i` does not overflow 64 bits, for every `idx` below the product the digits
computed by `ci_selector_create_` satisfy `rows_i < n_i` and `Σ_i rows_i · ∏_{k>i} n_k = idx`;
two in-range indices with the same digit vector are equal. -/
theorem selector_rows_mixed_radix (index_counts : List Nat) (idx : Nat)
    (h1 : ∀ n ∈ index_counts, 1 ≤ n) (hw : index_counts.prod < 2 ^ 64)
    (hi : idx < index_counts.prod) :
    ∃ rows : List Nat,
      selector_rows index_counts (ci_selector_elements_count index_counts) idx = .ok rows ∧
      rows.length = index_counts.length ∧
      (∀ (i : Nat) (h : i < index_counts.length), ∃ r, rows[i]? = some r ∧ r < index_counts[i]) ∧
      mixed_radix_value index_counts rows = idx ∧
      ∀ idx2 : Nat, idx2 < index_counts.prod →
        selector_rows index_counts (ci_selector_elements_count index_counts) idx2 = .ok rows →
        idx2 = idx := by
  have hc : ci_selector_elements_count index_counts = index_counts.prod := by
    rw [elements_count_eq]; exact Nat.mod_eq_of_lt hw
  obtain ⟨rows, hr, hlen, hdig, hval⟩ := selector_rows_spec index_counts h1 hw idx hi
  refine ⟨rows, by rw [hc]; exact hr, hlen, fun i h => ⟨_, hdig i h⟩, hval, ?_⟩
  intro idx2 hi2 hr2
  obtain ⟨rows2, hr2', _, _, hval2⟩ := selector_rows_spec index_counts h1 hw idx2 hi2
  rw [hc, hr2'] at hr2
  cases hr2
  rw [← hval, ← hval2]

/-- An instance of C6: `index_counts = [3, 4]`, `idx = 7`. -/
theorem selector_rows_mixed_radix_witness :
    ∃ rows : List Nat,
      selector_rows [3, 4] (ci_selector_elements_count [3, 4]) 7 = .ok rows ∧
      rows.length = [3, 4].length ∧
      (∀ (i : Nat) (h : i < [3, 4].length), ∃ r, rows[i]? = some r ∧ r < [3, 4][i]) ∧
      mixed_radix_value [3, 4] rows = 7 ∧
      ∀ idx2 : Nat, idx2 < [3, 4].prod →
        selector_rows [3, 4] (ci_selector_elements_count [3, 4]) idx2 = .ok rows →
        idx2 = 7 :=
  selector_rows_mixed_radix [3, 4] 7 (by decide) (by decide) (by decide)

theorem selector_rows_div_zero (ns : List Nat) (h1 : ∀ n ∈ ns, 1 ≤ n) (hne : ns ≠ []) :
    ∀ P idx_ : Nat, P < ns.prod → selector_rows ns P idx_ = .error .divZero := by
  induction ns with
  | nil => exact absurd rfl hne
  | cons n rest ih =>
    intro P idx_ hP
    have hn : 1 ≤ n := h1 n (List.mem_cons_self _ _)
    have hrest : ∀ x ∈ rest, 1 ≤ x := fun x hx => h1 x (List.mem_cons_of_mem _ hx)
    rw [List.prod_cons] at hP
    have hdiv : P / n < rest.prod := Nat.div_lt_of_lt_mul hP
    rw [selector_rows, selector_step, if_neg (by omega)]
    by_cases hz : P / n = 0
    · simp only [hz, if_true]
    · simp only [hz, if_false]
      cases rest with
      | nil => simp at hdiv; exact absurd hdiv hz
      | cons m rest2 =>
        rw [ih hrest (by simp) (P / n) _ hdiv]

/-- C6 as stated fails on overflow: with 41 dimensions of size 3, all `n_i ≥ 1`, the product
`3^41` exceeds `2^64` and `elements_count` wraps; for `idx = 5`, below both the product and
the wrapped count, `prod` reaches 0 after the divisions by `cols`, the loop divides by zero
and no digit vector is produced.  The same happens whatever 64-bit value `elements_count`
returns. -/
theorem selector_rows_overflow :
    (∀ n ∈ List.replicate 41 3, 1 ≤ n) ∧ 5 < (List.replicate 41 3).prod ∧
      5 < ci_selector_elements_count (List.replicate 41 3) ∧
      selector_rows (List.replicate 41 3) (ci_selector_elements_count (List.replicate 41 3)) 5
        = .error .divZero ∧
      ∀ P : Nat, P < 2 ^ 64 → selector_rows (List.replicate 41 3) P 5 = .error .divZero := by
  refine ⟨by decide, by decide, by decide, by decide, fun P hP => ?_⟩
  exact selector_rows_div_zero (List.replicate 41 3) (by decide) (by decide) P 5
    (lt_trans hP (by decide))

theorem selector_inner_loop (rows : Nat) (cols : Nat) :
    ∀ (buf : List Nat) (offset : Nat), (offset + cols) * CI_CIPHER_SIZE ≤ buf.length →
      ∃ buf2 : List Nat,
        forLoop (selector_inner rows) cols (buf, offset) = .ok (buf2, offset + cols) ∧
        buf2.length = buf.length ∧
        (∀ k : Nat, (k < offset * CI_CIPHER_SIZE ∨ (offset + cols) * CI_CIPHER_SIZE ≤ k ∨
            k % CI_CIPHER_SIZE ≠ 0) → buf2[k]? = buf[k]?) ∧
        (∀ j : Nat, j < cols →
          buf2[(offset + j) * CI_CIPHER_SIZE]? = some (if j = rows then 1 else 0)) := by
  induction cols with
  | zero =>
    intro buf offset _
    exact ⟨buf, rfl, rfl, fun _ _ => rfl, fun j hj => absurd hj (Nat.not_lt_zero _)⟩
  | succ c ih =>
    intro buf offset hlen
    unfold CI_CIPHER_SIZE at *
    obtain ⟨b1, hrun, hl1, hframe, hw⟩ := ih buf offset (by omega)
    have hin : (offset + c) * 64 < b1.length := by omega
    refine ⟨b1.set ((offset + c) * 64) (if c = rows then 1 else 0), ?_, ?_, ?_, ?_⟩
    · rw [forLoop, hrun]
      simp only [selector_inner, store, CI_CIPHER_SIZE, if_pos hin]
      rfl
    · simp [hl1]
    · intro k hk
      rw [List.getElem?_set_ne (by omega)]
      exact hframe k (by omega)
    · intro j hj
      rcases Nat.lt_or_ge j c with hlt | hge
      · rw [List.getElem?_set_ne (by omega)]
        exact hw j hlt
      · have : j = c := by omega
        subst this
        rw [List.getElem?_set_self hin]

theorem selector_fill_spec (ns : List Nat) (h1 : ∀ n ∈ ns, 1 ≤ n) (hw : ns.prod < WORD) :
    ∀ (idx_ : Nat) (buf : List Nat) (offset : Nat), idx_ < ns.prod →
      (offset + ns.sum) * CI_CIPHER_SIZE ≤ buf.length →
      ∃ buf2 : List Nat,
        selector_fill ns ns.prod idx_ buf offset = .ok (buf2, offset + ns.sum) ∧
        buf2.length = buf.length ∧
        (∀ k : Nat, (k < offset * CI_CIPHER_SIZE ∨ (offset + ns.sum) * CI_CIPHER_SIZE ≤ k ∨
            k % CI_CIPHER_SIZE ≠ 0) → buf2[k]? = buf[k]?) ∧
        (∀ (i : Nat) (hi : i < ns.length) (j : Nat), j < ns[i] →
          buf2[(offset + (ns.take i).sum + j) * CI_CIPHER_SIZE]? =
            some (if j = idx_ / (ns.drop (i + 1)).prod % ns[i] then 1 else 0)) := by
  induction ns with
  | nil =>
    intro idx_ buf offset _ _
    refine ⟨buf, rfl, rfl, fun _ _ => rfl, ?_⟩
    intro i hi; simp at hi
  | cons n rest ih =>
    intro idx_ buf offset hi hlen
    have hn : 1 ≤ n := h1 n (List.mem_cons_self _ _)
    have hrest : ∀ x ∈ rest, 1 ≤ x := fun x hx => h1 x (List.mem_cons_of_mem _ hx)
    have hrp : 1 ≤ rest.prod := prod_pos_of_all_pos rest hrest
    rw [List.prod_cons] at hw hi
    rw [List.sum_cons] at hlen
    have hrw : rest.prod < WORD := lt_of_le_of_lt (Nat.le_mul_of_pos_left _ hn) hw
    have hd0 : idx_ / rest.prod < n := (Nat.div_lt_iff_lt_mul hrp).mpr hi
    unfold CI_CIPHER_SIZE at hlen
    obtain ⟨b1, hrun1, hl1, hf1, hw1⟩ :=
      selector_inner_loop (idx_ / rest.prod) n buf offset (by unfold CI_CIPHER_SIZE; omega)
    obtain ⟨b2, hrun2, hl2, hf2, hw2⟩ :=
      ih hrest hrw (idx_ % rest.prod) b1 (offset + n) (Nat.mod_lt _ hrp)
        (by unfold CI_CIPHER_SIZE; omega)
    unfold CI_CIPHER_SIZE at hf1 hw1 hf2 hw2
    refine ⟨b2, ?_, by rw [hl2, hl1], ?_, ?_⟩
    · rw [List.prod_cons, selector_fill, selector_step_ok n rest.prod idx_ hn hrp hw hi]
      simp only [hrun1, hrun2, List.sum_cons, Nat.add_assoc]
    · intro k hk
      rw [List.sum_cons] at hk
      unfold CI_CIPHER_SIZE at hk
      rw [hf2 k (by omega), hf1 k (by omega)]
    · intro i hi' j hj
      unfold CI_CIPHER_SIZE
      cases i with
      | zero =>
        simp only [List.getElem_cons_zero] at hj
        simp only [List.take_zero, List.sum_nil, Nat.add_zero, List.drop_succ_cons,
          List.drop_zero, List.getElem_cons_zero]
        rw [hf2 _ (by omega), hw1 j hj]
        simp only [Nat.mod_eq_of_lt hd0]
      | succ i =>
        have hi2 : i < rest.length := by simpa using hi'
        simp only [List.getElem_cons_succ] at hj
        have hdvd : (rest.drop (i + 1)).prod * rest[i] ∣ rest.prod := by
          have e := List.prod_take_mul_prod_drop rest i
          rw [List.drop_eq_getElem_cons hi2, List.prod_cons] at e
          exact ⟨(rest.take i).prod, by rw [← e]; ring⟩
        have := hw2 i hi2 j hj
        rw [mod_div_mod_of_dvd _ _ _ _ hdvd] at this
        simp only [List.take_succ_cons, List.sum_cons, List.drop_succ_cons,
          List.getElem_cons_succ]
        rw [← this]
        congr 2
        ring

/-- C5. Selector plaintext pattern: when every `n_i ≥ 1`, the product of the `n_i` does not
overflow 64 bits and `idx` is below it, the first loop of `ci_selector_create_` on a buffer
of at least `S = Σ n_i` slots advances `offset` to `S`, touches only the first byte of each
of these slots, and for each dimension `i` and `j < n_i` the first byte of slot
`n_0 + … + n_{i-1} + j` is 1 if `j = r_i` and 0 otherwise, with
`r_i = ⌊idx / ∏_{k>i} n_k⌋ mod n_i < n_i`; so each dimension holds exactly one 1. -/
theorem selector_plaintext_pattern (index_counts : List Nat) (idx : Nat) (ciphers : List Nat)
    (h1 : ∀ n ∈ index_counts, 1 ≤ n) (hw : index_counts.prod < 2 ^ 64)
    (hi : idx < index_counts.prod)
    (hbuf : index_counts.sum * CI_CIPHER_SIZE ≤ ciphers.length) :
    ∃ out : List Nat,
      ci_selector_create_first_loop ciphers index_counts idx = .ok (out, index_counts.sum) ∧
      out.length = ciphers.length ∧
      (∀ k : Nat, k % CI_CIPHER_SIZE ≠ 0 → out[k]? = ciphers[k]?) ∧
      (∀ (i : Nat) (h : i < index_counts.length) (j : Nat), j < index_counts[i] →
        out[((index_counts.take i).sum + j) * CI_CIPHER_SIZE]? =
          some (if j = idx / (index_counts.drop (i + 1)).prod % index_counts[i] then 1 else 0)) ∧
      (∀ (i : Nat) (h : i < index_counts.length),
        ∃ r : Nat, r < index_counts[i] ∧ ∀ j : Nat, j < index_counts[i] →
          (out[((index_counts.take i).sum + j) * CI_CIPHER_SIZE]? = some 1 ↔ j = r)) := by
  have hc : ci_selector_elements_count index_counts = index_counts.prod := by
    rw [elements_count_eq]; exact Nat.mod_eq_of_lt hw
  obtain ⟨out, hrun, hlen, hframe, hpat⟩ :=
    selector_fill_spec index_counts h1 hw idx ciphers 0 hi (by rw [Nat.zero_add]; exact hbuf)
  simp only [Nat.zero_add] at hrun hpat
  refine ⟨out, by rw [ci_selector_create_first_loop, hc]; exact hrun, hlen,
    fun k hk => hframe k (Or.inr (Or.inr hk)), hpat, ?_⟩
  intro i h
  have hpos : 0 < index_counts[i] := h1 _ (List.getElem_mem h)
  refine ⟨idx / (index_counts.drop (i + 1)).prod % index_counts[i], Nat.mod_lt _ hpos, ?_⟩
  intro j hj
  rw [hpat i h j hj]
  by_cases e : j = idx / (index_counts.drop (i + 1)).prod % index_counts[i]
  · simp [e]
  · simp [e]

/-- An instance of C5: `index_counts = [3, 4]`, `idx = 7`, on a buffer of 7 slots. -/
theorem selector_plaintext_pattern_witness :
    ∃ out : List Nat,
      ci_selector_create_first_loop (List.replicate 448 9) [3, 4] 7 = .ok (out, [3, 4].sum) ∧
      out.length = (List.replicate 448 9).length ∧
      (∀ k : Nat, k % CI_CIPHER_SIZE ≠ 0 → out[k]? = (List.replicate 448 9)[k]?) ∧
      (∀ (i : Nat) (h : i < [3, 4].length) (j : Nat), j < [3, 4][i] →
        out[(([3, 4].take i).sum + j) * CI_CIPHER_SIZE]? =
          some (if j = 7 / ([3, 4].drop (i + 1)).prod % [3, 4][i] then 1 else 0)) ∧
      (∀ (i : Nat) (h : i < [3, 4].length),
        ∃ r : Nat, r < [3, 4][i] ∧ ∀ j : Nat, j < [3, 4][i] →
          (out[(([3, 4].take i).sum + j) * CI_CIPHER_SIZE]? = some 1 ↔ j = r)) :=
  selector_plaintext_pattern [3, 4] 7 (List.replicate 448 9) (by decide) (by decide)
    (by decide) (le_of_eq ((List.length_replicate _ _).trans (by decide)).symm)

set_option maxRecDepth 100000 in
/-- Scenario S3: `index_counts = [3, 4]`, `idx = 7` gives the slot bytes `[0,1,0, 0,0,0,1]`. -/
theorem selector_scenario_S3 :
    (ci_selector_create_first_loop (List.replicate 448 9) [3, 4] 7).map
        (fun p => (slotBytes p.1 7, p.2)) =
      .ok ([some 0, some 1, some 0, some 0, some 0, some 0, some 1], 7) := by
  rfl

/-! ### Reply decoder (C7, C8, C9) -/

theorem shr_byte_ok (v : Int) (j : Nat) (hj : j < 4) :
    shr_byte v j = .ok (v.toNat / 256 ^ j % 256) := by
  unfold shr_byte
  rw [if_pos (by omega)]
  have e : (0xFF : Nat) = 2 ^ 8 - 1 := by norm_num
  rw [e, Nat.and_pow_two_sub_one_eq_mod, Nat.shiftRight_eq_div_pow, pow_mul]
  norm_num

theorem store_ok (buf : List Nat) (i v : Nat) (h : i < buf.length) :
    store buf i v = .ok (buf.set i v) := by
  unfold store; rw [if_pos h]

theorem load_ok (buf : List Nat) (i v : Nat) (h : buf[i]? = some v) : load buf i = .ok v := by
  unfold load; rw [h]

theorem reply_unpack_loop (i : Nat) (v : Int) (m : Nat) (hm : m ≤ 4) (buf : List Nat)
    (hlen : i * CI_CIPHER_SIZE + m ≤ buf.length) :
    ∃ out : List Nat, forLoop (reply_unpack i v) m buf = .ok out ∧ out.length = buf.length ∧
      ∀ k : Nat, out[k]? =
        if i * CI_CIPHER_SIZE ≤ k ∧ k < i * CI_CIPHER_SIZE + m then
          some (v.toNat / 256 ^ (k - i * CI_CIPHER_SIZE) % 256)
        else buf[k]? := by
  induction m with
  | zero =>
    refine ⟨buf, rfl, rfl, fun k => ?_⟩
    rw [if_neg (by omega)]
  | succ m ih =>
    obtain ⟨b1, hrun, hl1, hch⟩ := ih (by omega) (by omega)
    have hin : i * CI_CIPHER_SIZE + m < b1.length := by omega
    refine ⟨b1.set (i * CI_CIPHER_SIZE + m) (v.toNat / 256 ^ m % 256), ?_, by simp [hl1], ?_⟩
    · rw [forLoop, hrun]
      simp only [reply_unpack, shr_byte_ok v m (by omega), store_ok _ _ _ hin]
    · intro k
      by_cases hk : k = i * CI_CIPHER_SIZE + m
      · subst hk
        rw [List.getElem?_set_self hin, if_pos (by omega), Nat.add_sub_cancel_left]
      · rw [List.getElem?_set_ne (fun e => hk e.symm), hch k]
        by_cases hc : i * CI_CIPHER_SIZE ≤ k ∧ k < i * CI_CIPHER_SIZE + m
        · rw [if_pos hc, if_pos (by omega)]
        · rw [if_neg hc, if_neg (by omega)]

theorem reply_compact_inner (buf : List Nat) (p N i : Nat) (hp : p ≤ CI_CIPHER_SIZE)
    (hN : N * CI_CIPHER_SIZE ≤ buf.length) (hi : i < N) (m : Nat) (hm : m ≤ p) (b : List Nat)
    (hb : CompactedTo buf p (i * p) b) :
    ∃ out : List Nat, forLoop (reply_compact_byte p i) m b = .ok out ∧
      CompactedTo buf p (i * p + m) out := by
  induction m with
  | zero => exact ⟨b, rfl, hb⟩
  | succ m ih =>
    obtain ⟨b1, hrun, hl1, hch⟩ := ih (by omega)
    unfold CompactedTo
    unfold CI_CIPHER_SIZE at *
    have hip : i * p ≤ i * 64 := Nat.mul_le_mul_left _ hp
    have hsrc : i * 64 + m < buf.length := by omega
    have hread : b1[i * 64 + m]? = some buf[i * 64 + m] := by
      rw [hch, if_neg (by omega), List.getElem?_eq_getElem hsrc]
    have hdst : i * p + m < b1.length := by omega
    refine ⟨b1.set (i * p + m) buf[i * 64 + m], ?_, by simp [hl1], ?_⟩
    · rw [forLoop, hrun]
      simp only [reply_compact_byte, CI_CIPHER_SIZE, load_ok _ _ _ hread, store_ok _ _ _ hdst]
    · intro k
      by_cases hk : k = i * p + m
      · subst hk
        have hmp : m < p := by omega
        have e1 : (i * p + m) / p = i := by
          rw [Nat.add_comm, Nat.add_mul_div_right _ _ (by omega), Nat.div_eq_of_lt hmp,
            Nat.zero_add]
        have e2 : (i * p + m) % p = m := by
          rw [Nat.add_comm, Nat.add_mul_mod_self_right, Nat.mod_eq_of_lt hmp]
        rw [List.getElem?_set_self hdst, if_pos (by omega), e1, e2,
          List.getElem?_eq_getElem hsrc]
      · rw [List.getElem?_set_ne (fun e => hk e.symm), hch k]
        by_cases hc : k < i * p + m
        · rw [if_pos hc, if_pos (by omega)]
        · rw [if_neg hc, if_neg (by omega)]

theorem reply_compact_loop (buf : List Nat) (p N : Nat) (hp : p ≤ CI_CIPHER_SIZE)
    (hN : N * CI_CIPHER_SIZE ≤ buf.length) (n : Nat) (hn : n ≤ N) :
    ∃ out : List Nat, forLoop (reply_compact_slot p) n buf = .ok out ∧
      CompactedTo buf p (n * p) out := by
  induction n with
  | zero =>
    refine ⟨buf, rfl, rfl, fun k => ?_⟩
    rw [if_neg (by omega)]
  | succ n ih =>
    obtain ⟨b1, hrun, hb1⟩ := ih (by omega)
    obtain ⟨b2, hrun2, hb2⟩ := reply_compact_inner buf p N n hp hN (by omega) p (le_refl _) b1 hb1
    refine ⟨b2, ?_, ?_⟩
    · rw [forLoop, hrun]
      exact hrun2
    · have e : (n + 1) * p = n * p + p := by ring
      rw [e]; exact hb2

theorem cipherAt_congr (a b : List Nat) (n : Nat) (hl : a.length = b.length)
    (h : ∀ k : Nat, n * CI_CIPHER_SIZE ≤ k → a[k]? = b[k]?) : cipherAt a n = cipherAt b n := by
  unfold cipherAt
  rw [hl]
  have e : a.drop (n * CI_CIPHER_SIZE) = b.drop (n * CI_CIPHER_SIZE) := by
    apply List.ext_getElem?
    intro j
    rw [List.getElem?_drop, List.getElem?_drop]
    exact h _ (Nat.le_add_right _ _)
  rw [e]

section decryptLoop
variable {Pt : Type} [Ed25519 Pt]

theorem decrypt_at_congr (fuel : Nat) (privkey : List Nat) (mG : List ci_mG_t) (mmax : Nat)
    (a b : List Nat) (n : Nat) (hl : a.length = b.length)
    (h : ∀ k : Nat, n * CI_CIPHER_SIZE ≤ k → a[k]? = b[k]?) :
    decrypt_at Pt fuel privkey mG mmax a n = decrypt_at Pt fuel privkey mG mmax b n := by
  unfold decrypt_at
  rw [cipherAt_congr a b n hl h]

theorem reply_decrypt_loop (fuel : Nat) (privkey : List Nat) (p : Nat) (mG : List ci_mG_t)
    (mmax : Nat) (buf : List Nat) (N : Nat) (hp : p ≤ 4) (hN : N * CI_CIPHER_SIZE ≤ buf.length)
    (v : Nat → Int) (hv : ∀ i : Nat, i < N → decrypt_at Pt fuel privkey mG mmax buf i = .ok (v i))
    (n : Nat) (hn : n ≤ N) :
    ∃ (out : List Nat) (s : Bool),
      forLoop (reply_decrypt_slot Pt fuel privkey p mG mmax) n (buf, true) = .ok (out, s) ∧
      (s = true ↔ ∀ i : Nat, i < n → 0 ≤ v i) ∧ out.length = buf.length ∧
      ∀ k : Nat, out[k]? =
        if k < n * CI_CIPHER_SIZE ∧ k % CI_CIPHER_SIZE < p ∧ 0 ≤ v (k / CI_CIPHER_SIZE) then
          some ((v (k / CI_CIPHER_SIZE)).toNat / 256 ^ (k % CI_CIPHER_SIZE) % 256)
        else buf[k]? := by
  induction n with
  | zero =>
    refine ⟨buf, true, rfl, by simp, rfl, fun k => ?_⟩
    rw [if_neg (by omega)]
  | succ n ih =>
    obtain ⟨b1, s1, hrun, hs1, hl1, hch⟩ := ih (by omega)
    have hdec : decrypt_at Pt fuel privkey mG mmax b1 n = .ok (v n) := by
      rw [decrypt_at_congr fuel privkey mG mmax b1 buf n hl1]
      · exact hv n (by omega)
      · intro k hk
        rw [hch k, if_neg (by omega)]
    unfold CI_CIPHER_SIZE at *
    by_cases hneg : v n < 0
    · refine ⟨b1, false, ?_, ?_, hl1, ?_⟩
      · rw [forLoop, hrun]
        simp only [reply_decrypt_slot, hdec, if_pos hneg]
      · constructor
        · intro h; cases h
        · intro h
          have := h n (by omega)
          omega
      · intro k
        rw [hch k]
        by_cases hc : k < n * 64 ∧ k % 64 < p ∧ 0 ≤ v (k / 64)
        · rw [if_pos hc, if_pos ⟨by omega, hc.2⟩]
        · rw [if_neg hc, if_neg]
          rintro ⟨h1, h2, h3⟩
          by_cases hk : k < n * 64
          · exact hc ⟨hk, h2, h3⟩
          · have : k / 64 = n := by omega
            rw [this] at h3
            omega
    · have hnn : 0 ≤ v n := by omega
      obtain ⟨b2, hrun2, hl2, hch2⟩ :=
        reply_unpack_loop n (v n) p hp b1 (by unfold CI_CIPHER_SIZE; omega)
      unfold CI_CIPHER_SIZE at hch2
      refine ⟨b2, s1, ?_, ?_, by rw [hl2, hl1], ?_⟩
      · rw [forLoop, hrun]
        simp only [reply_decrypt_slot, hdec, if_neg hneg, hrun2]
      · rw [hs1]
        constructor
        · intro h i hi
          rcases Nat.lt_or_ge i n with hlt | hge
          · exact h i hlt
          · have : i = n := by omega
            rw [this]; exact hnn
        · intro h i hi
          exact h i (by omega)
      · intro k
        rw [hch2 k]
        by_cases hc : n * 64 ≤ k ∧ k < n * 64 + p
        · have e1 : k / 64 = n := by omega
          have e2 : k % 64 = k - n * 64 := by omega
          rw [if_pos hc, if_pos ⟨by omega, by omega, by rw [e1]; exact hnn⟩, e1, e2]
        · rw [if_neg hc, hch k]
          by_cases hc2 : k < n * 64 ∧ k % 64 < p ∧ 0 ≤ v (k / 64)
          · rw [if_pos hc2, if_pos ⟨by omega, hc2.2⟩]
          · rw [if_neg hc2, if_neg]
            rintro ⟨h1, h2, h3⟩
            by_cases hk : k < n * 64
            · exact hc2 ⟨hk, h2, h3⟩
            · omega

end decryptLoop

section singlePhase
variable {Pt : Type} [Ed25519 Pt]

theorem reply_phase_success (fuel : Nat) (privkey : List Nat) (p : Nat) (mG : List ci_mG_t)
    (mmax : Nat) (buf : List Nat) (N : Nat) (hp : p ≤ 4) (hN : N * CI_CIPHER_SIZE ≤ buf.length)
    (v : Nat → Int) (hv : ∀ i : Nat, i < N → decrypt_at Pt fuel privkey mG mmax buf i = .ok (v i))
    (hnn : ∀ i : Nat, i < N → 0 ≤ v i) :
    ∃ b1 b2 : List Nat,
      forLoop (reply_decrypt_slot Pt fuel privkey p mG mmax) N (buf, true) = .ok (b1, true) ∧
      forLoop (reply_compact_slot p) N b1 = .ok b2 ∧ b2.length = buf.length ∧
      ∀ i : Nat, i < N → ∀ j : Nat, j < p →
        b2[i * p + j]? = some ((v i).toNat / 256 ^ j % 256) := by
  obtain ⟨b1, s, hrun1, hs, hl1, hch1⟩ :=
    reply_decrypt_loop fuel privkey p mG mmax buf N hp hN v hv N (le_refl _)
  have hst : s = true := hs.mpr hnn
  subst hst
  obtain ⟨b2, hrun2, hl2, hch2⟩ :=
    reply_compact_loop b1 p N (by unfold CI_CIPHER_SIZE; omega) (by rw [hl1]; exact hN) N
      (le_refl _)
  refine ⟨b1, b2, hrun1, hrun2, by rw [hl2, hl1], ?_⟩
  intro i hi j hj
  unfold CI_CIPHER_SIZE at *
  have hlt : i * p + j < N * p := by
    have : (i + 1) * p ≤ N * p := Nat.mul_le_mul_right _ hi
    have e : (i + 1) * p = i * p + p := by ring
    omega
  have e1 : (i * p + j) / p = i := by
    rw [Nat.add_comm, Nat.add_mul_div_right _ _ (by omega), Nat.div_eq_of_lt hj, Nat.zero_add]
  have e2 : (i * p + j) % p = j := by
    rw [Nat.add_comm, Nat.add_mul_mod_self_right, Nat.mod_eq_of_lt hj]
  rw [hch2, if_pos hlt, e1, e2, hch1]
  have e3 : (i * 64 + j) / 64 = i := by omega
  have e4 : (i * 64 + j) % 64 = j := by omega
  rw [if_pos ⟨by omega, by omega, by rw [e3]; exact hnn i hi⟩, e3, e4]

theorem reply_phase_failure (fuel : Nat) (privkey : List Nat) (p : Nat) (mG : List ci_mG_t)
    (mmax : Nat) (buf : List Nat) (N : Nat) (hp : p ≤ 4) (hN : N * CI_CIPHER_SIZE ≤ buf.length)
    (v : Nat → Int) (hv : ∀ i : Nat, i < N → decrypt_at Pt fuel privkey mG mmax buf i = .ok (v i))
    (hneg : ∃ i : Nat, i < N ∧ v i < 0) :
    ∃ b1 : List Nat,
      forLoop (reply_decrypt_slot Pt fuel privkey p mG mmax) N (buf, true) = .ok (b1, false) := by
  obtain ⟨b1, s, hrun1, hs, _, _⟩ :=
    reply_decrypt_loop fuel privkey p mG mmax buf N hp hN v hv N (le_refl _)
  have hsf : s = false := by
    cases s with
    | false => rfl
    | true =>
      obtain ⟨i, hi, hvi⟩ := hneg
      have := hs.mp rfl i hi
      omega
  subst hsf
  exact ⟨b1, hrun1⟩

theorem reply_decrypt_single_phase_run (fuel : Nat) (reply : List Nat) (reply_size : Nat)
    (privkey : List Nat) (packing : Nat) (mG : List ci_mG_t) (mmax : Nat) (v : Nat → Int)
    (hp : packing ≤ 4) (hlen : reply.length = reply_size)
    (hv : ∀ i : Nat, i < reply_size / CI_CIPHER_SIZE →
      decrypt_at Pt fuel privkey mG mmax reply i = .ok (v i) ∧ 0 ≤ v i) :
    ∃ out : List Nat,
      ci_reply_decrypt Pt fuel reply reply_size privkey 1 packing mG mmax =
        .ok (out, toInt32 (umul64 (reply_size / CI_CIPHER_SIZE) packing)) ∧
      out.length = reply.length ∧
      ∀ i : Nat, i < reply_size / CI_CIPHER_SIZE → ∀ j : Nat, j < packing →
        out[i * packing + j]? = some ((v i).toNat / 256 ^ j % 256) := by
  have hN : reply_size / CI_CIPHER_SIZE * CI_CIPHER_SIZE ≤ reply.length := by
    rw [hlen]; exact Nat.div_mul_le_self _ _
  obtain ⟨b1, b2, hrun1, hrun2, hl2, hbytes⟩ :=
    reply_phase_success fuel privkey packing mG mmax reply _ hp hN v (fun i hi => (hv i hi).1)
      (fun i hi => (hv i hi).2)
  refine ⟨b2, ?_, hl2, hbytes⟩
  simp [ci_reply_decrypt, reply_phases, hrun1, hrun2]

/-- C7. Single-phase reply decoding: for `dimension = 1`, a packing `p ≤ 4` (the shift counts
`8·j` stay below the 32 bits of the decrypted `int32_t`) and a reply of `N = ⌊reply_size/64⌋`
ciphertexts whose `i`-th ciphertext decrypts to `v_i ≥ 0`, with `N·p < 2^31` (the result fits
the returned `int`), `ci_reply_decrypt` returns `N·p` and leaves
`reply[i·p + j] = ⌊v_i / 256^j⌋ mod 256` for all `i < N`, `j < p`: the little-endian bytes of
the `v_i`, contiguous, none of them lost to the in-place forward copy. -/
theorem reply_decrypt_single_phase {Pt : Type} [Ed25519 Pt] (fuel : Nat) (reply : List Nat)
    (reply_size : Nat) (privkey : List Nat) (packing : Nat) (mG : List ci_mG_t) (mmax : Nat)
    (v : Nat → Int) (hp : packing ≤ 4) (hlen : reply.length = reply_size)
    (hv : ∀ i : Nat, i < reply_size / CI_CIPHER_SIZE →
      decrypt_at Pt fuel privkey mG mmax reply i = .ok (v i) ∧ 0 ≤ v i)
    (hret : reply_size / CI_CIPHER_SIZE * packing < 2 ^ 31) :
    ∃ out : List Nat,
      ci_reply_decrypt Pt fuel reply reply_size privkey 1 packing mG mmax =
        .ok (out, ((reply_size / CI_CIPHER_SIZE * packing : Nat) : Int)) ∧
      out.length = reply.length ∧
      ∀ i : Nat, i < reply_size / CI_CIPHER_SIZE → ∀ j : Nat, j < packing →
        out[i * packing + j]? = some ((v i).toNat / 256 ^ j % 256) := by
  obtain ⟨out, hrun, hl, hb⟩ :=
    reply_decrypt_single_phase_run fuel reply reply_size privkey packing mG mmax v hp hlen hv
  refine ⟨out, ?_, hl, hb⟩
  have e : umul64 (reply_size / CI_CIPHER_SIZE) packing = reply_size / CI_CIPHER_SIZE * packing :=
    Nat.mod_eq_of_lt (by unfold WORD; omega)
  rw [hrun, e, toInt32_of_lt _ hret]

end singlePhase

set_option maxRecDepth 100000 in
/-- An instance of C7: one ciphertext of `0x030201` with packing 3 (scenario S6). -/
theorem reply_decrypt_single_phase_witness :
    ∃ out : List Nat,
      ci_reply_decrypt ToyPt 5 replyS6 64 (le_bytes 32 6) 1 3 tableS6 1 =
        .ok (out, ((64 / CI_CIPHER_SIZE * 3 : Nat) : Int)) ∧
      out.length = replyS6.length ∧
      ∀ i : Nat, i < 64 / CI_CIPHER_SIZE → ∀ j : Nat, j < 3 →
        out[i * 3 + j]? = some (((fun _ => 0x030201) i : Int).toNat / 256 ^ j % 256) :=
  reply_decrypt_single_phase 5 replyS6 64 (le_bytes 32 6) 3 tableS6 1 (fun _ => 0x030201)
    (by decide) (by decide) (by decide) (by decide)

set_option maxRecDepth 100000 in
/-- Scenario S6: one ciphertext of `0x030201`, `dimension = 1`, `packing = 3`: the output is
`[0x01, 0x02, 0x03]`, of length 3. -/
theorem reply_scenario_S6 :
    (ci_reply_decrypt ToyPt 5 replyS6 64 (le_bytes 32 6) 1 3 tableS6 1).map
        (fun r => (r.1.take 3, r.2)) = .ok ([0x01, 0x02, 0x03], 3) := by
  decide

theorem phase_count_le (reply_size p : Nat) (hp : p ≤ CI_CIPHER_SIZE) (k : Nat) :
    phase_count reply_size p k ≤ reply_size / CI_CIPHER_SIZE := by
  induction k with
  | zero => exact le_refl _
  | succ k ih =>
    unfold phase_count
    unfold CI_CIPHER_SIZE at *
    have h1 : phase_count reply_size p k * p ≤ phase_count reply_size p k * 64 :=
      Nat.mul_le_mul_left _ hp
    have h2 : phase_count reply_size p k * p / 64 ≤ phase_count reply_size p k := by
      apply Nat.div_le_of_le_mul
      omega
    omega

section phases
variable {Pt : Type} [Ed25519 Pt]

theorem Reached_unique (fuel : Nat) (privkey : List Nat) (p : Nat) (mG : List ci_mG_t)
    (mmax : Nat) (reply : List Nat) (reply_size : Nat) (k : Nat) (b : List Nat) (N : Nat)
    (h : Reached Pt fuel privkey p mG mmax reply reply_size k b N) :
    ∀ (b2 : List Nat) (N2 : Nat), Reached Pt fuel privkey p mG mmax reply reply_size k b2 N2 →
      b = b2 ∧ N = N2 := by
  induction h with
  | start =>
    intro b2 N2 h2
    cases h2
    exact ⟨rfl, rfl⟩
  | next hprev _ hrun1 hrun2 ih =>
    intro b2 N2 h2
    cases h2 with
    | next hprev2 _ hrun1b hrun2b =>
      obtain ⟨e1, e2⟩ := ih _ _ hprev2
      subst e1; subst e2
      rw [hrun1] at hrun1b
      cases hrun1b
      rw [hrun2] at hrun2b
      cases hrun2b
      exact ⟨rfl, rfl⟩

theorem reply_phases_classify (fuel : Nat) (privkey : List Nat) (d p : Nat) (mG : List ci_mG_t)
    (mmax : Nat) (reply : List Nat) (reply_size : Nat) (hp : p ≤ 4)
    (hword : reply_size < 2 ^ 64)
    (hdef : ∀ (k : Nat) (b : List Nat) (N : Nat),
      Reached Pt fuel privkey p mG mmax reply reply_size k b N → k < d →
      ∀ i : Nat, i < N → ∃ v : Int, decrypt_at Pt fuel privkey mG mmax b i = .ok v) :
    ∀ (n phase : Nat) (buf : List Nat) (N : Nat), phase + n = d → 1 ≤ n →
      Reached Pt fuel privkey p mG mmax reply reply_size phase buf N →
      N = phase_count reply_size p phase → buf.length = reply_size →
      ∃ (out : List Nat) (r : Int),
        reply_phases Pt fuel privkey d p mG mmax n phase buf N = .ok (out, r) ∧
        (FailsFrom Pt fuel privkey p mG mmax reply reply_size phase d → r = -1) ∧
        (¬ FailsFrom Pt fuel privkey p mG mmax reply reply_size phase d →
          r = toInt32 (phase_count reply_size p (d - 1) * p)) := by
  intro n
  induction n with
  | zero => intro _ _ _ _ h; omega
  | succ n ih =>
    intro phase buf N hsum _ hreach hN hlen
    have hNle : N ≤ reply_size / CI_CIPHER_SIZE := by
      rw [hN]; exact phase_count_le _ _ (by unfold CI_CIPHER_SIZE; omega) _
    have hN64 : N * CI_CIPHER_SIZE ≤ buf.length := by
      rw [hlen]
      exact le_trans (Nat.mul_le_mul_right _ hNle) (Nat.div_mul_le_self _ _)
    have hmul : umul64 N p = N * p := by
      apply Nat.mod_eq_of_lt
      unfold CI_CIPHER_SIZE at hNle
      have : N * p ≤ N * 4 := Nat.mul_le_mul_left _ hp
      unfold WORD
      omega
    obtain ⟨v, hv⟩ : ∃ v : Nat → Int, ∀ i : Nat, i < N →
        decrypt_at Pt fuel privkey mG mmax buf i = .ok (v i) := by
      refine ⟨fun i => match decrypt_at Pt fuel privkey mG mmax buf i with
        | .ok w => w
        | .error _ => 0, ?_⟩
      intro i hi
      obtain ⟨w, hw⟩ := hdef phase buf N hreach (by omega) i hi
      simp only [hw]
    -- a failure at the current phase is excluded when all its values are non-negative
    have hcur : (∀ i : Nat, i < N → 0 ≤ v i) →
        ∀ (b2 : List Nat) (N2 : Nat),
          Reached Pt fuel privkey p mG mmax reply reply_size phase b2 N2 →
          ¬ ∃ i : Nat, i < N2 ∧ ∃ w : Int, decrypt_at Pt fuel privkey mG mmax b2 i = .ok w ∧ w < 0 := by
      intro hnn b2 N2 h2 ⟨i, hi, w, hw, hwneg⟩
      obtain ⟨e1, e2⟩ := Reached_unique fuel privkey p mG mmax reply reply_size phase buf N hreach b2 N2 h2
      subst e1; subst e2
      have := hv i hi
      rw [hw] at this
      cases this
      have := hnn i hi
      omega
    by_cases hneg : ∃ i : Nat, i < N ∧ v i < 0
    · obtain ⟨b1, hrun1⟩ := reply_phase_failure fuel privkey p mG mmax buf N hp hN64 v hv hneg
      refine ⟨b1, -1, ?_, fun _ => rfl, ?_⟩
      · simp [reply_phases, hrun1]
      · intro hnf
        exfalso; apply hnf
        obtain ⟨i, hi, hvi⟩ := hneg
        exact ⟨phase, buf, N, le_refl _, by omega, hreach, i, hi, v i, hv i hi, hvi⟩
    · have hnn : ∀ i : Nat, i < N → 0 ≤ v i := by
        intro i hi
        by_contra hc
        exact hneg ⟨i, hi, by omega⟩
      obtain ⟨b1, b2, hrun1, hrun2, hl2, _⟩ :=
        reply_phase_success fuel privkey p mG mmax buf N hp hN64 v hv hnn
      by_cases hlast : phase + 1 = d
      · refine ⟨b2, toInt32 (umul64 N p), ?_, ?_, ?_⟩
        · simp [reply_phases, hrun1, hrun2, hlast]
        · rintro ⟨k, b3, N3, hlo, hhi, hr3, hfail⟩
          have hk : k = phase := by omega
          subst hk
          exact absurd hfail (hcur hnn b3 N3 hr3)
        · intro _
          have e : d - 1 = phase := by omega
          rw [hmul, e, ← hN]
      · have hnext : Reached Pt fuel privkey p mG mmax reply reply_size (phase + 1) b2
            (umul64 N p / CI_CIPHER_SIZE) :=
          Reached.next hreach (fun i hi => ⟨v i, hv i hi, hnn i hi⟩) hrun1 hrun2
        obtain ⟨out, r, hrun, hf, hs⟩ :=
          ih (phase + 1) b2 (umul64 N p / CI_CIPHER_SIZE) (by omega) (by omega) hnext
            (by rw [hmul, hN]; rfl) (by rw [hl2, hlen])
        refine ⟨out, r, ?_, ?_, ?_⟩
        · simp [reply_phases, hrun1, hrun2, hlast, hrun]
        · rintro ⟨k, b3, N3, hlo, hhi, hr3, hfail⟩
          apply hf
          rcases Nat.eq_or_lt_of_le hlo with heq | hlt
          · subst heq
            exact absurd hfail (hcur hnn b3 N3 hr3)
          · exact ⟨k, b3, N3, hlt, hhi, hr3, hfail⟩
        · intro hnf
          apply hs
          rintro ⟨k, b3, N3, hlo, hhi, hr3, hfail⟩
          exact hnf ⟨k, b3, N3, by omega, hhi, hr3, hfail⟩

end phases

/-- C9. Decoded length recurrence: for `dimension = d ≥ 1`, a packing `p ≤ 4` (the shift counts
of the unpacking stay below 32 bits), when every ciphertext of every reached phase decrypts to
a non-negative value and `N_{d-1}·p < 2^31` (the result fits the returned `int`),
`ci_reply_decrypt` returns `N_{d-1}·p`, where `N_0 = ⌊reply_size/64⌋` and
`N_{k+1} = ⌊N_k·p/64⌋`. -/
theorem reply_decrypt_length {Pt : Type} [Ed25519 Pt] (fuel : Nat) (reply : List Nat)
    (reply_size : Nat) (privkey : List Nat) (d p : Nat) (mG : List ci_mG_t) (mmax : Nat)
    (hd : 1 ≤ d) (hp : p ≤ 4) (hlen : reply.length = reply_size) (hword : reply_size < 2 ^ 64)
    (hall : ∀ (k : Nat) (b : List Nat) (N : Nat),
      Reached Pt fuel privkey p mG mmax reply reply_size k b N → k < d →
      ∀ i : Nat, i < N → ∃ v : Int, decrypt_at Pt fuel privkey mG mmax b i = .ok v ∧ 0 ≤ v)
    (hret : phase_count reply_size p (d - 1) * p < 2 ^ 31) :
    ∃ out : List Nat,
      ci_reply_decrypt Pt fuel reply reply_size privkey d p mG mmax =
        .ok (out, ((phase_count reply_size p (d - 1) * p : Nat) : Int)) := by
  obtain ⟨out, r, hrun, _, hs⟩ :=
    reply_phases_classify fuel privkey d p mG mmax reply reply_size hp hword
      (fun k b N hr hk i hi => (hall k b N hr hk i hi).imp fun _ h => h.1)
      d 0 reply (reply_size / CI_CIPHER_SIZE) (Nat.zero_add d) hd Reached.start rfl hlen
  refine ⟨out, ?_⟩
  have hnf : ¬ FailsFrom Pt fuel privkey p mG mmax reply reply_size 0 d := by
    rintro ⟨k, b, N, _, hk, hr, i, hi, v, hv, hneg⟩
    obtain ⟨w, hw, hwnn⟩ := hall k b N hr hk i hi
    rw [hv] at hw
    cases hw
    omega
  rw [ci_reply_decrypt, hrun, hs hnf, toInt32_of_lt _ hret]

/-- C8. Aggregate decryption failure: for `dimension = d ≥ 1`, a packing `p ≤ 4` and
`N_{d-1}·p < 2^31`, when the decryption of every ciphertext of every reached phase returns a
value, `ci_reply_decrypt` returns `-1` if and only if in some reached phase `k < d` at least
one of the `N_k` current ciphertexts decrypts to a negative value; when every ciphertext of
every reached phase decrypts to a non-negative value the result is non-negative. -/
theorem reply_decrypt_failure_iff {Pt : Type} [Ed25519 Pt] (fuel : Nat) (reply : List Nat)
    (reply_size : Nat) (privkey : List Nat) (d p : Nat) (mG : List ci_mG_t) (mmax : Nat)
    (hd : 1 ≤ d) (hp : p ≤ 4) (hlen : reply.length = reply_size) (hword : reply_size < 2 ^ 64)
    (hdef : ∀ (k : Nat) (b : List Nat) (N : Nat),
      Reached Pt fuel privkey p mG mmax reply reply_size k b N → k < d →
      ∀ i : Nat, i < N → ∃ v : Int, decrypt_at Pt fuel privkey mG mmax b i = .ok v)
    (hret : phase_count reply_size p (d - 1) * p < 2 ^ 31) :
    ∃ (out : List Nat) (r : Int),
      ci_reply_decrypt Pt fuel reply reply_size privkey d p mG mmax = .ok (out, r) ∧
      (r = -1 ↔ FailsFrom Pt fuel privkey p mG mmax reply reply_size 0 d) ∧
      ((∀ (k : Nat) (b : List Nat) (N : Nat),
          Reached Pt fuel privkey p mG mmax reply reply_size k b N → k < d →
          ∀ i : Nat, i < N → ∃ v : Int, decrypt_at Pt fuel privkey mG mmax b i = .ok v ∧ 0 ≤ v) →
        0 ≤ r) := by
  obtain ⟨out, r, hrun, hf, hs⟩ :=
    reply_phases_classify fuel privkey d p mG mmax reply reply_size hp hword hdef
      d 0 reply (reply_size / CI_CIPHER_SIZE) (Nat.zero_add d) hd Reached.start rfl hlen
  have hge : ¬ FailsFrom Pt fuel privkey p mG mmax reply reply_size 0 d → 0 ≤ r := by
    intro hnf
    rw [hs hnf, toInt32_of_lt _ hret]
    exact Int.natCast_nonneg _
  refine ⟨out, r, hrun, ⟨?_, hf⟩, ?_⟩
  · intro hr
    by_contra hnf
    have := hge hnf
    omega
  · intro hall
    apply hge
    rintro ⟨k, b, N, _, hk, hr, i, hi, v, hv, hneg⟩
    obtain ⟨w, hw, hwnn⟩ := hall k b N hr hk i hi
    rw [hv] at hw
    cases hw
    omega

section checks
variable {Pt : Type} [Ed25519 Pt]

theorem slots_ok_sound (fuel : Nat) (privkey : List Nat) (mG : List ci_mG_t) (mmax : Nat)
    (b : List Nat) (N : Nat) (h : slots_ok Pt fuel privkey mG mmax b N = true) :
    ∀ i : Nat, i < N → ∃ v : Int, decrypt_at Pt fuel privkey mG mmax b i = .ok v ∧ 0 ≤ v := by
  intro i hi
  unfold slots_ok at h
  rw [List.all_eq_true] at h
  have := h i (List.mem_range.mpr hi)
  cases hd : decrypt_at Pt fuel privkey mG mmax b i with
  | error e => rw [hd] at this; cases this
  | ok v =>
    rw [hd] at this
    exact ⟨v, rfl, by simpa using this⟩

theorem phases_ok_sound (fuel : Nat) (privkey : List Nat) (p : Nat) (mG : List ci_mG_t)
    (mmax : Nat) (reply : List Nat) (reply_size : Nat) :
    ∀ (n k0 : Nat) (b : List Nat) (N : Nat),
      phases_ok Pt fuel privkey p mG mmax n b N = true →
      Reached Pt fuel privkey p mG mmax reply reply_size k0 b N →
      ∀ (k : Nat) (b2 : List Nat) (N2 : Nat),
        Reached Pt fuel privkey p mG mmax reply reply_size k b2 N2 → k0 ≤ k → k < k0 + n →
        ∀ i : Nat, i < N2 → ∃ v : Int, decrypt_at Pt fuel privkey mG mmax b2 i = .ok v ∧ 0 ≤ v := by
  intro n
  induction n with
  | zero => intro k0 b N _ _ k b2 N2 _ h1 h2; omega
  | succ n ih =>
    intro k0 b N hok hreach k b2 N2 hr2 hlo hhi
    rw [phases_ok, Bool.and_eq_true] at hok
    obtain ⟨hslots, hrest⟩ := hok
    have hcur := slots_ok_sound fuel privkey mG mmax b N hslots
    rcases Nat.eq_or_lt_of_le hlo with heq | hlt
    · subst heq
      obtain ⟨e1, e2⟩ :=
        Reached_unique fuel privkey p mG mmax reply reply_size k0 b N hreach b2 N2 hr2
      subst e1; subst e2
      exact hcur
    · cases h1 : forLoop (reply_decrypt_slot Pt fuel privkey p mG mmax) N (b, true) with
      | error e => rw [h1] at hrest; cases hrest
      | ok st =>
        obtain ⟨b1, s⟩ := st
        cases s with
        | false => rw [h1] at hrest; cases hrest
        | true =>
          rw [h1] at hrest
          simp only at hrest
          cases h2 : forLoop (reply_compact_slot p) N b1 with
          | error e => rw [h2] at hrest; cases hrest
          | ok b3 =>
            rw [h2] at hrest
            simp only at hrest
            exact ih (k0 + 1) b3 _ hrest (Reached.next hreach hcur h1 h2) k b2 N2 hr2
              (by omega) (by omega)

theorem phases_ok_all (fuel : Nat) (privkey : List Nat) (d p : Nat) (mG : List ci_mG_t)
    (mmax : Nat) (reply : List Nat) (reply_size : Nat)
    (h : phases_ok Pt fuel privkey p mG mmax d reply (reply_size / CI_CIPHER_SIZE) = true) :
    ∀ (k : Nat) (b : List Nat) (N : Nat),
      Reached Pt fuel privkey p mG mmax reply reply_size k b N → k < d →
      ∀ i : Nat, i < N → ∃ v : Int, decrypt_at Pt fuel privkey mG mmax b i = .ok v ∧ 0 ≤ v := by
  intro k b N hr hk
  exact phases_ok_sound fuel privkey p mG mmax reply reply_size d 0 reply _ h Reached.start
    k b N hr (Nat.zero_le _) (by omega)

end checks

set_option maxRecDepth 1000000 in
/-- An instance of C9 with two phases: 16 ciphertexts with packing 4, so `N_1 = 1`. -/
theorem reply_decrypt_length_witness :
    ∃ out : List Nat,
      ci_reply_decrypt ToyPt 5 replyTwoPhase 1024 (le_bytes 32 6) 2 4 toyFullTable 13 =
        .ok (out, ((phase_count 1024 4 (2 - 1) * 4 : Nat) : Int)) :=
  reply_decrypt_length 5 replyTwoPhase 1024 (le_bytes 32 6) 2 4 toyFullTable 13
    (by decide) (by decide) (by decide) (by decide)
    (phases_ok_all 5 (le_bytes 32 6) 2 4 toyFullTable 13 replyTwoPhase 1024 (by decide))
    (by decide)

theorem cipherAt_zeros (n i : Nat) (hi : i < n) :
    cipherAt (List.replicate (n * 64) 0) i = .ok (List.replicate 64 0) := by
  unfold cipherAt CI_CIPHER_SIZE
  rw [List.length_replicate, if_pos (by omega), List.drop_replicate, List.take_replicate]
  have e : min 64 (n * 64 - i * 64) = 64 := by omega
  rw [e]

theorem decrypt_at_zeros (n i : Nat) (hi : i < n) :
    decrypt_at ToyPt 5 (le_bytes 32 1) toyTable 5 (List.replicate (n * 64) 0) i = .ok 0 := by
  unfold decrypt_at
  rw [cipherAt_zeros n i hi]
  decide

theorem zero_reply_single_phase (N p : Nat) (hp : p ≤ 4) :
    ∃ out : List Nat,
      ci_reply_decrypt ToyPt 5 (List.replicate (N * 64) 0) (N * 64) (le_bytes 32 1) 1 p
        toyTable 5 = .ok (out, toInt32 (umul64 N p)) := by
  have hdiv : N * 64 / CI_CIPHER_SIZE = N := Nat.mul_div_cancel _ (by decide)
  obtain ⟨out, hrun, _, _⟩ :=
    @reply_decrypt_single_phase_run ToyPt _ 5 (List.replicate (N * 64) 0) (N * 64)
      (le_bytes 32 1) p toyTable 5 (fun _ => 0) hp (List.length_replicate _ _)
      (fun i hi => ⟨decrypt_at_zeros N i (by rw [hdiv] at hi; exact hi), le_refl _⟩)
  rw [hdiv] at hrun
  exact ⟨out, hrun⟩

set_option maxRecDepth 100000 in
/-- C7 as stated fails outside `p ≤ 4` and `N·p < 2^31`.  With packing 5, on the reply of one
ciphertext that decrypts to `0x030201`, the byte `j = 4` is `decrypted >> 32`, a shift by the
full width of the `int32_t`: the run has no defined result.  With packing 4 and a reply of
`2^29` ciphertexts that all decrypt to 0, the value `N·p = 2^31` does not fit the returned
`int`, which is `-2^31`. -/
theorem reply_decrypt_single_phase_limits :
    (decrypt_at ToyPt 5 (le_bytes 32 6) tableS6 1 replyS6 0 = .ok 0x030201 ∧
      ci_reply_decrypt ToyPt 5 replyS6 64 (le_bytes 32 6) 1 5 tableS6 1 = .error .shiftCount) ∧
    ((∀ i : Nat, i < 2 ^ 29 →
        decrypt_at ToyPt 5 (le_bytes 32 1) toyTable 5 (List.replicate (2 ^ 29 * 64) 0) i = .ok 0) ∧
      ∃ out : List Nat,
        ci_reply_decrypt ToyPt 5 (List.replicate (2 ^ 29 * 64) 0) (2 ^ 29 * 64) (le_bytes 32 1)
          1 4 toyTable 5 = .ok (out, -2147483648)) := by
  refine ⟨⟨by decide, by decide⟩, fun i hi => decrypt_at_zeros _ i hi, ?_⟩
  obtain ⟨out, h⟩ := zero_reply_single_phase (2 ^ 29) 4 (by decide)
  exact ⟨out, h⟩

set_option maxRecDepth 100000 in
/-- An instance of C8: a reply of two ciphertexts of which the second decrypts to `-1`. -/
theorem reply_decrypt_failure_iff_witness :
    ∃ (out : List Nat) (r : Int),
      ci_reply_decrypt ToyPt 5 replyFail 128 (le_bytes 32 6) 1 1 toyTable 5 = .ok (out, r) ∧
      (r = -1 ↔ FailsFrom ToyPt 5 (le_bytes 32 6) 1 toyTable 5 replyFail 128 0 1) ∧
      ((∀ (k : Nat) (b : List Nat) (N : Nat),
          Reached ToyPt 5 (le_bytes 32 6) 1 toyTable 5 replyFail 128 k b N → k < 1 →
          ∀ i : Nat, i < N →
            ∃ v : Int, decrypt_at ToyPt 5 (le_bytes 32 6) toyTable 5 b i = .ok v ∧ 0 ≤ v) →
        0 ≤ r) :=
  reply_decrypt_failure_iff 5 replyFail 128 (le_bytes 32 6) 1 1 toyTable 5
    (by decide) (by decide) (by decide) (by decide)
    (fun k b N h hk i hi => by
      cases h with
      | start =>
        have h2 : i < 2 := hi
        interval_cases i
        · exact ⟨3, by decide⟩
        · exact ⟨-1, by decide⟩
      | next _ _ _ _ => omega)
    (by decide)

set_option maxRecDepth 100000 in
/-- C8 as stated fails outside `p ≤ 4` and `N_{d-1}·p < 2^31`.  With one phase, packing 1 and
a reply of `2^32 - 1` ciphertexts that all decrypt to 0, no decryption fails and yet the
returned `int` is `-1`, the truncation of `N·p = 2^32 - 1`.  With packing 5 and a reply whose
only ciphertext decrypts to `0x030201 ≥ 0` the run stops at the shift by 32 bits: the result
is neither `-1` nor non-negative. -/
theorem reply_decrypt_failure_limits :
    ((∀ i : Nat, i < 2 ^ 32 - 1 →
        decrypt_at ToyPt 5 (le_bytes 32 1) toyTable 5
          (List.replicate ((2 ^ 32 - 1) * 64) 0) i = .ok 0) ∧
      ∃ out : List Nat,
        ci_reply_decrypt ToyPt 5 (List.replicate ((2 ^ 32 - 1) * 64) 0) ((2 ^ 32 - 1) * 64)
          (le_bytes 32 1) 1 1 toyTable 5 = .ok (out, -1)) ∧
    (decrypt_at ToyPt 5 (le_bytes 32 6) tableS6 1 replyS6 0 = .ok 0x030201 ∧
      ci_reply_decrypt ToyPt 5 replyS6 64 (le_bytes 32 6) 1 5 tableS6 1 = .error .shiftCount) := by
  refine ⟨⟨fun i hi => decrypt_at_zeros _ i hi, ?_⟩, by decide, by decide⟩
  obtain ⟨out, h⟩ := zero_reply_single_phase (2 ^ 32 - 1) 1 (by decide)
  exact ⟨out, h⟩

set_option maxRecDepth 100000 in
/-- C9 as stated fails outside `p ≤ 4` and `N_{d-1}·p < 2^31`.  With one phase, packing 1 and
a reply of `2^31` ciphertexts that all decrypt to 0, `N_0·p = 2^31` but the returned `int` is
`-2^31`.  With packing 8 and a reply whose only ciphertext decrypts to `0x030201` the run stops
at the shift by 32 bits and returns nothing. -/
theorem reply_decrypt_length_limits :
    ((∀ i : Nat, i < 2 ^ 31 →
        decrypt_at ToyPt 5 (le_bytes 32 1) toyTable 5 (List.replicate (2 ^ 31 * 64) 0) i = .ok 0) ∧
      phase_count (2 ^ 31 * 64) 1 (1 - 1) * 1 = 2 ^ 31 ∧
      ∃ out : List Nat,
        ci_reply_decrypt ToyPt 5 (List.replicate (2 ^ 31 * 64) 0) (2 ^ 31 * 64) (le_bytes 32 1)
          1 1 toyTable 5 = .ok (out, -2147483648)) ∧
    (decrypt_at ToyPt 5 (le_bytes 32 6) tableS6 1 replyS6 0 = .ok 0x030201 ∧
      ci_reply_decrypt ToyPt 5 replyS6 64 (le_bytes 32 6) 1 8 tableS6 1 = .error .shiftCount) := by
  refine ⟨⟨fun i hi => decrypt_at_zeros _ i hi, by decide, ?_⟩, by decide, by decide⟩
  obtain ⟨out, h⟩ := zero_reply_single_phase (2 ^ 31) 1 (by decide)
  exact ⟨out, h⟩

set_option maxRecDepth 1000000 in
/-- A two-phase run: 16 ciphertexts with packing 4 unpack to one inner ciphertext, which
decrypts to 2; the result is the 4 bytes `[2, 0, 0, 0]`. -/
theorem reply_scenario_two_phase :
    (ci_reply_decrypt ToyPt 5 replyTwoPhase 1024 (le_bytes 32 6) 2 4 toyFullTable 13).map
        (fun r => (r.1.take 4, r.2)) = .ok ([2, 0, 0, 0], 4) := by
  decide

/-! ### Loading the table (C10) -/

theorem load_mg_loop_spec (mmax : Nat) (mG0 records : List ci_mG_t) (hcap : mmax ≤ mG0.length)
    (hword : mmax < WORD) :
    ∀ (fuel e : Nat), e ≤ min records.length mmax →
      (min records.length mmax - e) / 1024 < fuel →
      load_mg_loop mmax fuel (records.take e ++ mG0.drop e) e (records.drop e) =
        .ok (records.take (min records.length mmax) ++ mG0.drop (min records.length mmax),
          min records.length mmax) := by
  intro fuel
  induction fuel with
  | zero => intro e _ h; omega
  | succ fuel ih =>
    intro e he hfuel
    have hb : BATCH_SIZE = 1024 := rfl
    have heF : e ≤ records.length := le_trans he (Nat.min_le_left _ _)
    have hem : e ≤ mmax := le_trans he (Nat.min_le_right _ _)
    have hrest : usub64 mmax e = mmax - e := usub64_of_le _ _ hem hword
    have hlt : (records.take e).length = e := by
      rw [List.length_take]; exact Nat.min_eq_left heF
    -- the number of records asked for and the number obtained
    obtain ⟨nmemb, hnm⟩ : ∃ nmemb, nmemb = (if BATCH_SIZE < mmax - e then BATCH_SIZE else mmax - e) :=
      ⟨_, rfl⟩
    have hnmv : nmemb = min 1024 (mmax - e) := by
      rw [hnm, hb]; split <;> omega
    obtain ⟨g, hg⟩ : ∃ g, g = ((records.drop e).take nmemb).length := ⟨_, rfl⟩
    have hgv : g = min 1024 (min records.length mmax - e) := by
      rw [hg, List.length_take, List.length_drop, hnmv]; omega
    have hgot : (records.drop e).take nmemb = (records.drop e).take g := by
      rcases Nat.lt_or_ge g nmemb with h | h
      · have hl : (records.drop e).length ≤ g := by
          rw [hg, List.length_take] at h ⊢
          omega
        rw [List.take_of_length_le hl, List.take_of_length_le (by omega)]
      · have : g = nmemb := by
          have : g ≤ nmemb := by rw [hg, List.length_take]; exact Nat.min_le_left _ _
          omega
        rw [this]
    have htab : (records.take e ++ mG0.drop e).take e ++ (records.drop e).take nmemb ++
        (records.take e ++ mG0.drop e).drop (e + g) =
        records.take (e + g) ++ mG0.drop (e + g) := by
      have hd : ∀ (A B : List ci_mG_t) (n k : Nat), A.length = n →
          (A ++ B).drop (n + k) = B.drop k := by
        intro A B n k h
        subst h
        exact List.drop_append _
      rw [List.take_left' hlt, hgot, ← List.take_add, hd _ _ e g hlt, List.drop_drop]
    have hfits : e + g ≤ (records.take e ++ mG0.drop e).length := by
      rw [List.length_append, hlt, List.length_drop]; omega
    rw [load_mg_loop]
    simp only [hrest, ← hnm, fread_records, ← hg, if_pos hfits, htab]
    have hadd : uadd64 e g = e + g := uadd64_of_lt _ _ (by omega)
    rw [hadd, hb]
    by_cases hlast : g < 1024
    · rw [if_pos hlast]
      have : e + g = min records.length mmax := by omega
      rw [this]
    · rw [if_neg hlast]
      have hg2 : g = 1024 := by omega
      have hnm2 : nmemb = g := by omega
      rw [List.drop_drop, hnm2]
      exact ih (e + g) (by omega) (by omega)

theorem load_mg_run (fuel : Nat) (mG records : List ci_mG_t) (mmax : Nat)
    (hcap : mmax ≤ mG.length) (hword : mmax < 2 ^ 64)
    (hfuel : min records.length mmax / 1024 < fuel) :
    ci_ecelgamal_load_mg fuel mG mmax (some records) =
      .ok (records.take (min records.length mmax) ++ mG.drop (min records.length mmax),
        toInt32 (min records.length mmax)) := by
  have h := load_mg_loop_spec mmax mG records hcap hword fuel 0 (Nat.zero_le _) hfuel
  simp only [List.take_zero, List.drop_zero, List.nil_append] at h
  simp only [ci_ecelgamal_load_mg, h]

/-- C10. Table load count: on a file of `F` complete records, with room for `mmax` entries in
`mG` and `min(F, mmax) < 2^31` (the count fits the returned `int`), `ci_ecelgamal_load_mg`
terminates (any fuel above `min(F, mmax) / 1024` suffices), returns `min(F, mmax)` and leaves
the first `min(F, mmax)` file records, in file order, in `mG[0 .. min(F, mmax))`, every other
entry of `mG` unchanged; it returns 0 and leaves `mG` alone when the file cannot be opened. -/
theorem load_mg_count (fuel : Nat) (mG records : List ci_mG_t) (mmax : Nat)
    (hcap : mmax ≤ mG.length) (hword : mmax < 2 ^ 64)
    (hfuel : min records.length mmax / 1024 < fuel)
    (hret : min records.length mmax < 2 ^ 31) :
    ci_ecelgamal_load_mg fuel mG mmax (some records) =
        .ok (records.take (min records.length mmax) ++ mG.drop (min records.length mmax),
          ((min records.length mmax : Nat) : Int)) ∧
      (records.take (min records.length mmax) ++ mG.drop (min records.length mmax)).length
        = mG.length ∧
      ci_ecelgamal_load_mg fuel mG mmax none = .ok (mG, 0) := by
  refine ⟨?_, ?_, rfl⟩
  · rw [load_mg_run fuel mG records mmax hcap hword hfuel, toInt32_of_lt _ hret]
  · rw [List.length_append, List.length_take, List.length_drop]
    omega

/-- An instance of C10: a file of exactly `MMAX = 2^24` records and a table of `MMAX` entries. -/
theorem load_mg_count_witness :
    ci_ecelgamal_load_mg (2 ^ 14 + 1) (List.replicate MMAX ⟨0, []⟩) MMAX
        (some (List.replicate MMAX ⟨7, [1]⟩)) =
        .ok ((List.replicate MMAX (⟨7, [1]⟩ : ci_mG_t)).take
            (min (List.replicate MMAX (⟨7, [1]⟩ : ci_mG_t)).length MMAX) ++
          (List.replicate MMAX (⟨0, []⟩ : ci_mG_t)).drop
            (min (List.replicate MMAX (⟨7, [1]⟩ : ci_mG_t)).length MMAX),
          ((min (List.replicate MMAX (⟨7, [1]⟩ : ci_mG_t)).length MMAX : Nat) : Int)) ∧
      ((List.replicate MMAX (⟨7, [1]⟩ : ci_mG_t)).take
            (min (List.replicate MMAX (⟨7, [1]⟩ : ci_mG_t)).length MMAX) ++
          (List.replicate MMAX (⟨0, []⟩ : ci_mG_t)).drop
            (min (List.replicate MMAX (⟨7, [1]⟩ : ci_mG_t)).length MMAX)).length
        = (List.replicate MMAX (⟨0, []⟩ : ci_mG_t)).length ∧
      ci_ecelgamal_load_mg (2 ^ 14 + 1) (List.replicate MMAX ⟨0, []⟩) MMAX none =
        .ok (List.replicate MMAX ⟨0, []⟩, 0) :=
  load_mg_count (2 ^ 14 + 1) (List.replicate MMAX ⟨0, []⟩) (List.replicate MMAX ⟨7, [1]⟩) MMAX
    (by rw [List.length_replicate]) (by decide)
    (by rw [List.length_replicate]; decide) (by rw [List.length_replicate]; decide)

/-- Scenario S5: a file of exactly `MMAX` records loads `MMAX` entries, a file one record
short loads `MMAX - 1`. -/
theorem load_mg_scenario_S5 (mG full short : List ci_mG_t) (fuel : Nat)
    (hcap : mG.length = MMAX) (hfull : full.length = MMAX) (hshort : short.length = MMAX - 1)
    (hfuel : 2 ^ 14 < fuel) :
    ci_ecelgamal_load_mg fuel mG MMAX (some full) = .ok (full, ((MMAX : Nat) : Int)) ∧
      ∃ out : List ci_mG_t,
        ci_ecelgamal_load_mg fuel mG MMAX (some short) = .ok (out, ((MMAX - 1 : Nat) : Int)) := by
  have hM : MMAX = 16777216 := by decide
  constructor
  · have h := load_mg_run fuel mG full MMAX (by omega) (by rw [hM]; decide)
      (by rw [hfull, Nat.min_self, hM]; omega)
    rw [h, hfull, Nat.min_self, toInt32_of_lt _ (by rw [hM]; decide)]
    have e1 : full.take MMAX = full := List.take_of_length_le (by omega)
    have e2 : mG.drop MMAX = [] := List.drop_eq_nil_of_le (by omega)
    rw [e1, e2, List.append_nil]
  · have h := load_mg_run fuel mG short MMAX (by omega) (by rw [hM]; decide)
      (by rw [hshort, hM]; omega)
    have e : min short.length MMAX = MMAX - 1 := by rw [hshort]; omega
    rw [e] at h
    rw [h, toInt32_of_lt _ (by rw [hM]; decide)]
    exact ⟨_, rfl⟩

/-- C10 as stated fails once `min(F, mmax)` leaves the range of `int`: with `mmax = 2^31` and a
file of `2^31` records the loop reads all of them and the function returns `-2^31`. -/
theorem load_mg_count_overflow :
    ci_ecelgamal_load_mg (2 ^ 21 + 1) (List.replicate (2 ^ 31) ⟨0, []⟩) (2 ^ 31)
        (some (List.replicate (2 ^ 31) ⟨7, [1]⟩)) =
      .ok ((List.replicate (2 ^ 31) (⟨7, [1]⟩ : ci_mG_t)).take (2 ^ 31) ++
          (List.replicate (2 ^ 31) (⟨0, []⟩ : ci_mG_t)).drop (2 ^ 31), -2147483648) ∧
      min (List.replicate (2 ^ 31) (⟨7, [1]⟩ : ci_mG_t)).length (2 ^ 31) = 2 ^ 31 := by
  have hl : (List.replicate (2 ^ 31) (⟨7, [1]⟩ : ci_mG_t)).length = 2 ^ 31 :=
    List.length_replicate _ _
  have h := load_mg_run (2 ^ 21 + 1) (List.replicate (2 ^ 31) ⟨0, []⟩)
    (List.replicate (2 ^ 31) ⟨7, [1]⟩) (2 ^ 31) (by rw [List.length_replicate]) (by decide)
    (by rw [hl]; decide)
  rw [hl, Nat.min_self] at h
  refine ⟨?_, by rw [hl, Nat.min_self]⟩
  rw [h]
  rfl

/-! ### Plaintext scalar encoding (C15) -/

theorem le_value_eq_sum (l : List Nat) :
    le_value l = (Finset.range l.length).sum (fun k => l.getD k 0 * 256 ^ k) := by
  induction l with
  | nil => simp [le_value]
  | cons x xs ih =>
    rw [le_value, ih, List.length_cons, Finset.sum_range_succ', Finset.mul_sum]
    simp only [List.getD_cons_succ, List.getD_cons_zero, pow_zero, mul_one, pow_succ]
    rw [Nat.add_comm]
    congr 1
    apply Finset.sum_congr rfl
    intro k _
    ring

theorem land_shift_byte (n j : Nat) : (n >>> (8 * j)) &&& 0xFF = n / 256 ^ j % 256 := by
  have e : (0xFF : Nat) = 2 ^ 8 - 1 := by norm_num
  rw [e, Nat.and_pow_two_sub_one_eq_mod, Nat.shiftRight_eq_div_pow, pow_mul]
  norm_num

/-- C15. Plaintext scalar encoding: for every 64-bit unsigned `n`, `sc25519_load_uint64`
produces 32 bytes whose little-endian value `Σ_{k<32} sc[k]·256^k` is `n`: bytes 0..7 are the
little-endian bytes of `n` and bytes 8..31 are zero. -/
theorem load_uint64_encoding (n : Nat) (hn : n < 2 ^ 64) :
    (sc25519_load_uint64 n).length = 32 ∧
    (Finset.range 32).sum (fun k => (sc25519_load_uint64 n).getD k 0 * 256 ^ k) = n ∧
    (∀ k : Nat, k < 8 → (sc25519_load_uint64 n)[k]? = some (n / 256 ^ k % 256)) ∧
    (∀ k : Nat, 8 ≤ k → k < 32 → (sc25519_load_uint64 n)[k]? = some 0) := by
  have hlen : (sc25519_load_uint64 n).length = 32 := by
    simp [sc25519_load_uint64, CI_SCALAR_SIZE]
  refine ⟨hlen, ?_, ?_, ?_⟩
  · have h := le_value_eq_sum (sc25519_load_uint64 n)
    rw [hlen] at h
    rw [← h]
    exact le_value_load_uint64 n hn
  · intro k hk
    have h0 := land_shift_byte n 0
    have h1 := land_shift_byte n 1
    have h2 := land_shift_byte n 2
    have h3 := land_shift_byte n 3
    have h4 := land_shift_byte n 4
    have h5 := land_shift_byte n 5
    have h6 := land_shift_byte n 6
    have h7 := land_shift_byte n 7
    simp only [Nat.mul_zero, Nat.shiftRight_zero, Nat.reduceMul] at h0 h1 h2 h3 h4 h5 h6 h7
    interval_cases k <;> simp [sc25519_load_uint64, *]
  · intro k h8 h32
    unfold sc25519_load_uint64 CI_SCALAR_SIZE
    rw [List.getElem?_append_right (by simpa using h8)]
    simp only [List.length_cons, List.length_nil]
    rw [List.getElem?_replicate]
    rw [if_pos (by omega)]

/-- An instance of C15: the eight bytes of `0x0807060504030201`. -/
theorem load_uint64_encoding_witness :
    (sc25519_load_uint64 0x0807060504030201).length = 32 ∧
    (Finset.range 32).sum
      (fun k => (sc25519_load_uint64 0x0807060504030201).getD k 0 * 256 ^ k)
        = 0x0807060504030201 ∧
    (∀ k : Nat, k < 8 →
      (sc25519_load_uint64 0x0807060504030201)[k]? = some (0x0807060504030201 / 256 ^ k % 256)) ∧
    (∀ k : Nat, 8 ≤ k → k < 32 → (sc25519_load_uint64 0x0807060504030201)[k]? = some 0) :=
  load_uint64_encoding 0x0807060504030201 (by norm_num)

/-! ### Additive homomorphism (C13) -/

/-- C13. Additive homomorphism: with a table of `mmax ≤ 2^31` entries holding `(m, m·G)` for
every `m < mmax` in strictly ascending point order, for every private key `sk`, randomness
`r1`, `r2` and plaintexts with `m1 + m2 < mmax`, decrypting the componentwise group sum of the
encryptions of `m1` and `m2` under `sk·G` returns `m1 + m2`. -/
theorem homomorphic_add {Pt : Type} [Ed25519 Pt] (fuel : Nat) (sk : List Nat)
    (r1 r2 : Option (List Nat)) (rnd1 rnd2 : List Nat) (m1 m2 mmax : Nat) (mG : List ci_mG_t)
    (hm : m1 + m2 < mmax) (hmax : mmax ≤ 2 ^ 31) (hT : WellFormedTable Pt mG mmax)
    (hfuel : mmax ≤ fuel) :
    ci_ecelgamal_decrypt Pt fuel sk
        (cipher_add Pt (ci_ecelgamal_encrypt Pt (pubkey_of Pt sk) m1 r1 rnd1)
          (ci_ecelgamal_encrypt Pt (pubkey_of Pt sk) m2 r2 rnd2)) mG mmax
      = .ok ((m1 + m2 : Nat) : Int) := by
  obtain ⟨hlen, hs, hmem⟩ := hT
  obtain ⟨i, hi⟩ := List.getElem?_of_mem (hmem (m1 + m2) hm)
  have hfound := binary_search_found fuel mG mmax hlen (by unfold WORD; omega) hs hfuel i _ hi
  simp only at hfound
  rw [toInt32_of_lt _ (by omega)] at hfound
  have hmm1 : le_value (sc25519_load_uint64 m1) = m1 := le_value_load_uint64 m1 (by omega)
  have hmm2 : le_value (sc25519_load_uint64 m2) = m2 := le_value_load_uint64 m2 (by omega)
  obtain ⟨ra, ha, _⟩ := @encrypt_eq Pt _ (pubkey_of Pt sk) m1 r1 rnd1
  obtain ⟨rb, hb, _⟩ := @encrypt_eq Pt _ (pubkey_of Pt sk) m2 r2 rnd2
  have take_l : ∀ c1 c2 : Pt, (tobytes c1 ++ tobytes c2).take CI_POINT_SIZE = tobytes c1 :=
    fun c1 _ => List.take_left' (tobytes_length c1)
  have drop_l : ∀ c1 c2 : Pt,
      ((tobytes c1 ++ tobytes c2).drop CI_POINT_SIZE).take CI_POINT_SIZE = tobytes c2 := by
    intro c1 c2
    rw [List.drop_left' (tobytes_length c1)]
    exact List.take_of_length_le (le_of_eq (tobytes_length c2))
  rw [ha, hb, hmm1, hmm2]
  unfold cipher_add
  simp only [take_l, drop_l, frombytes_tobytes]
  rw [decrypt_cipher]
  have e : le_value ra • (frombytes (pubkey_of Pt sk) : Pt) + m1 • (G : Pt) +
        (le_value rb • (frombytes (pubkey_of Pt sk) : Pt) + m2 • (G : Pt)) -
        le_value sk • (le_value ra • (G : Pt) + le_value rb • (G : Pt)) =
      (m1 + m2) • (G : Pt) := by
    unfold pubkey_of ge25519_scalarmult_base
    rw [frombytes_tobytes, smul_add, smul_comm (le_value sk) (le_value ra) (G : Pt),
      smul_comm (le_value sk) (le_value rb) (G : Pt), add_smul]
    abel
  rw [e]
  exact hfound

/-- An instance of C13 on the small provider: the plaintexts 1 and 3 under the private key 6. -/
theorem homomorphic_add_witness :
    ci_ecelgamal_decrypt ToyPt 5 (le_bytes 32 6)
        (cipher_add ToyPt
          (ci_ecelgamal_encrypt ToyPt (pubkey_of ToyPt (le_bytes 32 6)) 1
            (some (le_bytes 32 9)) [])
          (ci_ecelgamal_encrypt ToyPt (pubkey_of ToyPt (le_bytes 32 6)) 3 none (le_bytes 32 4)))
        toyTable 5
      = .ok ((1 + 3 : Nat) : Int) :=
  homomorphic_add 5 (le_bytes 32 6) (some (le_bytes 32 9)) none [] (le_bytes 32 4) 1 3 5 toyTable
    (by decide) (by norm_num) (by unfold WellFormedTable StrictlyAscending; decide) (by decide)

/-! ### Reply buffer bounds (C14) -/

theorem reply_unpack_loop_any (i : Nat) (v : Int) (m : Nat) (buf : List Nat)
    (hlen : i * CI_CIPHER_SIZE + m ≤ buf.length) :
    (∃ out : List Nat, forLoop (reply_unpack i v) m buf = .ok out ∧ out.length = buf.length) ∨
      forLoop (reply_unpack i v) m buf = .error .shiftCount := by
  induction m with
  | zero => exact Or.inl ⟨buf, rfl, rfl⟩
  | succ m ih =>
    rcases ih (by omega) with ⟨b1, hrun, hl1⟩ | herr
    · have hin : i * CI_CIPHER_SIZE + m < b1.length := by omega
      rw [forLoop, hrun]
      simp only [reply_unpack, shr_byte]
      by_cases hs : 8 * m < 32
      · left
        simp only [if_pos hs, store_ok _ _ _ hin]
        exact ⟨_, rfl, by simp [hl1]⟩
      · right
        simp only [if_neg hs]
    · right
      rw [forLoop, herr]

section bounds
variable {Pt : Type} [Ed25519 Pt]

theorem reply_decrypt_loop_any (fuel : Nat) (privkey : List Nat) (p : Nat) (mG : List ci_mG_t)
    (mmax : Nat) (buf : List Nat) (N : Nat) (hp : p ≤ CI_CIPHER_SIZE)
    (hN : N * CI_CIPHER_SIZE ≤ buf.length) (n : Nat) (hn : n ≤ N) :
    (∃ (out : List Nat) (s : Bool),
        forLoop (reply_decrypt_slot Pt fuel privkey p mG mmax) n (buf, true) = .ok (out, s) ∧
        out.length = buf.length) ∨
      forLoop (reply_decrypt_slot Pt fuel privkey p mG mmax) n (buf, true)
        = .error .shiftCount ∨
      ∃ e : Err, forLoop (reply_decrypt_slot Pt fuel privkey p mG mmax) n (buf, true)
        = .error e ∧ DecryptStops Pt fuel privkey mG mmax e := by
  induction n with
  | zero => exact Or.inl ⟨buf, true, rfl, rfl⟩
  | succ n ih =>
    rcases ih (by omega) with ⟨b1, s, hrun, hl1⟩ | herr | ⟨e, herr, hstop⟩
    · have hc : n * CI_CIPHER_SIZE + CI_CIPHER_SIZE ≤ b1.length := by
        have : (n + 1) * CI_CIPHER_SIZE ≤ N * CI_CIPHER_SIZE := Nat.mul_le_mul_right _ hn
        rw [Nat.add_mul, Nat.one_mul] at this
        omega
      have hcl : ((b1.drop (n * CI_CIPHER_SIZE)).take CI_CIPHER_SIZE).length = CI_CIPHER_SIZE := by
        rw [List.length_take, List.length_drop]
        omega
      rw [forLoop, hrun]
      simp only [reply_decrypt_slot, decrypt_at, cipherAt, if_pos hc]
      cases hd : ci_ecelgamal_decrypt Pt fuel privkey
          ((b1.drop (n * CI_CIPHER_SIZE)).take CI_CIPHER_SIZE) mG mmax with
      | error e => exact Or.inr (Or.inr ⟨e, rfl, _, hcl, hd⟩)
      | ok d =>
        simp only
        by_cases hneg : d < 0
        · rw [if_pos hneg]
          exact Or.inl ⟨b1, false, rfl, hl1⟩
        · rw [if_neg hneg]
          rcases reply_unpack_loop_any n d p b1 (by omega) with ⟨b2, hu, hl2⟩ | hu
          · rw [hu]
            exact Or.inl ⟨b2, s, rfl, hl2.trans hl1⟩
          · rw [hu]
            exact Or.inr (Or.inl rfl)
    · right; left
      rw [forLoop, herr]
    · right; right
      exact ⟨e, by rw [forLoop, herr], hstop⟩

theorem reply_phases_any (fuel : Nat) (privkey : List Nat) (d p : Nat) (mG : List ci_mG_t)
    (mmax : Nat) (hp : p ≤ CI_CIPHER_SIZE) :
    ∀ (n phase : Nat) (buf : List Nat) (N : Nat), N * CI_CIPHER_SIZE ≤ buf.length →
      (∃ (out : List Nat) (r : Int),
          reply_phases Pt fuel privkey d p mG mmax n phase buf N = .ok (out, r) ∧
          out.length = buf.length) ∨
        reply_phases Pt fuel privkey d p mG mmax n phase buf N = .error .shiftCount ∨
        ∃ e : Err, reply_phases Pt fuel privkey d p mG mmax n phase buf N = .error e ∧
          DecryptStops Pt fuel privkey mG mmax e := by
  intro n
  induction n with
  | zero =>
    intro phase buf N _
    exact Or.inl ⟨buf, _, rfl, rfl⟩
  | succ n ih =>
    intro phase buf N hN
    rw [reply_phases]
    rcases @reply_decrypt_loop_any Pt _ fuel privkey p mG mmax buf N hp hN N le_rfl with
      ⟨b1, s, hrun, hl1⟩ | herr | ⟨e, herr, hstop⟩
    · rw [hrun]
      cases s with
      | false => exact Or.inl ⟨b1, -1, rfl, hl1⟩
      | true =>
        obtain ⟨b2, hc, hl2, _⟩ := reply_compact_loop b1 p N hp (by omega) N le_rfl
        simp only [Bool.not_true, Bool.false_eq_true, if_false, hc]
        by_cases hlast : phase + 1 = d
        · rw [if_pos hlast]
          exact Or.inl ⟨b2, _, rfl, hl2.trans hl1⟩
        · rw [if_neg hlast]
          have hle : umul64 N p / CI_CIPHER_SIZE ≤ N := by
            unfold umul64 CI_CIPHER_SIZE
            unfold CI_CIPHER_SIZE at hp
            have h1 : N * p % WORD ≤ N * p := Nat.mod_le _ _
            have h2 : N * p ≤ N * 64 := Nat.mul_le_mul_left _ hp
            omega
          have hN2 : umul64 N p / CI_CIPHER_SIZE * CI_CIPHER_SIZE ≤ b2.length := by
            have := Nat.mul_le_mul_right CI_CIPHER_SIZE hle
            omega
          rcases ih (phase + 1) b2 (umul64 N p / CI_CIPHER_SIZE) hN2 with
            ⟨out, r, h, hl⟩ | h | ⟨e, h, hstop⟩
          · exact Or.inl ⟨out, r, h, by omega⟩
          · exact Or.inr (Or.inl h)
          · exact Or.inr (Or.inr ⟨e, h, hstop⟩)
    · rw [herr]
      exact Or.inr (Or.inl rfl)
    · rw [herr]
      exact Or.inr (Or.inr ⟨e, rfl, hstop⟩)

theorem reply_decrypt_strict_in_bounds (fuel : Nat) (reply : List Nat) (reply_size : Nat)
    (privkey : List Nat) (d p : Nat) (mG : List ci_mG_t) (mmax : Nat)
    (hp : p ≤ CI_CIPHER_SIZE) (hlen : reply.length = reply_size) :
    (∃ (out : List Nat) (r : Int),
        ci_reply_decrypt Pt fuel reply reply_size privkey d p mG mmax = .ok (out, r) ∧
        out.length = reply_size) ∨
      ci_reply_decrypt Pt fuel reply reply_size privkey d p mG mmax = .error .shiftCount ∨
      ∃ e : Err, ci_reply_decrypt Pt fuel reply reply_size privkey d p mG mmax = .error e ∧
        DecryptStops Pt fuel privkey mG mmax e := by
  have hN : reply_size / CI_CIPHER_SIZE * CI_CIPHER_SIZE ≤ reply.length := by
    rw [hlen]
    exact Nat.div_mul_le_self _ _
  have h := @reply_phases_any Pt _ fuel privkey d p mG mmax hp d 0 reply
    (reply_size / CI_CIPHER_SIZE) hN
  rw [hlen] at h
  exact h

end bounds


theorem forLoopTotal_inv {σ : Type} (P : σ → Prop) (body : Nat → σ → σ) (n : Nat)
    (hstep : ∀ (i : Nat) (s : σ), i < n → P s → P (body i s)) (s : σ) (h : P s) :
    P (forLoopTotal body n s) := by
  induction n with
  | zero => exact h
  | succ n ih =>
    rw [forLoopTotal]
    exact hstep n _ (Nat.lt_succ_self n)
      (ih (fun i s hi hs => hstep i s (Nat.lt_succ_of_lt hi) hs))

theorem trace_write_within (L : Nat) (cs : List Nat) (t : ReplyTrace) (i v : Nat)
    (ht : t.Within L cs) (hi : i < L) : (t.write i v).Within L cs := by
  obtain ⟨hl, ha, hc⟩ := ht
  refine ⟨by simp [ReplyTrace.write, hl], ?_, hc⟩
  intro k hk
  simp only [ReplyTrace.write, List.mem_cons] at hk
  rcases hk with rfl | hk
  · exact hi
  · exact ha k hk

theorem trace_read_within (L : Nat) (cs : List Nat) (t : ReplyTrace) (i : Nat)
    (ht : t.Within L cs) (hi : i < L) : (t.read i).2.Within L cs := by
  obtain ⟨hl, ha, hc⟩ := ht
  refine ⟨hl, ?_, hc⟩
  intro k hk
  simp only [ReplyTrace.read, List.mem_cons] at hk
  rcases hk with rfl | hk
  · exact hi
  · exact ha k hk

theorem trace_readCipher_within (L : Nat) (cs : List Nat) (t : ReplyTrace) (i : Nat)
    (ht : t.Within L cs) (hi : i * CI_CIPHER_SIZE + CI_CIPHER_SIZE ≤ L) :
    (t.readCipher i).2.Within L cs := by
  obtain ⟨hl, ha, hc⟩ := ht
  refine ⟨hl, ?_, hc⟩
  intro k hk
  simp only [ReplyTrace.readCipher, List.mem_append, List.mem_reverse, List.mem_range'_1] at hk
  rcases hk with hk | hk
  · omega
  · exact ha k hk

theorem trace_unpack_loop_within (shr : Int → Nat → Nat) (L : Nat) (cs : List Nat) (i : Nat)
    (v : Int) (m : Nat) (t : ReplyTrace) (ht : t.Within L cs)
    (hi : i * CI_CIPHER_SIZE + m ≤ L) :
    (forLoopTotal (trace_unpack shr i v) m t).Within L cs :=
  forLoopTotal_inv (fun t => t.Within L cs) _ m
    (fun j s hj hs => trace_write_within L cs s _ _ hs (by omega)) t ht

theorem trace_decrypt_loop_within (decrypt : List Nat → Int) (shr : Int → Nat → Nat)
    (L : Nat) (cs : List Nat) (p N : Nat) (hp : p ≤ CI_CIPHER_SIZE)
    (hN : N * CI_CIPHER_SIZE ≤ L) (t : ReplyTrace) (ht : t.Within L cs) :
    (forLoopTotal (trace_decrypt_slot decrypt shr p) N (t, true)).1.Within L cs := by
  apply forLoopTotal_inv (fun st : ReplyTrace × Bool => st.1.Within L cs) _ N _ (t, true) ht
  intro i st hi hs
  have hc : i * CI_CIPHER_SIZE + CI_CIPHER_SIZE ≤ L := by
    have h := Nat.mul_le_mul_right CI_CIPHER_SIZE (Nat.succ_le_of_lt hi)
    rw [Nat.succ_mul] at h
    omega
  have hr := trace_readCipher_within L cs st.1 i hs hc
  simp only [trace_decrypt_slot]
  by_cases hneg : decrypt (st.1.readCipher i).1 < 0
  · rw [if_pos hneg]
    exact hr
  · rw [if_neg hneg]
    exact trace_unpack_loop_within shr L cs i _ p _ hr (by omega)

theorem trace_compact_loop_within (L : Nat) (cs : List Nat) (p N : Nat)
    (hp : p ≤ CI_CIPHER_SIZE) (hN : N * CI_CIPHER_SIZE ≤ L) (t : ReplyTrace)
    (ht : t.Within L cs) :
    (forLoopTotal (trace_compact_slot p) N t).Within L cs := by
  apply forLoopTotal_inv (fun t : ReplyTrace => t.Within L cs) _ N _ t ht
  intro i s hi hs
  have hc : i * CI_CIPHER_SIZE + CI_CIPHER_SIZE ≤ L := by
    have h := Nat.mul_le_mul_right CI_CIPHER_SIZE (Nat.succ_le_of_lt hi)
    rw [Nat.succ_mul] at h
    omega
  have hip : i * p ≤ i * CI_CIPHER_SIZE := Nat.mul_le_mul_left _ hp
  apply forLoopTotal_inv (fun t : ReplyTrace => t.Within L cs) _ p _ s hs
  intro j s2 hj hs2
  simp only [trace_compact_byte]
  exact trace_write_within L cs _ _ _ (trace_read_within L cs s2 _ hs2 (by omega)) (by omega)

theorem phase_count_succ_le (reply_size p : Nat) (hp : p ≤ CI_CIPHER_SIZE) (k : Nat) :
    phase_count reply_size p (k + 1) ≤ phase_count reply_size p k := by
  rw [phase_count]
  unfold CI_CIPHER_SIZE at *
  have h2 : phase_count reply_size p k * p ≤ phase_count reply_size p k * 64 :=
    Nat.mul_le_mul_left _ hp
  omega

theorem trace_phases_spec (decrypt : List Nat → Int) (shr : Int → Nat → Nat) (d p rs : Nat)
    (hp : p ≤ CI_CIPHER_SIZE) (hrs : rs < WORD) :
    ∀ (n phase : Nat) (t : ReplyTrace),
      t.Within rs ((List.range phase).map (phase_count rs p)).reverse →
      ∃ k : Nat, phase ≤ k ∧ k ≤ phase + n ∧
        (trace_phases decrypt shr d p n phase t (phase_count rs p phase)).1.Within rs
          ((List.range k).map (phase_count rs p)).reverse := by
  intro n
  induction n with
  | zero =>
    intro phase t ht
    exact ⟨phase, le_rfl, le_rfl, ht⟩
  | succ n ih =>
    intro phase t ht
    have hNle := phase_count_le rs p hp phase
    have hN : phase_count rs p phase * CI_CIPHER_SIZE ≤ rs :=
      le_trans (Nat.mul_le_mul_right _ hNle) (Nat.div_mul_le_self _ _)
    have hcs : phase_count rs p phase :: ((List.range phase).map (phase_count rs p)).reverse
        = ((List.range (phase + 1)).map (phase_count rs p)).reverse := by
      rw [List.range_succ, List.map_append, List.reverse_append]
      rfl
    have ht1 : (⟨t.reply, t.accessed, phase_count rs p phase :: t.counts⟩ :
        ReplyTrace).Within rs ((List.range (phase + 1)).map (phase_count rs p)).reverse := by
      obtain ⟨hl, ha, hc⟩ := ht
      exact ⟨hl, ha, by rw [← hcs, ← hc]⟩
    have h1 := trace_decrypt_loop_within decrypt shr rs _ p (phase_count rs p phase) hp hN _ ht1
    rw [trace_phases]
    cases hrun : forLoopTotal (trace_decrypt_slot decrypt shr p) (phase_count rs p phase)
        (⟨t.reply, t.accessed, phase_count rs p phase :: t.counts⟩, true) with
    | mk t1 b =>
      rw [hrun] at h1
      simp only at h1 ⊢
      cases b with
      | false => exact ⟨phase + 1, by omega, by omega, h1⟩
      | true =>
        have h2 := trace_compact_loop_within rs _ p (phase_count rs p phase) hp hN t1 h1
        simp only [Bool.not_true, Bool.false_eq_true, if_false]
        by_cases hlast : phase + 1 = d
        · rw [if_pos hlast]
          exact ⟨phase + 1, by omega, by omega, h2⟩
        · rw [if_neg hlast]
          have hmul : umul64 (phase_count rs p phase) p / CI_CIPHER_SIZE
              = phase_count rs p (phase + 1) := by
            rw [phase_count]
            unfold umul64
            rw [Nat.mod_eq_of_lt]
            have h3 : phase_count rs p phase * p ≤ phase_count rs p phase * CI_CIPHER_SIZE :=
              Nat.mul_le_mul_left _ hp
            omega
          rw [hmul]
          obtain ⟨k, hk1, hk2, hk⟩ := ih (phase + 1) _ h2
          exact ⟨k, by omega, by omega, hk⟩

theorem trace_unpack_loop_mono (shr : Int → Nat → Nat) (i : Nat) (v : Int) (m : Nat)
    (t : ReplyTrace) (k : Nat) (hk : k ∈ t.accessed) :
    k ∈ (forLoopTotal (trace_unpack shr i v) m t).accessed :=
  forLoopTotal_inv (fun t : ReplyTrace => k ∈ t.accessed) _ m
    (fun _ _ _ hs => List.mem_cons_of_mem _ hs) t hk

theorem trace_decrypt_slot_mono (decrypt : List Nat → Int) (shr : Int → Nat → Nat) (p i : Nat)
    (st : ReplyTrace × Bool) (k : Nat)
    (hk : k ∈ st.1.accessed ∨ (i * CI_CIPHER_SIZE ≤ k ∧ k < i * CI_CIPHER_SIZE + CI_CIPHER_SIZE)) :
    k ∈ (trace_decrypt_slot decrypt shr p i st).1.accessed := by
  have hr : k ∈ (st.1.readCipher i).2.accessed := by
    simp only [ReplyTrace.readCipher, List.mem_append, List.mem_reverse, List.mem_range'_1]
    rcases hk with hk | hk
    · exact Or.inr hk
    · exact Or.inl hk
  simp only [trace_decrypt_slot]
  by_cases hneg : decrypt (st.1.readCipher i).1 < 0
  · rw [if_pos hneg]
    exact hr
  · rw [if_neg hneg]
    exact trace_unpack_loop_mono shr i _ p _ k hr

theorem trace_decrypt_loop_reads (decrypt : List Nat → Int) (shr : Int → Nat → Nat) (p : Nat)
    (t : ReplyTrace) :
    ∀ (n k : Nat), (k ∈ t.accessed ∨ k < n * CI_CIPHER_SIZE) →
      k ∈ (forLoopTotal (trace_decrypt_slot decrypt shr p) n (t, true)).1.accessed := by
  intro n
  induction n with
  | zero =>
    intro k hk
    rcases hk with hk | hk
    · exact hk
    · omega
  | succ n ih =>
    intro k hk
    rw [forLoopTotal]
    apply trace_decrypt_slot_mono
    by_cases hlt : k < n * CI_CIPHER_SIZE
    · exact Or.inl (ih k (Or.inr hlt))
    · rcases hk with hk | hk
      · exact Or.inl (ih k (Or.inl hk))
      · rw [Nat.succ_mul] at hk
        exact Or.inr ⟨by omega, hk⟩

theorem trace_compact_loop_mono (p N : Nat) (t : ReplyTrace) (k : Nat) (hk : k ∈ t.accessed) :
    k ∈ (forLoopTotal (trace_compact_slot p) N t).accessed :=
  forLoopTotal_inv (fun t : ReplyTrace => k ∈ t.accessed) _ N
    (fun _ s _ hs =>
      forLoopTotal_inv (fun t : ReplyTrace => k ∈ t.accessed) _ p
        (fun _ _ _ hs2 => List.mem_cons_of_mem _ (List.mem_cons_of_mem _ hs2)) s hs) t hk

theorem trace_phases_mono (decrypt : List Nat → Int) (shr : Int → Nat → Nat) (d p : Nat) :
    ∀ (n phase : Nat) (t : ReplyTrace) (N k : Nat),
      (k ∈ t.accessed ∨ (0 < n ∧ k < N * CI_CIPHER_SIZE)) →
      k ∈ (trace_phases decrypt shr d p n phase t N).1.accessed := by
  intro n
  induction n with
  | zero =>
    intro phase t N k hk
    rcases hk with hk | ⟨h0, _⟩
    · exact hk
    · omega
  | succ n ih =>
    intro phase t N k hk
    have h1 : k ∈ (forLoopTotal (trace_decrypt_slot decrypt shr p) N
        (⟨t.reply, t.accessed, N :: t.counts⟩, true)).1.accessed := by
      apply trace_decrypt_loop_reads
      rcases hk with hk | ⟨_, hk⟩
      · exact Or.inl hk
      · exact Or.inr hk
    rw [trace_phases]
    cases hrun : forLoopTotal (trace_decrypt_slot decrypt shr p) N
        (⟨t.reply, t.accessed, N :: t.counts⟩, true) with
    | mk t1 b =>
      rw [hrun] at h1
      simp only at h1 ⊢
      cases b with
      | false => exact h1
      | true =>
        have h2 := trace_compact_loop_mono p N t1 k h1
        simp only [Bool.not_true, Bool.false_eq_true, if_false]
        by_cases hlast : phase + 1 = d
        · rw [if_pos hlast]
          exact h2
        · rw [if_neg hlast]
          exact ih (phase + 1) _ _ k (Or.inl h2)

theorem trace_reads_every_ciphertext (decrypt : List Nat → Int) (shr : Int → Nat → Nat)
    (reply : List Nat) (reply_size d p k : Nat) (hd : 1 ≤ d)
    (hk : k < reply_size / CI_CIPHER_SIZE * CI_CIPHER_SIZE) :
    k ∈ (ci_reply_decrypt_trace decrypt shr reply reply_size d p).1.accessed :=
  trace_phases_mono decrypt shr d p d 0 ⟨reply, [], []⟩ (reply_size / CI_CIPHER_SIZE) k
    (Or.inr ⟨hd, hk⟩)

/-- C14. Reply buffer bounds: for a reply buffer of `reply_size` bytes, every dimension and
every packing `p ≤ 64` (so every `p` in `[1, 8]`, also when `N_k · p` is not a multiple of
64), whatever values the decryptions and the shifts of the unpacking yield, every byte index
at which the run of `ci_reply_decrypt` reads or writes `reply` is below `reply_size`; the
phases are entered with `mid_count = N_0, N_1, …`, and `N_{k+1} ≤ N_k` for every `k`.  The
indices recorded are not an empty set: with `d ≥ 1` every byte of the `N_0` ciphertexts is
read. -/
theorem reply_decrypt_in_bounds (decrypt : List Nat → Int) (shr : Int → Nat → Nat)
    (reply : List Nat) (reply_size d p : Nat) (hp : p ≤ CI_CIPHER_SIZE)
    (hlen : reply.length = reply_size) (hsize : reply_size < WORD) :
    (∀ i ∈ (ci_reply_decrypt_trace decrypt shr reply reply_size d p).1.accessed,
      i < reply_size) ∧
    (ci_reply_decrypt_trace decrypt shr reply reply_size d p).1.reply.length = reply_size ∧
    (∃ k : Nat, k ≤ d ∧
      (ci_reply_decrypt_trace decrypt shr reply reply_size d p).1.counts.reverse
        = (List.range k).map (phase_count reply_size p)) ∧
    (∀ k : Nat, phase_count reply_size p (k + 1) ≤ phase_count reply_size p k) ∧
    (1 ≤ d → ∀ i : Nat, i < reply_size / CI_CIPHER_SIZE * CI_CIPHER_SIZE →
      i ∈ (ci_reply_decrypt_trace decrypt shr reply reply_size d p).1.accessed) := by
  obtain ⟨k, _, hk, hl, ha, hc⟩ := trace_phases_spec decrypt shr d p reply_size hp hsize d 0
    ⟨reply, [], []⟩ ⟨hlen, fun i hi => absurd hi (List.not_mem_nil i), rfl⟩
  refine ⟨ha, hl, ⟨k, by omega, ?_⟩, phase_count_succ_le reply_size p hp,
    fun hd i hi => trace_reads_every_ciphertext decrypt shr reply reply_size d p i hd hi⟩
  unfold ci_reply_decrypt_trace
  rw [show reply_size / CI_CIPHER_SIZE = phase_count reply_size p 0 from rfl, hc,
    List.reverse_reverse]

theorem shr_masked_agrees (v : Int) (j b : Nat) (h : shr_byte v j = .ok b) :
    shr_masked v j = b := by
  unfold shr_byte at h
  by_cases hj : 8 * j < 32
  · rw [if_pos hj] at h
    simp only [Except.ok.injEq] at h
    rw [shr_masked, Nat.mod_eq_of_lt hj, h]
  · rw [if_neg hj] at h
    exact absurd h (by simp)

theorem decryptS6_agrees (c : List Nat) (v : Int)
    (h : ci_ecelgamal_decrypt ToyPt 5 (le_bytes 32 6) c tableS6 1 = .ok v) :
    decryptS6 c = v := by
  unfold decryptS6
  rw [h]

/-- An instance of C14: the one ciphertext of scenario S6 with `dimension = 1` and
`packing = 8`, where the strict model stops at the shift by 32. -/
theorem reply_decrypt_in_bounds_witness :
    (∀ i ∈ (ci_reply_decrypt_trace decryptS6 shr_masked replyS6 64 1 8).1.accessed, i < 64) ∧
    (ci_reply_decrypt_trace decryptS6 shr_masked replyS6 64 1 8).1.reply.length = 64 ∧
    (∃ k : Nat, k ≤ 1 ∧
      (ci_reply_decrypt_trace decryptS6 shr_masked replyS6 64 1 8).1.counts.reverse
        = (List.range k).map (phase_count 64 8)) ∧
    (∀ k : Nat, phase_count 64 8 (k + 1) ≤ phase_count 64 8 k) ∧
    (1 ≤ 1 → ∀ i : Nat, i < 64 / CI_CIPHER_SIZE * CI_CIPHER_SIZE →
      i ∈ (ci_reply_decrypt_trace decryptS6 shr_masked replyS6 64 1 8).1.accessed) :=
  reply_decrypt_in_bounds decryptS6 shr_masked replyS6 64 1 8 (by decide) (by decide)
    (by decide)

set_option maxRecDepth 100000 in
/-- Scenario S6 with `packing = 8`, evaluated: the run reads the 64 bytes of the ciphertext,
writes the unpacked bytes 0..7, then reads and writes each of the bytes 0..7 in the
compaction, enters one phase with `mid_count = 1` and returns 8. -/
theorem reply_trace_scenario_packing_8 :
    (ci_reply_decrypt_trace decryptS6 shr_masked replyS6 64 1 8).1.accessed.reverse =
        List.range 64 ++ List.range 8 ++ [0, 0, 1, 1, 2, 2, 3, 3, 4, 4, 5, 5, 6, 6, 7, 7] ∧
      (ci_reply_decrypt_trace decryptS6 shr_masked replyS6 64 1 8).1.reply.take 8 =
        [1, 2, 3, 0, 1, 2, 3, 0] ∧
      (ci_reply_decrypt_trace decryptS6 shr_masked replyS6 64 1 8).1.counts = [1] ∧
      (ci_reply_decrypt_trace decryptS6 shr_masked replyS6 64 1 8).2 = 8 ∧
      ci_reply_decrypt ToyPt 5 replyS6 64 (le_bytes 32 6) 1 8 tableS6 1 = .error .shiftCount := by
  decide

set_option maxRecDepth 100000 in
/-- Scenario S6 itself (`packing = 3`): the strict run returns the buffer and the value of the
recorded run. -/
theorem reply_trace_scenario_S6 :
    ci_reply_decrypt ToyPt 5 replyS6 64 (le_bytes 32 6) 1 3 tableS6 1 =
      .ok ((ci_reply_decrypt_trace decryptS6 shr_masked replyS6 64 1 3).1.reply,
        (ci_reply_decrypt_trace decryptS6 shr_masked replyS6 64 1 3).2) := by
  decide

theorem forLoop_sim {σ τ : Type} (R : σ → τ → Prop) (body : Nat → σ → Except Err σ)
    (tbody : Nat → τ → τ)
    (hstep : ∀ (i : Nat) (s s2 : σ) (t : τ), R s t → body i s = .ok s2 → R s2 (tbody i t)) :
    ∀ (n : Nat) (s s2 : σ) (t : τ), R s t → forLoop body n s = .ok s2 →
      R s2 (forLoopTotal tbody n t) := by
  intro n
  induction n with
  | zero =>
    intro s s2 t hR h
    simp only [forLoop, Except.ok.injEq] at h
    subst h
    exact hR
  | succ n ih =>
    intro s s2 t hR h
    rw [forLoop] at h
    cases h1 : forLoop body n s with
    | error e =>
      rw [h1] at h
      exact absurd h (by simp)
    | ok s1 =>
      rw [h1] at h
      exact hstep n s1 s2 _ (ih s s1 t hR h1) h

theorem trace_unpack_sim (shr : Int → Nat → Nat)
    (hshr : ∀ (v : Int) (j b : Nat), shr_byte v j = .ok b → shr v j = b) (i : Nat) (v : Int)
    (j : Nat) (buf buf2 : List Nat) (t : ReplyTrace) (hR : t.reply = buf)
    (h : reply_unpack i v j buf = .ok buf2) : (trace_unpack shr i v j t).reply = buf2 := by
  unfold reply_unpack at h
  cases hs : shr_byte v j with
  | error e =>
    rw [hs] at h
    exact absurd h (by simp)
  | ok b =>
    rw [hs] at h
    simp only [store] at h
    by_cases hin : i * CI_CIPHER_SIZE + j < buf.length
    · rw [if_pos hin] at h
      simp only [Except.ok.injEq] at h
      rw [← h, trace_unpack, ReplyTrace.write, hR, hshr v j b hs]
    · rw [if_neg hin] at h
      exact absurd h (by simp)

theorem trace_compact_byte_sim (p i j : Nat) (buf buf2 : List Nat) (t : ReplyTrace)
    (hR : t.reply = buf) (h : reply_compact_byte p i j buf = .ok buf2) :
    (trace_compact_byte p i j t).reply = buf2 := by
  unfold reply_compact_byte load at h
  cases hg : buf[i * CI_CIPHER_SIZE + j]? with
  | none =>
    rw [hg] at h
    exact absurd h (by simp)
  | some b =>
    rw [hg] at h
    simp only [store] at h
    by_cases hin : i * p + j < buf.length
    · rw [if_pos hin] at h
      simp only [Except.ok.injEq] at h
      have hd : buf.getD (i * CI_CIPHER_SIZE + j) 0 = b := by
        rw [List.getD_eq_getElem?_getD, hg]
        rfl
      rw [← h]
      simp only [trace_compact_byte, ReplyTrace.read, ReplyTrace.write, hR, hd]
    · rw [if_neg hin] at h
      exact absurd h (by simp)

section refinement
variable {Pt : Type} [Ed25519 Pt]

theorem trace_decrypt_slot_sim (fuel : Nat) (privkey : List Nat) (mG : List ci_mG_t)
    (mmax : Nat) (decrypt : List Nat → Int) (shr : Int → Nat → Nat)
    (hdec : ∀ (c : List Nat) (v : Int),
      ci_ecelgamal_decrypt Pt fuel privkey c mG mmax = .ok v → decrypt c = v)
    (hshr : ∀ (v : Int) (j b : Nat), shr_byte v j = .ok b → shr v j = b) (p i : Nat)
    (st st2 : List Nat × Bool) (ts : ReplyTrace × Bool)
    (hR : ts.1.reply = st.1 ∧ ts.2 = st.2)
    (h : reply_decrypt_slot Pt fuel privkey p mG mmax i st = .ok st2) :
    (trace_decrypt_slot decrypt shr p i ts).1.reply = st2.1 ∧
      (trace_decrypt_slot decrypt shr p i ts).2 = st2.2 := by
  obtain ⟨hR1, hR2⟩ := hR
  unfold reply_decrypt_slot decrypt_at cipherAt at h
  by_cases hin : i * CI_CIPHER_SIZE + CI_CIPHER_SIZE ≤ st.1.length
  · rw [if_pos hin] at h
    simp only at h
    cases hd : ci_ecelgamal_decrypt Pt fuel privkey
        ((st.1.drop (i * CI_CIPHER_SIZE)).take CI_CIPHER_SIZE) mG mmax with
    | error e =>
      rw [hd] at h
      exact absurd h (by simp)
    | ok v =>
      rw [hd] at h
      simp only at h
      have hv : decrypt (ts.1.readCipher i).1 = v := by
        simp only [ReplyTrace.readCipher, hR1]
        exact hdec _ v hd
      simp only [trace_decrypt_slot, hv]
      by_cases hneg : v < 0
      · rw [if_pos hneg] at h
        simp only [Except.ok.injEq] at h
        rw [if_pos hneg, ← h]
        exact ⟨hR1, rfl⟩
      · rw [if_neg hneg] at h
        rw [if_neg hneg]
        cases hu : forLoop (reply_unpack i v) p st.1 with
        | error e =>
          rw [hu] at h
          exact absurd h (by simp)
        | ok b =>
          rw [hu] at h
          simp only [Except.ok.injEq] at h
          rw [← h]
          refine ⟨?_, hR2⟩
          exact forLoop_sim (fun (buf : List Nat) (t : ReplyTrace) => t.reply = buf) _ _
            (fun j s s2 t hRs hs => trace_unpack_sim shr hshr i v j s s2 t hRs hs)
            p st.1 b _ (by simp only [ReplyTrace.readCipher, hR1]) hu
  · rw [if_neg hin] at h
    exact absurd h (by simp)

theorem trace_phases_sim (fuel : Nat) (privkey : List Nat) (mG : List ci_mG_t)
    (mmax : Nat) (decrypt : List Nat → Int) (shr : Int → Nat → Nat)
    (hdec : ∀ (c : List Nat) (v : Int),
      ci_ecelgamal_decrypt Pt fuel privkey c mG mmax = .ok v → decrypt c = v)
    (hshr : ∀ (v : Int) (j b : Nat), shr_byte v j = .ok b → shr v j = b) (d p : Nat) :
    ∀ (n phase : Nat) (buf : List Nat) (t : ReplyTrace) (N : Nat) (out : List Nat) (r : Int),
      t.reply = buf → reply_phases Pt fuel privkey d p mG mmax n phase buf N = .ok (out, r) →
      (trace_phases decrypt shr d p n phase t N).1.reply = out ∧
        (trace_phases decrypt shr d p n phase t N).2 = r := by
  intro n
  induction n with
  | zero =>
    intro phase buf t N out r hR h
    simp only [reply_phases, Except.ok.injEq, Prod.mk.injEq] at h
    obtain ⟨h1, h2⟩ := h
    exact ⟨by rw [trace_phases, hR, h1], by rw [trace_phases, h2]⟩
  | succ n ih =>
    intro phase buf t N out r hR h
    rw [reply_phases] at h
    cases h1 : forLoop (reply_decrypt_slot Pt fuel privkey p mG mmax) N (buf, true) with
    | error e =>
      rw [h1] at h
      exact absurd h (by simp)
    | ok st1 =>
      obtain ⟨b1, s1⟩ := st1
      rw [h1] at h
      simp only at h
      have hsim := forLoop_sim
        (fun (st : List Nat × Bool) (ts : ReplyTrace × Bool) =>
          ts.1.reply = st.1 ∧ ts.2 = st.2) _ _
        (fun i st st2 ts hRs hs =>
          trace_decrypt_slot_sim fuel privkey mG mmax decrypt shr hdec hshr p i st st2 ts hRs hs)
        N (buf, true) (b1, s1)
        ((⟨t.reply, t.accessed, N :: t.counts⟩ : ReplyTrace), true) ⟨hR, rfl⟩ h1
      obtain ⟨hs1, hs2⟩ := hsim
      simp only at hs1 hs2
      rw [trace_phases]
      simp only [hs2]
      cases s1 with
      | false =>
        simp only [Bool.not_false, if_true, Except.ok.injEq, Prod.mk.injEq] at h
        obtain ⟨h2, h3⟩ := h
        simp only [Bool.not_false, if_true]
        exact ⟨by rw [hs1, h2], h3⟩
      | true =>
        simp only [Bool.not_true, Bool.false_eq_true, if_false] at h ⊢
        cases h2 : forLoop (reply_compact_slot p) N b1 with
        | error e =>
          rw [h2] at h
          exact absurd h (by simp)
        | ok b2 =>
          rw [h2] at h
          simp only at h
          have hc := forLoop_sim (fun (buf : List Nat) (t : ReplyTrace) => t.reply = buf) _ _
            (fun i s s2 t hRs hs =>
              forLoop_sim (fun (buf : List Nat) (t : ReplyTrace) => t.reply = buf) _ _
                (fun j s3 s4 t2 hR2 hs2 => trace_compact_byte_sim p i j s3 s4 t2 hR2 hs2)
                p s s2 t hRs hs)
            N b1 b2 _ hs1 h2
          by_cases hlast : phase + 1 = d
          · rw [if_pos hlast] at h
            simp only [Except.ok.injEq, Prod.mk.injEq] at h
            rw [if_pos hlast]
            exact ⟨by rw [← h.1]; exact hc, h.2⟩
          · rw [if_neg hlast] at h
            rw [if_neg hlast]
            exact ih (phase + 1) b2 _ _ out r hc h

theorem reply_trace_refines (fuel : Nat) (privkey : List Nat) (mG : List ci_mG_t)
    (mmax : Nat) (decrypt : List Nat → Int) (shr : Int → Nat → Nat)
    (hdec : ∀ (c : List Nat) (v : Int),
      ci_ecelgamal_decrypt Pt fuel privkey c mG mmax = .ok v → decrypt c = v)
    (hshr : ∀ (v : Int) (j b : Nat), shr_byte v j = .ok b → shr v j = b)
    (reply : List Nat) (reply_size d p : Nat) (out : List Nat) (r : Int)
    (h : ci_reply_decrypt Pt fuel reply reply_size privkey d p mG mmax = .ok (out, r)) :
    (ci_reply_decrypt_trace decrypt shr reply reply_size d p).1.reply = out ∧
      (ci_reply_decrypt_trace decrypt shr reply reply_size d p).2 = r :=
  trace_phases_sim fuel privkey mG mmax decrypt shr hdec hshr d p d 0 reply ⟨reply, [], []⟩
    (reply_size / CI_CIPHER_SIZE) out r rfl h

end refinement

/-- The sample parameters of scenario S6 meet the hypotheses of `reply_trace_refines`: for
every reply, dimension and packing, when the strict run with the key and table of S6 returns,
the recorded run ends with the same buffer and value. -/
theorem reply_trace_refines_S6 (reply : List Nat) (reply_size d p : Nat) (out : List Nat)
    (r : Int)
    (h : ci_reply_decrypt ToyPt 5 reply reply_size (le_bytes 32 6) d p tableS6 1 = .ok (out, r)) :
    (ci_reply_decrypt_trace decryptS6 shr_masked reply reply_size d p).1.reply = out ∧
      (ci_reply_decrypt_trace decryptS6 shr_masked reply reply_size d p).2 = r :=
  reply_trace_refines 5 (le_bytes 32 6) tableS6 1 decryptS6 shr_masked decryptS6_agrees
    shr_masked_agrees reply reply_size d p out r h

/-! ### Zero-dimension call (C18) -/

theorem reply_decrypt_zero_dimension_run {Pt : Type} [Ed25519 Pt] (fuel : Nat)
    (reply : List Nat) (reply_size : Nat) (privkey : List Nat) (packing : Nat)
    (mG : List ci_mG_t) (mmax : Nat) :
    ci_reply_decrypt Pt fuel reply reply_size privkey 0 packing mG mmax =
      .ok (reply, toInt32 (reply_size / CI_CIPHER_SIZE)) := by
  simp only [ci_reply_decrypt, reply_phases]

/-- C18. Zero-dimension call: for every reply buffer, packing and `reply_size` with
`⌊reply_size / 64⌋ < 2^31`, `ci_reply_decrypt` with `dimension = 0` leaves every byte of the
buffer unchanged and returns `⌊reply_size / 64⌋`, not a failure indication; the result does
not depend on the key, the table or the provider, so nothing is decrypted. -/
theorem reply_decrypt_zero_dimension {Pt : Type} [Ed25519 Pt] (fuel : Nat) (reply : List Nat)
    (reply_size : Nat) (privkey : List Nat) (packing : Nat) (mG : List ci_mG_t) (mmax : Nat)
    (h : reply_size / CI_CIPHER_SIZE < 2 ^ 31) :
    ci_reply_decrypt Pt fuel reply reply_size privkey 0 packing mG mmax =
        .ok (reply, ((reply_size / CI_CIPHER_SIZE : Nat) : Int)) ∧
      (0 : Int) ≤ ((reply_size / CI_CIPHER_SIZE : Nat) : Int) ∧
      ∀ (fuel2 : Nat) (privkey2 : List Nat) (mG2 : List ci_mG_t) (mmax2 : Nat),
        ci_reply_decrypt Pt fuel2 reply reply_size privkey2 0 packing mG2 mmax2 =
          ci_reply_decrypt Pt fuel reply reply_size privkey 0 packing mG mmax := by
  refine ⟨?_, Int.natCast_nonneg _, fun _ _ _ _ => ?_⟩
  · rw [reply_decrypt_zero_dimension_run, toInt32_of_lt _ h]
  · rw [reply_decrypt_zero_dimension_run, reply_decrypt_zero_dimension_run]

/-- An instance of C18: the reply of scenario S6 with `dimension = 0` is returned as it is,
with the value 1. -/
theorem reply_decrypt_zero_dimension_witness :
    ci_reply_decrypt ToyPt 5 replyS6 64 (le_bytes 32 6) 0 3 tableS6 1 =
        .ok (replyS6, ((64 / CI_CIPHER_SIZE : Nat) : Int)) ∧
      (0 : Int) ≤ ((64 / CI_CIPHER_SIZE : Nat) : Int) ∧
      ∀ (fuel2 : Nat) (privkey2 : List Nat) (mG2 : List ci_mG_t) (mmax2 : Nat),
        ci_reply_decrypt ToyPt fuel2 replyS6 64 privkey2 0 3 mG2 mmax2 =
          ci_reply_decrypt ToyPt 5 replyS6 64 (le_bytes 32 6) 0 3 tableS6 1 :=
  reply_decrypt_zero_dimension 5 replyS6 64 (le_bytes 32 6) 3 tableS6 1 (by decide)

/-- C18 as stated fails once `⌊reply_size / 64⌋` leaves the range of `int`: with
`dimension = 0` and `reply_size = (2^32 - 1)·64` the value returned is `-1`, the failure
indication, and with `reply_size = 2^31·64` it is `-2^31`, whatever the buffer holds. -/
theorem reply_decrypt_zero_dimension_overflow :
    (∀ (reply : List Nat) (packing : Nat),
      ci_reply_decrypt ToyPt 5 reply ((2 ^ 32 - 1) * 64) (le_bytes 32 6) 0 packing toyTable 5 =
        .ok (reply, -1)) ∧
    (∀ (reply : List Nat) (packing : Nat),
      ci_reply_decrypt ToyPt 5 reply (2 ^ 31 * 64) (le_bytes 32 6) 0 packing toyTable 5 =
        .ok (reply, -2147483648)) := by
  constructor
  · intro reply packing
    rw [reply_decrypt_zero_dimension_run]
    rfl
  · intro reply packing
    rw [reply_decrypt_zero_dimension_run]
    rfl

/-! ### Binary search: indices read (C16) -/

theorem binary_search_out_of_bounds_iff (find : List Nat) (mG : List ci_mG_t) :
    ∀ fuel imin imax : Nat,
      binary_search_loop find mG fuel imin imax = .error .outOfBounds ↔
        ∃ i ∈ binary_search_probes find mG fuel imin imax, mG.length ≤ i := by
  intro fuel
  induction fuel with
  | zero =>
    intro imin imax
    simp [binary_search_loop, binary_search_probes]
  | succ fuel ih =>
    intro imin imax
    rw [binary_search_loop, binary_search_probes]
    by_cases hle : imin ≤ imax
    · simp only [if_pos hle]
      cases hget : mG[uadd64 imin (usub64 imax imin / 2)]? with
      | none =>
        have := List.getElem?_eq_none_iff.mp hget
        simp [this]
      | some e =>
        have hlt : uadd64 imin (usub64 imax imin / 2) < mG.length := by
          by_contra hc
          rw [List.getElem?_eq_none_iff.mpr (by omega)] at hget
          exact absurd hget (by simp)
        simp only [List.mem_cons, exists_eq_or_imp]
        by_cases h1 : memcmp e.point find CI_POINT_SIZE < 0
        · simp only [if_pos h1, ih]
          constructor
          · exact fun h => Or.inr h
          · rintro (h | h)
            · omega
            · exact h
        · by_cases h2 : memcmp e.point find CI_POINT_SIZE > 0
          · simp only [if_neg h1, if_pos h2, ih]
            constructor
            · exact fun h => Or.inr h
            · rintro (h | h)
              · omega
              · exact h
          · simp only [if_neg h1, if_neg h2]
            constructor
            · intro h
              exact absurd h (by simp)
            · rintro (h | ⟨i, hi, _⟩)
              · omega
              · exact absurd hi (by simp)
    · simp [if_neg hle]

/-- C16. Binary search on the empty table and below the first entry: with `mmax = 0` the
initial `imax = mmax - 1` is `SIZE_MAX`, the loop is entered and its only probe reads
`mG[2^63 - 1]`, outside the table; in a one-entry table a target below the entry is probed at
index 0 and then, `imax = imid - 1` having wrapped, at `2^63 - 1`.  Neither index is below
`mmax`. -/
theorem binary_search_probe_out_of_bounds :
    (∀ (fuel : Nat) (find : List Nat),
      binary_search_probes find [] (fuel + 1) 0 (usub64 0 1) = [2 ^ 63 - 1] ∧
      ci_ecelgamal_binary_search (fuel + 1) find [] 0 = .error .outOfBounds) ∧
    (∀ fuel : Nat,
      binary_search_probes (le_bytes 32 0) [⟨0, le_bytes 32 1⟩] (fuel + 2) 0 (usub64 1 1)
        = [0, 2 ^ 63 - 1] ∧
      ci_ecelgamal_binary_search (fuel + 2) (le_bytes 32 0) [⟨0, le_bytes 32 1⟩] 1
        = .error .outOfBounds) ∧
    ¬ (2 ^ 63 - 1 < 0) ∧ ¬ (2 ^ 63 - 1 < 1) := by
  refine ⟨fun fuel find => ⟨rfl, rfl⟩, fun fuel => ⟨rfl, rfl⟩, by decide, by decide⟩

/-! ### The Node binding: table state (C11) -/

theorem LoadmG_string (fuel : Nat) (fs : String → Option (List ci_mG_t)) (st : Binding)
    (path : String) (rest : List JsValue) (hlen : EPIR_MG_MAX ≤ st.mG.length)
    (hfuel : EPIR_MG_MAX / BATCH_SIZE < fuel) :
    LoadmG fuel fs st (.string path :: rest) =
      match fs path with
      | none => .ok (⟨st.mG, false⟩, .threw .Error (.failedToLoad 0))
      | some records =>
        .ok (⟨records.take (min records.length EPIR_MG_MAX) ++
              st.mG.drop (min records.length EPIR_MG_MAX),
            decide (min records.length EPIR_MG_MAX = EPIR_MG_MAX)⟩,
          if min records.length EPIR_MG_MAX = EPIR_MG_MAX then
            .returned (.number ((min records.length EPIR_MG_MAX : Nat) : Int))
          else .threw .Error (.failedToLoad ((min records.length EPIR_MG_MAX : Nat) : Int))) := by
  have hmax : EPIR_MG_MAX = 16777216 := rfl
  have hq : EPIR_MG_MAX / BATCH_SIZE = 16384 := rfl
  cases hf : fs path with
  | none =>
    simp [LoadmG, epir_ecelgamal_load_mg, ci_ecelgamal_load_mg, hf, hmax]
  | some records =>
    have hmin : min records.length EPIR_MG_MAX ≤ EPIR_MG_MAX := Nat.min_le_right _ _
    have hload := load_mg_run fuel st.mG records EPIR_MG_MAX hlen (by rw [hmax]; norm_num)
      (by omega)
    rw [toInt32_of_lt _ (by omega)] at hload
    simp only [LoadmG, epir_ecelgamal_load_mg, hf, hload]
    by_cases hfull : min records.length EPIR_MG_MAX = EPIR_MG_MAX
    · have hd : decide (((min records.length EPIR_MG_MAX : Nat) : Int) = (EPIR_MG_MAX : Int))
          = true := by
        rw [hfull]
        simp
      have hdn : decide (min records.length EPIR_MG_MAX = EPIR_MG_MAX) = true :=
        decide_eq_true hfull
      simp only [hd, hdn, Bool.not_true, if_pos hfull, Bool.false_eq_true, if_false]
    · have hd : decide (((min records.length EPIR_MG_MAX : Nat) : Int) = (EPIR_MG_MAX : Int))
          = false := by
        simp only [decide_eq_false_iff_not]
        intro h
        exact hfull (by exact_mod_cast h)
      have hdn : decide (min records.length EPIR_MG_MAX = EPIR_MG_MAX) = false :=
        decide_eq_false hfull
      simp only [hd, hdn, Bool.not_false, if_neg hfull, if_true]

theorem ReplyDecrypt_not_loaded {Pt : Type} [Ed25519 Pt] (fuel : Nat) (st : Binding)
    (info : List JsValue) (h : st.ismGInitialized = false) :
    ReplyDecrypt Pt fuel st info = .ok (.threw .Error .mGNotLoaded) := by
  simp [ReplyDecrypt, h]

/-- C11. Gating on the loaded table: after any `LoadmG` call that is given a string path,
from any state of the binding, the flag `ismGInitialized` is true exactly when that call read
`EPIR_MG_MAX = 2^24` records (so a short load after a successful one clears it); the call
throws an error whenever the count differs from `2^24` and returns the count otherwise; and
`ReplyDecrypt` throws the error that mG is not loaded, whatever its arguments, the table and the
provider, whenever the flag is false, as it is before any load. -/
theorem loadmG_gating {Pt : Type} [Ed25519 Pt] (fuel : Nat)
    (fs : String → Option (List ci_mG_t)) (st : Binding) (path : String) (rest : List JsValue)
    (hlen : st.mG.length = EPIR_MG_MAX) (hfuel : EPIR_MG_MAX / BATCH_SIZE < fuel) :
    (∃ (st2 : Binding) (out : JsOutcome) (read : Nat),
      LoadmG fuel fs st (.string path :: rest) = .ok (st2, out) ∧
      epir_ecelgamal_load_mg fuel st.mG EPIR_MG_MAX (fs path) = .ok (st2.mG, (read : Int)) ∧
      read = (match fs path with
        | none => 0
        | some records => min records.length EPIR_MG_MAX) ∧
      st2.mG.length = EPIR_MG_MAX ∧
      (st2.ismGInitialized = true ↔ read = EPIR_MG_MAX) ∧
      (read ≠ EPIR_MG_MAX → out = .threw .Error (.failedToLoad (read : Int))) ∧
      (read = EPIR_MG_MAX → out = .returned (.number (EPIR_MG_MAX : Int))) ∧
      (read ≠ EPIR_MG_MAX → ∀ (fuel2 : Nat) (info : List JsValue),
        ReplyDecrypt Pt fuel2 st2 info = .ok (.threw .Error .mGNotLoaded))) ∧
    (∀ (fuel2 : Nat) (mG : List ci_mG_t) (info : List JsValue),
      ReplyDecrypt Pt fuel2 ⟨mG, false⟩ info = .ok (.threw .Error .mGNotLoaded)) ∧
    Binding.initial.ismGInitialized = false := by
  have hmax : EPIR_MG_MAX = 16777216 := rfl
  have hq : EPIR_MG_MAX / BATCH_SIZE = 16384 := rfl
  refine ⟨?_, fun fuel2 mG info => ReplyDecrypt_not_loaded fuel2 ⟨mG, false⟩ info rfl, rfl⟩
  have hrun := LoadmG_string fuel fs st path rest (le_of_eq hlen.symm) hfuel
  cases hf : fs path with
  | none =>
    rw [hf] at hrun
    refine ⟨⟨st.mG, false⟩, _, 0, hrun, ?_, rfl, hlen, ?_, fun _ => rfl, ?_, ?_⟩
    · simp [epir_ecelgamal_load_mg, ci_ecelgamal_load_mg]
    · simp [hmax]
    · intro h
      rw [hmax] at h
      exact absurd h (by norm_num)
    · intro _ fuel2 info
      exact ReplyDecrypt_not_loaded fuel2 _ info rfl
  | some records =>
    rw [hf] at hrun
    have hmin : min records.length EPIR_MG_MAX ≤ EPIR_MG_MAX := Nat.min_le_right _ _
    have hload := load_mg_run fuel st.mG records EPIR_MG_MAX (le_of_eq hlen.symm)
      (by rw [hmax]; norm_num) (by omega)
    rw [toInt32_of_lt _ (by omega)] at hload
    refine ⟨_, _, min records.length EPIR_MG_MAX, hrun, hload, rfl, ?_, ?_, ?_, ?_, ?_⟩
    · simp only [List.length_append, List.length_take, List.length_drop]
      omega
    · simp
    · intro h
      rw [if_neg h]
    · intro h
      rw [if_pos h, h]
    · intro h fuel2 info
      exact ReplyDecrypt_not_loaded fuel2 _ info (by simp [h])

/-- An instance of C11: the first load of a file that cannot be opened, in the initial state
of the binding. -/
theorem loadmG_gating_witness :
    (∃ (st2 : Binding) (out : JsOutcome) (read : Nat),
      LoadmG 16385 (fun _ => none) Binding.initial [.string samplePath] = .ok (st2, out) ∧
      epir_ecelgamal_load_mg 16385 Binding.initial.mG EPIR_MG_MAX none
        = .ok (st2.mG, (read : Int)) ∧
      read = 0 ∧
      st2.mG.length = EPIR_MG_MAX ∧
      (st2.ismGInitialized = true ↔ read = EPIR_MG_MAX) ∧
      (read ≠ EPIR_MG_MAX → out = .threw .Error (.failedToLoad (read : Int))) ∧
      (read = EPIR_MG_MAX → out = .returned (.number (EPIR_MG_MAX : Int))) ∧
      (read ≠ EPIR_MG_MAX → ∀ (fuel2 : Nat) (info : List JsValue),
        ReplyDecrypt ToyPt fuel2 st2 info = .ok (.threw .Error .mGNotLoaded))) ∧
    (∀ (fuel2 : Nat) (mG : List ci_mG_t) (info : List JsValue),
      ReplyDecrypt ToyPt fuel2 ⟨mG, false⟩ info = .ok (.threw .Error .mGNotLoaded)) ∧
    Binding.initial.ismGInitialized = false :=
  loadmG_gating 16385 (fun _ => none) Binding.initial samplePath []
    (List.length_replicate _ _) (by decide)

/-- C11 as stated fails for a `LoadmG` call that is not given a string path: after a load of
`2^24` records has set the flag, a call without arguments or with a number as path throws a
`TypeError`, reads no record and leaves the flag true. -/
theorem loadmG_without_path_keeps_flag :
    ∃ st1 : Binding,
      LoadmG 16385 (fun _ => some (List.replicate EPIR_MG_MAX ⟨0, le_bytes 32 0⟩))
          Binding.initial [.string samplePath]
        = .ok (st1, .returned (.number (EPIR_MG_MAX : Int))) ∧
      st1.ismGInitialized = true ∧
      (∀ (fuel : Nat) (fs : String → Option (List ci_mG_t)),
        LoadmG fuel fs st1 [] = .ok (st1, .threw .TypeError .wrongNumberOfArguments) ∧
        LoadmG fuel fs st1 [.number 7] = .ok (st1, .threw .TypeError .pathNotString)) := by
  have hrun := LoadmG_string 16385
    (fun _ => some (List.replicate EPIR_MG_MAX ⟨0, le_bytes 32 0⟩)) Binding.initial samplePath []
    (le_of_eq (List.length_replicate _ _).symm) (by decide)
  simp only [List.length_replicate, Nat.min_self, if_true, decide_True] at hrun
  exact ⟨_, hrun, rfl, fun fuel fs => ⟨rfl, rfl⟩⟩


/-! ### The Node binding: output of `ReplyDecrypt` (C17) -/

theorem ReplyDecrypt_run {Pt : Type} [Ed25519 Pt] (fuel : Nat) (mG : List ci_mG_t)
    (reply privkey : List Nat) (dim pack : Int) (rest : List JsValue) (buf : List Nat) (n : Nat)
    (hr : reply ≠ []) (hk : privkey.length = EPIR_SCALAR_SIZE)
    (hrun : epir_reply_decrypt Pt fuel reply reply.length privkey (toUInt8 (Uint32Value dim))
      (toUInt8 (Uint32Value pack)) mG EPIR_MG_MAX = .ok (buf, (n : Int)))
    (hn : n ≤ buf.length) :
    ReplyDecrypt Pt fuel ⟨mG, true⟩
        (.typedArray .uint8 reply :: .typedArray .uint8 privkey :: .number dim :: .number pack
          :: rest)
      = .ok (.returned (.typedArray .uint8 (if n = 0 then buf else buf.take n))) := by
  have hr0 : reply.length ≠ 0 := fun h => hr (List.length_eq_zero.mp h)
  have hk0 : privkey.length ≠ 0 := by
    rw [hk]
    decide
  simp only [ReplyDecrypt, checkIsTypedArray, JsValue.data, hrun, createUint8Array]
  by_cases h0 : n = 0
  · subst h0
    simp [hr0, hk0, hk, EPIR_SCALAR_SIZE]
  · have hnn : ¬ ((n : Int) < 0) := by omega
    simp [hr0, hk0, hk, EPIR_SCALAR_SIZE, h0, hn]

/-- C17. Output length of `ReplyDecrypt` when the decoded length is 0: for a reply of one
byte, with `dimension = 1` and `packing = 1`, the core decryption returns the decoded length
0 (there is no complete ciphertext), and `ReplyDecrypt`, for every table, succeeds and returns
a `Uint8Array` of length 1 holding the whole decrypted buffer, not one of length 0. -/
theorem reply_decrypt_binding_zero_length :
    ∀ (fuel : Nat) (mG : List ci_mG_t),
      epir_reply_decrypt ToyPt fuel [7] 1 (le_bytes 32 6) 1 1 mG EPIR_MG_MAX = .ok ([7], 0) ∧
      ReplyDecrypt ToyPt fuel ⟨mG, true⟩
          [.typedArray .uint8 [7], .typedArray .uint8 (le_bytes 32 6), .number 1, .number 1]
        = .ok (.returned (.typedArray .uint8 [7])) ∧
      ([7] : List Nat).length ≠ 0 := by
  intro fuel mG
  exact ⟨rfl, rfl, by decide⟩


/-! ### The Node binding: selector arguments (C12) -/

theorem read_index_counts_map (ns : List Nat) (h : ∀ n ∈ ns, 1 ≤ n) :
    read_index_counts (ns.map (fun n : Nat => JsElem.number (n : Int))) = .ok ns := by
  induction ns with
  | nil => rfl
  | cons n rest ih =>
    have hn : 1 ≤ n := h n (List.mem_cons_self _ _)
    rw [List.map_cons, read_index_counts, if_neg (by omega),
      ih (fun x hx => h x (List.mem_cons_of_mem _ hx))]
    simp

theorem SelectorCreate__run (heap : Nat)
    (sc : List Nat → List Nat → List Nat → Nat → Nat → Except Err (List Nat))
    (key ns : List Nat) (idx : Int) (rest : List JsValue) (hk : key.length = 32) (hne : ns ≠ [])
    (hall : ∀ n ∈ ns, 1 ≤ n) (hz : epir_selector_elements_count ns ≠ 0) (h0 : 0 ≤ idx)
    (hlt : idx.toNat % WORD < epir_selector_elements_count ns) :
    SelectorCreate_ heap sc
        (.typedArray .uint8 key :: .array (ns.map (fun n : Nat => JsElem.number (n : Int))) ::
          .number idx :: rest) =
      match vector_uint8 heap (umul64 (epir_selector_ciphers_count ns) EPIR_CIPHER_SIZE) with
      | .error e => .error e
      | .ok ciphers =>
        match sc ciphers key ns (toUInt8 ns.length) (idx.toNat % WORD) with
        | .error e => .error e
        | .ok ciphers => .ok (.returned (.typedArray .uint8 ciphers)) := by
  have hchk : checkIsTypedArray (.typedArray .uint8 key) .uint8 EPIR_POINT_SIZE = .ok () := by
    simp [checkIsTypedArray, EPIR_POINT_SIZE, hk]
  have hl0 : ns.length ≠ 0 := fun h => hne (List.length_eq_zero.mp h)
  have hr : ¬ (idx < 0 ∨ idx.toNat % WORD ≥ epir_selector_elements_count ns) := by omega
  simp only [SelectorCreate_, hchk, List.length_map, hl0, if_false,
    read_index_counts_map ns hall, hz, if_neg hr, JsValue.data]
  cases vector_uint8 heap (umul64 (epir_selector_ciphers_count ns) EPIR_CIPHER_SIZE) with
  | error e => rfl
  | ok buf =>
    simp only
    cases sc buf key ns (toUInt8 ns.length) (idx.toNat % WORD) with
    | error e => rfl
    | ok c => simp [createUint8Array]

theorem vector_uint8_ok (heap n : Nat) (h1 : n ≤ VECTOR_MAX_SIZE) (h2 : n ≤ heap) :
    vector_uint8 heap n = .ok (List.replicate n 0) := by
  rw [vector_uint8, if_pos ⟨h1, h2⟩]

theorem SelectorCreate__run_ok (heap : Nat)
    (sc : List Nat → List Nat → List Nat → Nat → Nat → Except Err (List Nat))
    (key ns : List Nat) (idx : Int) (rest : List JsValue) (size : Nat) (hk : key.length = 32)
    (hne : ns ≠ []) (hall : ∀ n ∈ ns, 1 ≤ n) (hz : epir_selector_elements_count ns ≠ 0)
    (h0 : 0 ≤ idx) (hlt : idx.toNat % WORD < epir_selector_elements_count ns)
    (hsize : umul64 (epir_selector_ciphers_count ns) EPIR_CIPHER_SIZE = size)
    (h1 : size ≤ VECTOR_MAX_SIZE) (h2 : size ≤ heap) :
    SelectorCreate_ heap sc
        (.typedArray .uint8 key :: .array (ns.map (fun n : Nat => JsElem.number (n : Int))) ::
          .number idx :: rest) =
      match sc (List.replicate size 0) key ns (toUInt8 ns.length) (idx.toNat % WORD) with
      | .error e => .error e
      | .ok ciphers => .ok (.returned (.typedArray .uint8 ciphers)) := by
  rw [SelectorCreate__run heap sc key ns idx rest hk hne hall hz h0 hlt, hsize,
    vector_uint8_ok heap size h1 h2]

theorem selector_encrypt_loop_ok
    (encrypt : List Nat → Nat → Option (List Nat) → List Nat → List Nat)
    (henc : ∀ (k : List Nat) (m : Nat) (r : Option (List Nat)) (x : List Nat),
      (encrypt k m r x).length = CI_CIPHER_SIZE)
    (key : List Nat) (rnd : Nat → List Nat) (buf : List Nat) (n : Nat)
    (hn : n * CI_CIPHER_SIZE ≤ buf.length) :
    ∃ out : List Nat, forLoop (selector_encrypt_slot encrypt key rnd) n buf = .ok out ∧
      out.length = buf.length := by
  induction n with
  | zero => exact ⟨buf, rfl, rfl⟩
  | succ n ih =>
    rw [Nat.add_mul, Nat.one_mul] at hn
    obtain ⟨b1, hrun, hl1⟩ := ih (by omega)
    have hpos : n * CI_CIPHER_SIZE < b1.length := by
      unfold CI_CIPHER_SIZE at *
      omega
    obtain ⟨b, hb⟩ : ∃ b, b1[n * CI_CIPHER_SIZE]? = some b :=
      ⟨_, List.getElem?_eq_getElem hpos⟩
    rw [forLoop, hrun]
    simp only [selector_encrypt_slot, load_ok _ _ _ hb, storeBlock, henc]
    rw [if_pos (by omega)]
    refine ⟨_, rfl, ?_⟩
    simp only [List.length_append, List.length_take, List.length_drop, henc]
    omega

theorem selector_create_core_ok
    (encrypt : List Nat → Nat → Option (List Nat) → List Nat → List Nat)
    (henc : ∀ (k : List Nat) (m : Nat) (r : Option (List Nat)) (x : List Nat),
      (encrypt k m r x).length = CI_CIPHER_SIZE)
    (rnd : Nat → List Nat) (key : List Nat) (ns : List Nat) (h1 : ∀ n ∈ ns, 1 ≤ n)
    (hw : ns.prod < WORD) (idx : Nat) (hidx : idx < ns.prod) (buf : List Nat)
    (hbuf : buf.length = ns.sum * CI_CIPHER_SIZE) :
    ∃ out : List Nat, ci_selector_create_ encrypt rnd buf key ns idx = .ok out ∧
      out.length = ns.sum * CI_CIPHER_SIZE := by
  obtain ⟨b1, hfill, hl1, _, _⟩ := selector_fill_spec ns h1 hw idx buf 0 hidx (by rw [Nat.zero_add, hbuf])
  obtain ⟨out, hrun, hl2⟩ := selector_encrypt_loop_ok encrypt henc key rnd b1 ns.sum
    (by rw [hl1, hbuf])
  refine ⟨out, ?_, by rw [hl2, hl1, hbuf]⟩
  unfold ci_selector_create_ ci_selector_create_first_loop
  rw [elements_count_eq, Nat.mod_eq_of_lt hw, hfill]
  simp only [Nat.zero_add]
  exact hrun

theorem encrypt_length {Pt : Type} [Ed25519 Pt] (pubkey : List Nat) (m : Nat)
    (r : Option (List Nat)) (rnd : List Nat) :
    (ci_ecelgamal_encrypt Pt pubkey m r rnd).length = CI_CIPHER_SIZE := by
  obtain ⟨rr, h, _⟩ := @encrypt_eq Pt _ pubkey m r rnd
  rw [h, List.length_append, tobytes_length, tobytes_length]
  rfl


/-- The error cases named by C12, evaluated: a 31-byte key, an empty `index_counts`, a count
of zero, an `idx` equal to the product and a negative `idx` are rejected with the exception
of the source, whatever the core function and the memory available. -/
theorem selector_create_error_samples (heap : Nat)
    (sc : List Nat → List Nat → List Nat → Nat → Nat → Except Err (List Nat)) :
    SelectorCreate_ heap sc
        [.typedArray .uint8 (le_bytes 31 3), .array [.number 3, .number 4], .number 7]
      = .ok (.threw .TypeError .lengthNotValid) ∧
    SelectorCreate_ heap sc [.typedArray .uint8 (le_bytes 32 3), .array [], .number 0]
      = .ok (.threw .RangeError .indexCountsEmpty) ∧
    SelectorCreate_ heap sc
        [.typedArray .uint8 (le_bytes 32 3), .array [.number 3, .number 0], .number 0]
      = .ok (.threw .RangeError .elementLessThanOne) ∧
    SelectorCreate_ heap sc
        [.typedArray .uint8 (le_bytes 32 3), .array [.number 3, .number 4], .number 12]
      = .ok (.threw .TypeError .idxInvalidRange) ∧
    SelectorCreate_ heap sc
        [.typedArray .uint8 (le_bytes 32 3), .array [.number 3, .number 4], .number (-1)]
      = .ok (.threw .TypeError .idxInvalidRange) :=
  ⟨rfl, rfl, rfl, rfl, rfl⟩

/-- Scenario S3 through the binding: the selector for `index_counts = [3, 4]`, `idx = 7` is a
`Uint8Array` of `7 · 64` bytes when 448 bytes can be allocated, and the run ends at the
constructor of the vector when they cannot. -/
theorem selector_create_binding_S3 :
    (∀ heap : Nat, ∃ buf : List Nat,
      SelectorCreate ToyPt (heap + 448) (fun i => le_bytes 32 (i + 1))
          [.typedArray .uint8 (le_bytes 32 3), .array [.number 3, .number 4], .number 7]
        = .ok (.returned (.typedArray .uint8 buf)) ∧ buf.length = 7 * 64) ∧
    SelectorCreate ToyPt 447 (fun i => le_bytes 32 (i + 1))
        [.typedArray .uint8 (le_bytes 32 3), .array [.number 3, .number 4], .number 7]
      = .error .alloc := by
  constructor
  · intro heap
    have hsize : umul64 (epir_selector_ciphers_count [3, 4]) EPIR_CIPHER_SIZE = 448 := rfl
    have hrun := SelectorCreate__run_ok (heap + 448)
      (epir_selector_create_ (ci_ecelgamal_encrypt ToyPt) (fun i => le_bytes 32 (i + 1)))
      (le_bytes 32 3) [3, 4] 7 [] 448 (by decide) (by decide) (by decide) (by decide)
      (by decide) (by decide) hsize (by decide) (by omega)
    obtain ⟨out, hcore, hlo⟩ := selector_create_core_ok (ci_ecelgamal_encrypt ToyPt)
      encrypt_length (fun i => le_bytes 32 (i + 1)) (le_bytes 32 3) [3, 4] (by decide)
      (by decide) 7 (by decide) (List.replicate 448 0) (List.length_replicate _ _)
    refine ⟨out, ?_, hlo⟩
    have htake : ([3, 4] : List Nat).take (toUInt8 ([3, 4] : List Nat).length) = [3, 4] := rfl
    have hmod : (7 : Int).toNat % WORD = 7 := rfl
    rw [hmod, epir_selector_create_, htake, hcore] at hrun
    rw [SelectorCreate, show ([.typedArray .uint8 (le_bytes 32 3),
        .array [.number 3, .number 4], .number 7] : List JsValue) =
        .typedArray .uint8 (le_bytes 32 3) ::
          .array ([3, 4].map (fun n : Nat => JsElem.number (n : Int))) :: .number 7 :: []
        from rfl, hrun]
  · rfl

/-- A short load after a successful one: a file of `2^24` records sets the flag; a second
`LoadmG` on a file of `2^24 - 1` records throws, clears the flag, and `ReplyDecrypt` then
throws the error that mG is not loaded. -/
theorem loadmG_scenario_short_after_full (fs : String → Option (List ci_mG_t))
    (full short : String)
    (hfull : fs full = some (List.replicate EPIR_MG_MAX ⟨0, le_bytes 32 0⟩))
    (hshort : fs short = some (List.replicate (EPIR_MG_MAX - 1) ⟨0, le_bytes 32 0⟩)) :
    ∃ st1 st2 : Binding,
      LoadmG 16385 fs Binding.initial [.string full]
        = .ok (st1, .returned (.number (EPIR_MG_MAX : Int))) ∧
      st1.ismGInitialized = true ∧
      LoadmG 16385 fs st1 [.string short]
        = .ok (st2, .threw .Error (.failedToLoad ((EPIR_MG_MAX - 1 : Nat) : Int))) ∧
      st2.ismGInitialized = false ∧
      ∀ (fuel : Nat) (info : List JsValue),
        ReplyDecrypt ToyPt fuel st2 info = .ok (.threw .Error .mGNotLoaded) := by
  have hmax : EPIR_MG_MAX = 16777216 := rfl
  have h1 := LoadmG_string 16385 fs Binding.initial full []
    (le_of_eq (List.length_replicate _ _).symm) (by decide)
  rw [hfull] at h1
  simp only [List.length_replicate, Nat.min_self, if_true, decide_True] at h1
  have hlen1 : EPIR_MG_MAX ≤ (List.take EPIR_MG_MAX
      (List.replicate EPIR_MG_MAX (⟨0, le_bytes 32 0⟩ : ci_mG_t)) ++
      List.drop EPIR_MG_MAX Binding.initial.mG).length := by
    rw [List.length_append, List.length_take, List.length_replicate]
    omega
  have h2 := LoadmG_string 16385 fs ⟨_, true⟩ short [] hlen1 (by decide)
  rw [hshort] at h2
  have hmin : min (EPIR_MG_MAX - 1) EPIR_MG_MAX = EPIR_MG_MAX - 1 := by omega
  have hne : ¬ EPIR_MG_MAX - 1 = EPIR_MG_MAX := by omega
  simp only [List.length_replicate, hmin, if_neg hne, decide_eq_false hne] at h2
  exact ⟨_, _, h1, rfl, h2, rfl, fun fuel info => ReplyDecrypt_not_loaded fuel _ info rfl⟩

end EllipticPIR
